import Mathlib

/-!
# FlashMatrix: row-block I/O generator and in-memory dense matrices

A shallow embedding of `matrix/matrix_io.cpp` (classes `large_row_io` and
`row_io_generator`), of the element access of `matrix/mem_dense_matrix.h`, of the
multiplication kernels of `matrix/test/test-mem_matrix.cpp` and of the operator
selection of `Rpkg/src/matrix_interface.cpp`, together with the properties the
specification states about them.

Conventions of the embedding.

* `size_t` values are natural numbers.  The one `size_t` subtraction of the
  source that can underflow on small inputs (`tot_num_rows - i * row_block_size`
  in the constructor) and `blocks.size() - 1` wrap modulo `2 ^ 64`, as does the
  conversion of an `off_t` difference to `size_t`.
* `off_t` values (byte offsets, row ids) are integers.
* `blocks->at(i)` throws when `i` is out of range and `assert` aborts; both are
  results `Except.error` of the embedded functions.
* The spin lock makes every `get_next_io` / `steal_io` call atomic, so a call is
  a function from the generator state to a request and the next state.
-/

namespace fm

/-! ## Data model -/

/-- One entry of the row-block vector: the byte offset where the row block starts. -/
structure row_block where
  offset : Int
deriving DecidableEq, Repr

/-- Accessor `row_block::get_offset`. -/
def row_block.get_offset (b : row_block) : Int := b.offset

/-- Modelled from the spec: `matrix_config.h` is not among the sources; the
configuration surface is `row_block_size` (rows per on-disk block), `rb_io_size`
(row blocks per coarse chunk) and `rb_steal_io_size` (row blocks per steal unit).
It stands for the global `matrix_conf`. -/
structure matrix_config where
  row_block_size : Nat
  rb_io_size : Nat
  rb_steal_io_size : Nat
deriving DecidableEq, Repr

/-- Accessor `matrix_config::get_row_block_size`. -/
def matrix_config.get_row_block_size (cfg : matrix_config) : Nat := cfg.row_block_size

/-- Accessor `matrix_config::get_rb_io_size`. -/
def matrix_config.get_rb_io_size (cfg : matrix_config) : Nat := cfg.rb_io_size

/-- Accessor `matrix_config::get_rb_steal_io_size`. -/
def matrix_config.get_rb_steal_io_size (cfg : matrix_config) : Nat := cfg.rb_steal_io_size

/-- Location `(row, col)` of the top-left element of a request. -/
structure matrix_loc where
  row_idx : Int
  col_idx : Int
deriving DecidableEq, Repr

/-- Modelled from the spec: `matrix_io.h` is not among the sources; an IORequest is
`{ top_left, num_rows, num_cols, file_id, byte_offset, byte_size, valid }`, and
`valid` is false only for the empty request. -/
structure matrix_io where
  top_left : matrix_loc
  num_rows : Nat
  num_cols : Nat
  file_id : Int
  byte_offset : Int
  byte_size : Nat
  valid : Bool
deriving DecidableEq, Repr

/-- Modelled from the spec: the default-constructed `matrix_io ret;`, the empty and
invalid request returned when no work remains. -/
def matrix_io.empty : matrix_io :=
  { top_left := ⟨0, 0⟩, num_rows := 0, num_cols := 0, file_id := 0,
    byte_offset := 0, byte_size := 0, valid := false }

/-- Modelled from the spec: the five-argument constructor
`matrix_io(top_left, num_rows, num_cols, data_loc_t(file_id, off), size)` builds a
valid request. -/
def matrix_io.mk_io (top_left : matrix_loc) (num_rows num_cols : Nat) (file_id : Int)
    (off : Int) (size : Nat) : matrix_io :=
  { top_left := top_left, num_rows := num_rows, num_cols := num_cols, file_id := file_id,
    byte_offset := off, byte_size := size, valid := true }

/-- Accessor `matrix_io::is_valid`. -/
def matrix_io.is_valid (r : matrix_io) : Bool := r.valid

/-- How a call can fail: `std::vector::at` throws `std::out_of_range`, a failed
`assert` aborts. -/
inductive io_error where
  | out_of_range
  | assertion_failed
deriving DecidableEq, Repr

/-! ## Machine arithmetic -/

/-- Subtraction of two `size_t` values (both below `2 ^ 64`): wraps modulo `2 ^ 64` on
underflow. -/
def size_t_sub (a b : Nat) : Nat :=
  if b ≤ a then a - b else a + 2 ^ 64 - b

/-- Conversion of an `off_t` difference to `size_t`: a negative value wraps
modulo `2 ^ 64`. -/
def off_to_size (d : Int) : Nat :=
  if 0 ≤ d then d.toNat else (d + 2 ^ 64).toNat

/-! ## `large_row_io` -/

/-- The class `large_row_io`: a run of row blocks not yet handed out.  The pointer
`blocks` to the shared read-only row-block vector is passed to the methods
instead of being stored. -/
structure large_row_io where
  first_row_block : Nat
  num_row_blocks : Nat
  tot_num_rows : Nat
deriving DecidableEq, Repr

/-- Method `large_row_io::has_data`. -/
def large_row_io.has_data (c : large_row_io) : Bool := decide (c.num_row_blocks > 0)

/-- Method `large_row_io::get_io`: one request for all remaining row blocks. -/
def large_row_io.get_io (cfg : matrix_config) (blocks : List row_block) (c : large_row_io)
    (tot_num_cols : Nat) (file_id : Int) : Except io_error (matrix_io × large_row_io) :=
  let first_row_id : Int := (c.first_row_block : Int) * (cfg.get_row_block_size : Int)
  let top_left : matrix_loc := ⟨first_row_id, 0⟩
  let num_rows := c.tot_num_rows
  match blocks[c.first_row_block]? with
  | none => Except.error io_error.out_of_range
  | some b0 =>
    let first_row_offset := b0.get_offset
    match blocks[c.first_row_block + c.num_row_blocks]? with
    | none => Except.error io_error.out_of_range
    | some b1 =>
      let size := off_to_size (b1.get_offset - first_row_offset)
      let ret := matrix_io.mk_io top_left num_rows tot_num_cols file_id first_row_offset size
      Except.ok (ret,
        { first_row_block := c.first_row_block + c.num_row_blocks,
          num_row_blocks := 0,
          tot_num_rows := 0 })

/-- Method `large_row_io::get_sub_io`: one request for at most `rb_steal_io_size`
row blocks from the front. -/
def large_row_io.get_sub_io (cfg : matrix_config) (blocks : List row_block) (c : large_row_io)
    (tot_num_cols : Nat) (file_id : Int) : Except io_error (matrix_io × large_row_io) :=
  let first_row_id : Int := (c.first_row_block : Int) * (cfg.get_row_block_size : Int)
  let top_left : matrix_loc := ⟨first_row_id, 0⟩
  let num_curr_row_blocks := min c.num_row_blocks cfg.get_rb_steal_io_size
  let num_rows := min c.tot_num_rows (num_curr_row_blocks * cfg.get_row_block_size)
  match blocks[c.first_row_block]? with
  | none => Except.error io_error.out_of_range
  | some b0 =>
    let first_row_offset := b0.get_offset
    match blocks[c.first_row_block + num_curr_row_blocks]? with
    | none => Except.error io_error.out_of_range
    | some b1 =>
      let size := off_to_size (b1.get_offset - first_row_offset)
      let ret := matrix_io.mk_io top_left num_rows tot_num_cols file_id first_row_offset size
      Except.ok (ret,
        { first_row_block := c.first_row_block + num_curr_row_blocks,
          num_row_blocks := c.num_row_blocks - num_curr_row_blocks,
          tot_num_rows := c.tot_num_rows - num_rows })

/-! ## `row_io_generator` -/

/-- The class `row_io_generator`: the chunks of one worker and the index of the
chunk being served. -/
structure row_io_generator where
  ios : List large_row_io
  curr_io_off : Nat
  file_id : Int
  tot_num_cols : Nat
deriving DecidableEq, Repr

/-- Method `row_io_generator::has_next_io`. -/
def row_io_generator.has_next_io (g : row_io_generator) : Bool :=
  decide (g.curr_io_off < g.ios.length)

/-- Method `row_io_generator::get_next_io`, called by the owner of the generator. -/
def row_io_generator.get_next_io (cfg : matrix_config) (blocks : List row_block)
    (g : row_io_generator) : Except io_error (matrix_io × row_io_generator) :=
  if h : g.curr_io_off < g.ios.length then
    let c := g.ios[g.curr_io_off]
    if c.has_data then
      match c.get_io cfg blocks g.tot_num_cols g.file_id with
      | Except.error e => Except.error e
      | Except.ok (ret, c1) =>
        if ret.is_valid then
          Except.ok (ret, { g with ios := g.ios.set g.curr_io_off c1,
                                    curr_io_off := g.curr_io_off + 1 })
        else Except.error io_error.assertion_failed
    else Except.error io_error.assertion_failed
  else Except.ok (matrix_io.empty, g)

/-- Method `row_io_generator::steal_io`, called by the other workers. -/
def row_io_generator.steal_io (cfg : matrix_config) (blocks : List row_block)
    (g : row_io_generator) : Except io_error (matrix_io × row_io_generator) :=
  if h : g.curr_io_off < g.ios.length then
    let c := g.ios[g.curr_io_off]
    if c.has_data then
      match c.get_sub_io cfg blocks g.tot_num_cols g.file_id with
      | Except.error e => Except.error e
      | Except.ok (ret, c1) =>
        let off1 := if c1.has_data then g.curr_io_off else g.curr_io_off + 1
        if ret.is_valid then
          Except.ok (ret, { g with ios := g.ios.set g.curr_io_off c1, curr_io_off := off1 })
        else Except.error io_error.assertion_failed
    else Except.error io_error.assertion_failed
  else Except.ok (matrix_io.empty, g)

/-- The loop of the constructor, `for (; i < n; i += step)`, where `n` is
`blocks.size() - 1` and `step` is `rb_io_size * num_gens`.  The result is `none`
when the fuel runs out before the loop condition fails. -/
def ctor_loop (cfg : matrix_config) (n tot_num_rows step : Nat) :
    Nat → Nat → Option (List large_row_io)
  | 0, i => if i < n then none else some []
  | fuel + 1, i =>
    if i < n then
      let num_row_blocks := min cfg.get_rb_io_size (n - i)
      let num_rows := min (num_row_blocks * cfg.get_row_block_size)
        (size_t_sub tot_num_rows (i * cfg.get_row_block_size))
      match ctor_loop cfg n tot_num_rows step fuel (i + step) with
      | none => none
      | some rest =>
        some ({ first_row_block := i, num_row_blocks := num_row_blocks,
                tot_num_rows := num_rows } :: rest)
    else some []

/-- The constructor `row_io_generator::row_io_generator`.  The loop runs at most
`blocks.size() - 1` times when its step is positive, so that much fuel is enough;
`none` stands for a loop that never ends (step `0` with a block left to serve). -/
def row_io_generator.create (cfg : matrix_config) (blocks : List row_block)
    (tot_num_rows tot_num_cols : Nat) (file_id : Int) (gen_id num_gens : Nat) :
    Option row_io_generator :=
  let n := size_t_sub blocks.length 1
  match ctor_loop cfg n tot_num_rows (cfg.get_rb_io_size * num_gens) n
      (gen_id * cfg.get_rb_io_size) with
  | none => none
  | some ios =>
    some { ios := ios, curr_io_off := 0, file_id := file_id, tot_num_cols := tot_num_cols }

/-! ## Calls and runs -/

/-- The two calls a worker makes on a generator: `get_next_io` on its own one,
`steal_io` on another one. -/
inductive io_call where
  | next
  | steal
deriving DecidableEq, Repr

/-- One atomic call on a generator. -/
def row_io_generator.call (cfg : matrix_config) (blocks : List row_block)
    (k : io_call) (g : row_io_generator) : Except io_error (matrix_io × row_io_generator) :=
  match k with
  | io_call.next => g.get_next_io cfg blocks
  | io_call.steal => g.steal_io cfg blocks

/-- Generator states that arise from the constructor by `get_next_io` and `steal_io`
calls.  The fields of the class are private, so these are all the states there are. -/
inductive reachable (cfg : matrix_config) (blocks : List row_block)
    (tot_num_rows tot_num_cols : Nat) (file_id : Int) (gen_id num_gens : Nat) :
    row_io_generator → Prop
  | init {g : row_io_generator} :
      row_io_generator.create cfg blocks tot_num_rows tot_num_cols file_id gen_id num_gens
        = some g →
      reachable cfg blocks tot_num_rows tot_num_cols file_id gen_id num_gens g
  | step {g g1 : row_io_generator} {k : io_call} {r : matrix_io} :
      reachable cfg blocks tot_num_rows tot_num_cols file_id gen_id num_gens g →
      g.call cfg blocks k = Except.ok (r, g1) →
      reachable cfg blocks tot_num_rows tot_num_cols file_id gen_id num_gens g1

/-- A sequence of calls on one generator: the request returned by each call and the
state the call leaves behind. -/
def run_calls (cfg : matrix_config) (blocks : List row_block) :
    row_io_generator → List io_call → Except io_error (List (matrix_io × row_io_generator))
  | _, [] => Except.ok []
  | g, k :: ks =>
    match g.call cfg blocks k with
    | Except.error e => Except.error e
    | Except.ok (r, g1) =>
      match run_calls cfg blocks g1 ks with
      | Except.error e => Except.error e
      | Except.ok rest => Except.ok ((r, g1) :: rest)

/-- The generators of workers `0 .. k - 1` out of `num_gens`, in this order. -/
def create_gens (cfg : matrix_config) (blocks : List row_block)
    (tot_num_rows tot_num_cols : Nat) (file_id : Int) (num_gens : Nat) :
    Nat → Option (List row_io_generator)
  | 0 => some []
  | k + 1 =>
    match create_gens cfg blocks tot_num_rows tot_num_cols file_id num_gens k,
        row_io_generator.create cfg blocks tot_num_rows tot_num_cols file_id k num_gens with
    | some gs, some g => some (gs ++ [g])
    | _, _ => none

/-- One generator per worker, with `gen_id = 0 .. num_gens - 1`. -/
def create_all (cfg : matrix_config) (blocks : List row_block)
    (tot_num_rows tot_num_cols : Nat) (file_id : Int) (num_gens : Nat) :
    Option (List row_io_generator) :=
  create_gens cfg blocks tot_num_rows tot_num_cols file_id num_gens num_gens

/-- An interleaving of atomic calls on the generators of all workers: call `(i, k)` is
call `k` on generator `i`.  The result is the list of returned requests, in order,
and the final generators. -/
def run_workers (cfg : matrix_config) (blocks : List row_block) :
    List row_io_generator → List (Nat × io_call) →
    Except io_error (List matrix_io × List row_io_generator)
  | gens, [] => Except.ok ([], gens)
  | gens, (i, k) :: cs =>
    match gens[i]? with
    | none => Except.error io_error.out_of_range
    | some g =>
      match g.call cfg blocks k with
      | Except.error e => Except.error e
      | Except.ok (r, g1) =>
        match run_workers cfg blocks (gens.set i g1) cs with
        | Except.error e => Except.error e
        | Except.ok (rs, gens1) => Except.ok (r :: rs, gens1)

/-! ## Decoding requests and chunks -/

/-- The row blocks a request reads: those whose first byte lies in the byte range
`[byte_offset, byte_offset + byte_size)` of the request. -/
def covered_blocks (blocks : List row_block) (r : matrix_io) : List Nat :=
  (List.range (blocks.length - 1)).filter fun b =>
    match blocks[b]? with
    | some rb => decide (r.byte_offset ≤ rb.offset ∧ rb.offset < r.byte_offset + r.byte_size)
    | none => false

/-- The row blocks a chunk still holds, `[first_row_block, first_row_block + num_row_blocks)`. -/
def large_row_io.block_range (c : large_row_io) : List Nat :=
  List.range' c.first_row_block c.num_row_blocks

/-- The row blocks a generator still holds. -/
def row_io_generator.block_range (g : row_io_generator) : List Nat :=
  g.ios.flatMap large_row_io.block_range

/-- The offsets of the row-block vector are strictly increasing. -/
def offsets_increasing (blocks : List row_block) : Prop :=
  List.Pairwise (fun a b => a.offset < b.offset) blocks

/-- Rows of row block `b` when `tot_num_rows` rows are cut into `n` row blocks: every
row block has `row_block_size` rows except the last one, which has the rest. -/
def block_num_rows (cfg : matrix_config) (n tot_num_rows b : Nat) : Nat :=
  if b + 1 = n then tot_num_rows - (n - 1) * cfg.row_block_size else cfg.row_block_size

/-- Rows of the row blocks `[first, first + count)`. -/
def range_num_rows (cfg : matrix_config) (n tot_num_rows first count : Nat) : Nat :=
  ((List.range' first count).map (block_num_rows cfg n tot_num_rows)).sum

/-- The chunk the constructor builds for the run of row blocks starting at `i`, where
`n` is the number of row blocks. -/
def ctor_chunk (cfg : matrix_config) (n tot_num_rows i : Nat) : large_row_io :=
  { first_row_block := i,
    num_row_blocks := min cfg.rb_io_size (n - i),
    tot_num_rows := min (min cfg.rb_io_size (n - i) * cfg.row_block_size)
      (size_t_sub tot_num_rows (i * cfg.row_block_size)) }

/-! ## Auxiliary definitions for the proofs -/

/-- Row blocks a call takes from the chunk `c` it serves: all of them for
`get_next_io`, at most `rb_steal_io_size` for `steal_io`. -/
def taken_blocks (cfg : matrix_config) (k : io_call) (c : large_row_io) : Nat :=
  match k with
  | io_call.next => c.num_row_blocks
  | io_call.steal => min c.num_row_blocks cfg.rb_steal_io_size

/-- Rows a call takes from the chunk `c` it serves. -/
def taken_rows (cfg : matrix_config) (k : io_call) (c : large_row_io) : Nat :=
  match k with
  | io_call.next => c.tot_num_rows
  | io_call.steal =>
    min c.tot_num_rows (min c.num_row_blocks cfg.rb_steal_io_size * cfg.row_block_size)

/-- The chunk a call leaves behind in place of the chunk `c` it serves. -/
def chunk_after (cfg : matrix_config) (k : io_call) (c : large_row_io) : large_row_io :=
  { first_row_block := c.first_row_block + taken_blocks cfg k c,
    num_row_blocks := c.num_row_blocks - taken_blocks cfg k c,
    tot_num_rows := c.tot_num_rows - taken_rows cfg k c }

/-- The request a call returns when it serves chunk `c` of generator `g`, where `b0`
and `b1` are the entries of the row-block vector at the first taken row block and
right after the last taken one. -/
def request_of (cfg : matrix_config) (k : io_call) (g : row_io_generator) (c : large_row_io)
    (b0 b1 : row_block) : matrix_io :=
  matrix_io.mk_io ⟨(c.first_row_block : Int) * (cfg.row_block_size : Int), 0⟩
    (taken_rows cfg k c) g.tot_num_cols g.file_id b0.offset
    (off_to_size (b1.offset - b0.offset))

/-- The state a call leaves behind when it serves chunk `c` of generator `g`. -/
def gen_after (cfg : matrix_config) (k : io_call) (g : row_io_generator) (c : large_row_io) :
    row_io_generator :=
  { g with
    ios := g.ios.set g.curr_io_off (chunk_after cfg k c),
    curr_io_off :=
      if 0 < (chunk_after cfg k c).num_row_blocks then g.curr_io_off else g.curr_io_off + 1 }

/-- The invariant of a generator `g` built as `g0` over `n` row blocks: the cursor is
in range, chunks before it are empty, chunks from it on are not, chunks after it
are as built, and every chunk is a suffix of the chunk built at its place. -/
structure gen_inv (n : Nat) (g0 g : row_io_generator) : Prop where
  len_eq : g.ios.length = g0.ios.length
  cursor_le : g.curr_io_off ≤ g.ios.length
  passed : ∀ (i : Nat) (c : large_row_io), g.ios[i]? = some c → i < g.curr_io_off → c.num_row_blocks = 0
  ahead : ∀ (i : Nat) (c : large_row_io), g.ios[i]? = some c → g.curr_io_off ≤ i → 0 < c.num_row_blocks
  untouched : ∀ (i : Nat) (c : large_row_io), g.ios[i]? = some c → g.curr_io_off < i → g0.ios[i]? = some c
  suffix : ∀ (i : Nat) (c c0 : large_row_io), g.ios[i]? = some c → g0.ios[i]? = some c0 →
    c0.first_row_block ≤ c.first_row_block ∧
    c.first_row_block + c.num_row_blocks = c0.first_row_block + c0.num_row_blocks
  in_range : ∀ (i : Nat) (c : large_row_io), g.ios[i]? = some c → c.first_row_block + c.num_row_blocks ≤ n
  same_file : g.file_id = g0.file_id
  same_cols : g.tot_num_cols = g0.tot_num_cols

/-! ## A concrete matrix

Seven row blocks of four rows (the last one holds two), 26 rows, 3 columns, two
workers, chunks of two row blocks, steals of one row block. -/

/-- Configuration of the example. -/
def example_cfg : matrix_config :=
  { row_block_size := 4, rb_io_size := 2, rb_steal_io_size := 1 }

/-- Row-block vector of the example: seven row blocks and the end of the file. -/
def example_blocks : List row_block :=
  [⟨0⟩, ⟨10⟩, ⟨25⟩, ⟨30⟩, ⟨47⟩, ⟨50⟩, ⟨61⟩, ⟨80⟩]

/-- Generator of worker 1 of the example, as built. -/
def example_gen : row_io_generator :=
  { ios := [⟨2, 2, 8⟩, ⟨6, 1, 2⟩], curr_io_off := 0, file_id := 0, tot_num_cols := 3 }

/-- Generator of worker 1 of the example after one `steal_io`. -/
def example_gen_stolen : row_io_generator :=
  { ios := [⟨3, 1, 4⟩, ⟨6, 1, 2⟩], curr_io_off := 0, file_id := 0, tot_num_cols := 3 }

/-- An interleaving of calls on the two generators of the example: both generators are
robbed once, both owners read the rest of their first chunk, and the second chunks are
stolen one row block at a time. -/
def example_calls : List (Nat × io_call) :=
  [(0, io_call.steal), (1, io_call.steal), (0, io_call.next), (1, io_call.next),
    (0, io_call.steal), (1, io_call.steal), (0, io_call.steal)]

/-- Request `r` reads the row blocks `[f, f + m)`: these are the row blocks that start in
its byte range, its byte range runs from the offset of row block `f` to the offset of
row block `f + m`, and its top-left row is `f * row_block_size`. -/
def serves (cfg : matrix_config) (blocks : List row_block) (r : matrix_io) (f m : Nat) : Prop :=
  covered_blocks blocks r = List.range' f m ∧
    ∃ b0 b1, blocks[f]? = some b0 ∧ blocks[f + m]? = some b1 ∧
      r.byte_offset = b0.offset ∧ (r.byte_size : Int) = b1.offset - b0.offset ∧
      r.top_left.row_idx = (f : Int) * (cfg.row_block_size : Int)

/-- Number of row blocks a generator holds, summed over its chunks. -/
def row_io_generator.num_blocks (g : row_io_generator) : Nat :=
  (g.ios.map large_row_io.num_row_blocks).sum

/-! ## In-memory dense matrices (`mem_dense_matrix.h`)

The buffer behind `std::shared_ptr<char> data` is a map from a byte offset (relative to
`data.get()`) to the entry stored there; a pointer into the buffer is its byte offset.
All accesses of the code are at multiples of the entry size, so entries do not overlap.
The carrier `α` of the entries is arbitrary. -/

/-- The layouts `matrix_layout_t::L_ROW` and `matrix_layout_t::L_COL`. -/
inductive matrix_layout_t where
  | L_ROW
  | L_COL
deriving DecidableEq, Repr

/-- Store of one entry through a typed pointer at byte offset `off`. -/
def mem_write {α : Type} (data : Nat → α) (off : Nat) (v : α) : Nat → α :=
  fun o => if o = off then v else data o

/-- The class `mem_row_dense_matrix`: an in-memory dense matrix with data organized in
rows.  `entry_size` is `get_entry_size()`, the size of the scalar type. -/
structure mem_row_dense_matrix (α : Type) where
  nrow : Nat
  ncol : Nat
  entry_size : Nat
  data : Nat → α

/-- The class `mem_col_dense_matrix`: an in-memory dense matrix with data organized in
columns. -/
structure mem_col_dense_matrix (α : Type) where
  nrow : Nat
  ncol : Nat
  entry_size : Nat
  data : Nat → α

/-- Bytes the constructor of `mem_row_dense_matrix` allocates,
`nrow * ncol * type.get_size()`. -/
def mem_row_dense_matrix.alloc_size {α : Type} (m : mem_row_dense_matrix α) : Nat :=
  m.nrow * m.ncol * m.entry_size

/-- Bytes the constructor of `mem_col_dense_matrix` allocates. -/
def mem_col_dense_matrix.alloc_size {α : Type} (m : mem_col_dense_matrix α) : Nat :=
  m.nrow * m.ncol * m.entry_size

/-- Method `mem_row_dense_matrix::get_row`: pointer to the start of a row. -/
def mem_row_dense_matrix.get_row {α : Type} (m : mem_row_dense_matrix α) (row : Nat) : Nat :=
  row * m.ncol * m.entry_size

/-- Method `mem_row_dense_matrix::get`: pointer to the entry at `(row, col)`. -/
def mem_row_dense_matrix.get {α : Type} (m : mem_row_dense_matrix α) (row col : Nat) : Nat :=
  m.get_row row + col * m.entry_size

/-- Method `mem_col_dense_matrix::get_col`: pointer to the start of a column. -/
def mem_col_dense_matrix.get_col {α : Type} (m : mem_col_dense_matrix α) (col : Nat) : Nat :=
  col * m.nrow * m.entry_size

/-- Method `mem_col_dense_matrix::get`: pointer to the entry at `(row, col)`. -/
def mem_col_dense_matrix.get {α : Type} (m : mem_col_dense_matrix α) (row col : Nat) : Nat :=
  m.get_col col + row * m.entry_size

/-- The class `mem_dense_matrix`, with its two subclasses. -/
inductive mem_dense_matrix (α : Type) where
  | row (m : mem_row_dense_matrix α)
  | col (m : mem_col_dense_matrix α)

/-- Method `store_layout`. -/
def mem_dense_matrix.store_layout {α : Type} : mem_dense_matrix α → matrix_layout_t
  | mem_dense_matrix.row _ => matrix_layout_t.L_ROW
  | mem_dense_matrix.col _ => matrix_layout_t.L_COL

/-- Method `get_num_rows`. -/
def mem_dense_matrix.get_num_rows {α : Type} : mem_dense_matrix α → Nat
  | mem_dense_matrix.row m => m.nrow
  | mem_dense_matrix.col m => m.nrow

/-- Method `get_num_cols`. -/
def mem_dense_matrix.get_num_cols {α : Type} : mem_dense_matrix α → Nat
  | mem_dense_matrix.row m => m.ncol
  | mem_dense_matrix.col m => m.ncol

/-- Method `get_entry_size`. -/
def mem_dense_matrix.get_entry_size {α : Type} : mem_dense_matrix α → Nat
  | mem_dense_matrix.row m => m.entry_size
  | mem_dense_matrix.col m => m.entry_size

/-- Bytes allocated for the buffer of the matrix. -/
def mem_dense_matrix.alloc_size {α : Type} : mem_dense_matrix α → Nat
  | mem_dense_matrix.row m => m.alloc_size
  | mem_dense_matrix.col m => m.alloc_size

/-- The virtual method `mem_dense_matrix::get`: pointer to the entry at `(row, col)`. -/
def mem_dense_matrix.get {α : Type} : mem_dense_matrix α → Nat → Nat → Nat
  | mem_dense_matrix.row m, r, c => m.get r c
  | mem_dense_matrix.col m, r, c => m.get r c

/-- The buffer of the matrix. -/
def mem_dense_matrix.data {α : Type} : mem_dense_matrix α → Nat → α
  | mem_dense_matrix.row m => m.data
  | mem_dense_matrix.col m => m.data

/-- The matrix with one entry of its buffer overwritten. -/
def mem_dense_matrix.store {α : Type} : mem_dense_matrix α → Nat → α → mem_dense_matrix α
  | mem_dense_matrix.row m, off, v => mem_dense_matrix.row { m with data := mem_write m.data off v }
  | mem_dense_matrix.col m, off, v => mem_dense_matrix.col { m with data := mem_write m.data off v }

/-- The class `type_mem_dense_matrix<EntryType>`: typed access to a `mem_dense_matrix`. -/
structure type_mem_dense_matrix (α : Type) where
  m : mem_dense_matrix α

/-- Method `type_mem_dense_matrix::get_num_rows`. -/
def type_mem_dense_matrix.get_num_rows {α : Type} (t : type_mem_dense_matrix α) : Nat :=
  t.m.get_num_rows

/-- Method `type_mem_dense_matrix::get_num_cols`. -/
def type_mem_dense_matrix.get_num_cols {α : Type} (t : type_mem_dense_matrix α) : Nat :=
  t.m.get_num_cols

/-- Method `type_mem_dense_matrix::get`: `*(EntryType *) m->get(row, col)`. -/
def type_mem_dense_matrix.get {α : Type} (t : type_mem_dense_matrix α) (row col : Nat) : α :=
  t.m.data (t.m.get row col)

/-- Method `type_mem_dense_matrix::set`: `*(EntryType *) m->get(row, col) = v`. -/
def type_mem_dense_matrix.set {α : Type} (t : type_mem_dense_matrix α) (row col : Nat) (v : α) :
    type_mem_dense_matrix α :=
  { m := t.m.store (t.m.get row col) v }

/-- Modelled from the spec: the bodies of `transpose()` are not among the sources; the
transposed matrix is the matrix of the other layout on the same data with the numbers
of rows and columns exchanged (a zero-copy view, as `get_t_mat` documents). -/
def mem_dense_matrix.transpose {α : Type} : mem_dense_matrix α → mem_dense_matrix α
  | mem_dense_matrix.row m =>
    mem_dense_matrix.col { nrow := m.ncol, ncol := m.nrow, entry_size := m.entry_size,
                           data := m.data }
  | mem_dense_matrix.col m =>
    mem_dense_matrix.row { nrow := m.ncol, ncol := m.nrow, entry_size := m.entry_size,
                           data := m.data }

/-- Modelled from the spec: `transpose` seen through the typed wrapper. -/
def type_mem_dense_matrix.transpose {α : Type} (t : type_mem_dense_matrix α) :
    type_mem_dense_matrix α :=
  { m := t.m.transpose }

/-! ## The multiplication kernels of `test-mem_matrix.cpp`

The stores `detail::mem_row_matrix_store` and `detail::mem_col_matrix_store` the kernels
read are not among the sources; their `get_row` and `get_col` are those of
`mem_row_dense_matrix` and `mem_col_dense_matrix`.  `sz` is `sizeof(Type)`, the step of
the typed pointers.  The iterations of the `omp parallel for` loops write disjoint
entries and are run in index order. -/

/-- The loop over `k` of `test_MM2`: `out_row[j] += in_row[k] * in_col[k]`, where
`in_row`, `in_col` and `out_row` are pointers into the three buffers. -/
def test_MM2_k_loop {α : Type} [Add α] [Mul α] (sz ncol : Nat)
    (row_m : mem_row_dense_matrix α) (col_m : mem_col_dense_matrix α)
    (in_row in_col out_row j : Nat) (out : Nat → α) : Nat → α :=
  (List.range ncol).foldl
    (fun out k => mem_write out (out_row + j * sz)
      (out (out_row + j * sz) + row_m.data (in_row + k * sz) * col_m.data (in_col + k * sz)))
    out

/-- The loop over `j` of `test_MM2`. -/
def test_MM2_j_loop {α : Type} [Zero α] [Add α] [Mul α] (sz ncol right_ncol : Nat)
    (row_m : mem_row_dense_matrix α) (col_m : mem_col_dense_matrix α)
    (res_row_m : mem_row_dense_matrix α) (i : Nat) (out : Nat → α) : Nat → α :=
  let in_row := row_m.get_row i
  let out_row := res_row_m.get_row i
  (List.range right_ncol).foldl
    (fun out j =>
      let in_col := col_m.get_col j
      test_MM2_k_loop sz ncol row_m col_m in_row in_col out_row j
        (mem_write out (out_row + j * sz) 0))
    out

/-- The kernel of `test_MM2`: the loop over `i`; the result is the buffer of the result
matrix. -/
def test_MM2_kernel {α : Type} [Zero α] [Add α] [Mul α] (sz nrow ncol right_ncol : Nat)
    (row_m : mem_row_dense_matrix α) (col_m : mem_col_dense_matrix α)
    (res_row_m : mem_row_dense_matrix α) : Nat → α :=
  (List.range nrow).foldl
    (fun out i => test_MM2_j_loop sz ncol right_ncol row_m col_m res_row_m i out)
    res_row_m.data

/-- The function `test_MM2`: a row-major `nrow x ncol` matrix `m1`, a column-major
`ncol x right_ncol` matrix `m2` and a row-major `nrow x right_ncol` result are created
with entries of type `Type`, and the kernel is run.  The contents `m1_data` and `m2_data`
of the inputs (set by the fill rules in the test) and the initial contents `res_data` of
the result (not initialized in the test) are arbitrary. -/
def test_MM2 {α : Type} [Zero α] [Add α] [Mul α] (sz nrow ncol right_ncol : Nat)
    (m1_data m2_data res_data : Nat → α) : type_mem_dense_matrix α :=
  let row_m : mem_row_dense_matrix α :=
    { nrow := nrow, ncol := ncol, entry_size := sz, data := m1_data }
  let col_m : mem_col_dense_matrix α :=
    { nrow := ncol, ncol := right_ncol, entry_size := sz, data := m2_data }
  let res_row_m : mem_row_dense_matrix α :=
    { nrow := nrow, ncol := right_ncol, entry_size := sz, data := res_data }
  { m := mem_dense_matrix.row
      { res_row_m with
        data := test_MM2_kernel sz nrow ncol right_ncol row_m col_m res_row_m } }

/-- The loop over `k` of `test_MM3`: `out_col[i] += left_col[i] * right_col[k]`, where
`left_col` is the pointer `left_m.get_col(k)`. -/
def test_MM3_k_loop {α : Type} [Add α] [Mul α] (sz ncol : Nat)
    (left_m right_m : mem_col_dense_matrix α) (right_col out_col i : Nat) (out : Nat → α) :
    Nat → α :=
  (List.range ncol).foldl
    (fun out k =>
      let left_col := left_m.get_col k
      mem_write out (out_col + i * sz)
        (out (out_col + i * sz)
          + left_m.data (left_col + i * sz) * right_m.data (right_col + k * sz)))
    out

/-- The loop over `j` of `test_MM3`. -/
def test_MM3_j_loop {α : Type} [Zero α] [Add α] [Mul α] (sz ncol right_ncol : Nat)
    (left_m right_m res_col_m : mem_col_dense_matrix α) (i : Nat) (out : Nat → α) : Nat → α :=
  (List.range right_ncol).foldl
    (fun out j =>
      let right_col := right_m.get_col j
      let out_col := res_col_m.get_col j
      test_MM3_k_loop sz ncol left_m right_m right_col out_col i
        (mem_write out (out_col + i * sz) 0))
    out

/-- The kernel of `test_MM3`: the loop over `i`. -/
def test_MM3_kernel {α : Type} [Zero α] [Add α] [Mul α] (sz nrow ncol right_ncol : Nat)
    (left_m right_m res_col_m : mem_col_dense_matrix α) : Nat → α :=
  (List.range nrow).foldl
    (fun out i => test_MM3_j_loop sz ncol right_ncol left_m right_m res_col_m i out)
    res_col_m.data

/-- The function `test_MM3`: as `test_MM2`, with all three matrices column-major. -/
def test_MM3 {α : Type} [Zero α] [Add α] [Mul α] (sz nrow ncol right_ncol : Nat)
    (m1_data m2_data res_data : Nat → α) : type_mem_dense_matrix α :=
  let left_m : mem_col_dense_matrix α :=
    { nrow := nrow, ncol := ncol, entry_size := sz, data := m1_data }
  let right_m : mem_col_dense_matrix α :=
    { nrow := ncol, ncol := right_ncol, entry_size := sz, data := m2_data }
  let res_col_m : mem_col_dense_matrix α :=
    { nrow := nrow, ncol := right_ncol, entry_size := sz, data := res_data }
  { m := mem_dense_matrix.col
      { res_col_m with
        data := test_MM3_kernel sz nrow ncol right_ncol left_m right_m res_col_m } }

/-- The value both kernels accumulate for one entry of the result: starting from `0`,
the products `a k * b k` are added in the order `k = 0, ..., ncol - 1`. -/
def dot_in_order {α : Type} [Zero α] [Add α] [Mul α] (ncol : Nat) (a b : Nat → α) : α :=
  (List.range ncol).foldl (fun acc k => acc + a k * b k) 0

/-- The nest of three loops both kernels share: entry `(i, j)` of the result lives at
`addr i j`, and the factors of its `k`-th product are `a i k` and `b k j`. -/
def mm_loops {α : Type} [Zero α] [Add α] [Mul α] (nrow ncol right_ncol : Nat)
    (addr : Nat → Nat → Nat) (a b : Nat → Nat → α) (out : Nat → α) : Nat → α :=
  (List.range nrow).foldl
    (fun out i =>
      (List.range right_ncol).foldl
        (fun out j =>
          (List.range ncol).foldl
            (fun out k => mem_write out (addr i j) (out (addr i j) + a i k * b k j))
            (mem_write out (addr i j) 0))
        out)
    out

/-- The factory `type_mem_dense_matrix<EntryType>::create(nrow, ncol, layout)`: a matrix
of the given layout with entries of size `sz`; `data` is the content of its buffer. -/
def type_mem_dense_matrix.create {α : Type} (sz nrow ncol : Nat) (layout : matrix_layout_t)
    (data : Nat → α) : type_mem_dense_matrix α :=
  match layout with
  | matrix_layout_t.L_COL =>
    { m := mem_dense_matrix.col { nrow := nrow, ncol := ncol, entry_size := sz, data := data } }
  | matrix_layout_t.L_ROW =>
    { m := mem_dense_matrix.row { nrow := nrow, ncol := ncol, entry_size := sz, data := data } }

/-- Buffer of eight-byte entries holding the integers `l` one after the other. -/
def buffer_of (l : List Int) : Nat → Int :=
  fun o => l.getD (o / 8) 0

/-- The column-major `2 x 2` integer matrix with rows `[1,2],[3,4]` and eight-byte
entries. -/
def example_col_matrix : type_mem_dense_matrix Int :=
  type_mem_dense_matrix.create 8 2 2 matrix_layout_t.L_COL (buffer_of [1, 3, 2, 4])

/-! ## The R interface (`Rpkg/src/matrix_interface.cpp`) -/

/-- Modelled from the spec: `generic_type.h` is not among the sources; the primitive
types of entries the interface distinguishes (`prim_type::P_BOOL`, `P_INTEGER`,
`P_DOUBLE`). -/
inductive prim_type where
  | P_BOOL
  | P_INTEGER
  | P_DOUBLE
deriving DecidableEq, Repr

/-- Size of an entry of a primitive type: `sizeof(bool)`, `sizeof(int)`,
`sizeof(double)`. -/
def prim_type.get_size : prim_type → Nat
  | prim_type.P_BOOL => 1
  | prim_type.P_INTEGER => 4
  | prim_type.P_DOUBLE => 8

/-- The two operators of a set of basic operators the multiplication uses. -/
inductive basic_op where
  | multiply
  | add
deriving DecidableEq, Repr

/-- Modelled from the spec: `bulk_operate.h` is not among the sources; a binary operator
object declares the types of its two operands and of its output. -/
structure bulk_operate where
  op : basic_op
  left_type : prim_type
  right_type : prim_type
  output_type : prim_type
deriving DecidableEq, Repr

/-- Method `bulk_operate::output_entry_size`. -/
def bulk_operate.output_entry_size (o : bulk_operate) : Nat := o.output_type.get_size

/-- Modelled from the spec: the class template
`basic_ops_impl<LeftType, RightType, ResType>` of `bulk_operate.h`, given by its three
template arguments. -/
structure basic_ops where
  left_type : prim_type
  right_type : prim_type
  res_type : prim_type
deriving DecidableEq, Repr

/-- Method `basic_ops::get_multiply`. -/
def basic_ops.get_multiply (ops : basic_ops) : bulk_operate :=
  { op := basic_op.multiply, left_type := ops.left_type, right_type := ops.right_type,
    output_type := ops.res_type }

/-- Method `basic_ops::get_add`. -/
def basic_ops.get_add (ops : basic_ops) : bulk_operate :=
  { op := basic_op.add, left_type := ops.left_type, right_type := ops.right_type,
    output_type := ops.res_type }

/-- The static `basic_ops_impl<int, int, int> R_basic_ops_II`. -/
def R_basic_ops_II : basic_ops :=
  ⟨prim_type.P_INTEGER, prim_type.P_INTEGER, prim_type.P_INTEGER⟩

/-- The static `basic_ops_impl<int, int, double> R_basic_ops_IID`. -/
def R_basic_ops_IID : basic_ops :=
  ⟨prim_type.P_INTEGER, prim_type.P_INTEGER, prim_type.P_DOUBLE⟩

/-- The static `basic_ops_impl<double, int, double> R_basic_ops_DI`. -/
def R_basic_ops_DI : basic_ops :=
  ⟨prim_type.P_DOUBLE, prim_type.P_INTEGER, prim_type.P_DOUBLE⟩

/-- The static `basic_ops_impl<int, double, double> R_basic_ops_ID`. -/
def R_basic_ops_ID : basic_ops :=
  ⟨prim_type.P_INTEGER, prim_type.P_DOUBLE, prim_type.P_DOUBLE⟩

/-- The static `basic_ops_impl<double, double, double> R_basic_ops_DD`. -/
def R_basic_ops_DD : basic_ops :=
  ⟨prim_type.P_DOUBLE, prim_type.P_DOUBLE, prim_type.P_DOUBLE⟩

/-- What the interface reads of a `dense_matrix`: its shape and its entry size. -/
structure dense_matrix where
  nrow : Nat
  ncol : Nat
  entry_size : Nat
deriving DecidableEq, Repr

/-- Method `dense_matrix::get_entry_size`. -/
def dense_matrix.get_entry_size (m : dense_matrix) : Nat := m.entry_size

/-- The end of the process by `abort()`. -/
inductive process_exit where
  | aborted
deriving DecidableEq, Repr

/-- The values `R_FM_multiply_dense` returns to R. -/
inductive SEXP where
  | R_NilValue
  | FMR_vector (m : dense_matrix)
  | FMR_matrix (m : dense_matrix)
deriving DecidableEq, Repr

/-- The function `get_inner_prod_left_ops`: the set of operators is chosen by the entry
sizes of the two operands; any other pair of sizes ends in `abort()`. -/
def get_inner_prod_left_ops (left right : dense_matrix) : Except process_exit basic_ops :=
  if left.get_entry_size = prim_type.P_INTEGER.get_size
      ∧ right.get_entry_size = prim_type.P_INTEGER.get_size then
    Except.ok R_basic_ops_IID
  else if left.get_entry_size = prim_type.P_DOUBLE.get_size
      ∧ right.get_entry_size = prim_type.P_INTEGER.get_size then
    Except.ok R_basic_ops_DI
  else if left.get_entry_size = prim_type.P_INTEGER.get_size
      ∧ right.get_entry_size = prim_type.P_DOUBLE.get_size then
    Except.ok R_basic_ops_ID
  else if left.get_entry_size = prim_type.P_DOUBLE.get_size
      ∧ right.get_entry_size = prim_type.P_DOUBLE.get_size then
    Except.ok R_basic_ops_DD
  else Except.error process_exit.aborted

/-- The function `get_inner_prod_right_ops`. -/
def get_inner_prod_right_ops (left_ops : bulk_operate) : Except process_exit basic_ops :=
  if left_ops.output_entry_size = 4 then Except.ok R_basic_ops_II
  else if left_ops.output_entry_size = 8 then Except.ok R_basic_ops_DD
  else Except.error process_exit.aborted

/-- The function `R_FM_multiply_dense`.  The body of `dense_matrix::inner_prod` is not
among the sources: it is the parameter `inner_prod`, whose result `none` is the null
pointer.  `is_vec` is the result of `is_vector(pmat)`. -/
def R_FM_multiply_dense
    (inner_prod : dense_matrix → dense_matrix → bulk_operate → bulk_operate →
      Option dense_matrix)
    (is_vec : Bool) (matrix right_mat : dense_matrix) : Except process_exit SEXP :=
  match get_inner_prod_left_ops matrix right_mat with
  | Except.error e => Except.error e
  | Except.ok lops =>
    let left_op := lops.get_multiply
    match get_inner_prod_right_ops left_op with
    | Except.error e => Except.error e
    | Except.ok rops =>
      let right_op := rops.get_add
      match inner_prod matrix right_mat left_op right_op with
      | some prod => if is_vec then Except.ok (SEXP.FMR_vector prod)
                     else Except.ok (SEXP.FMR_matrix prod)
      | none => Except.ok SEXP.R_NilValue

/-- Modelled from the spec: `inner_prod` returns a null result if the inner dimensions
mismatch; otherwise the product has the rows of the left operand, the columns of the
right one and entries of the output type of the add operator. -/
def spec_inner_prod (m right : dense_matrix) (_left_op right_op : bulk_operate) :
    Option dense_matrix :=
  if m.ncol = right.nrow then
    some { nrow := m.nrow, ncol := right.ncol, entry_size := right_op.output_entry_size }
  else none

/-- Modelled from the spec: the result variable `scalar_variable` of `aggregate`, a
scalar with its type. -/
structure scalar_variable (α : Type) where
  type : prim_type
  value : α

/-- Modelled from the spec: the body of `aggregate` is not among the sources.  It fails
(returns false, result untouched) if the output type of the operator cannot represent a
scalar of the element type of the matrix; otherwise it returns true and the result
holds the entries combined by the operator.  `represents out elem` says that type `out`
can represent a scalar of type `elem`, `entries` are the entries of the matrix and `f`
is the function the operator computes. -/
def aggregate {α : Type} (represents : prim_type → prim_type → Bool) (elem_type : prim_type)
    (entries : List α) (op : bulk_operate) (f : α → α → α) (res : scalar_variable α) :
    Bool × scalar_variable α :=
  if represents op.output_type elem_type then
    match entries with
    | [] => (true, res)
    | x :: xs => (true, { res with value := xs.foldl f x })
  else (false, res)

/-- The function template `matrix_agg<T, ReturnType>`: `none` is `R_NilValue`, `some v`
the R vector of length one that holds `v`.  `res` is the local `scalar_variable_impl<T>`
as it is before the call of `aggregate`. -/
def matrix_agg {α : Type} (represents : prim_type → prim_type → Bool) (elem_type : prim_type)
    (entries : List α) (op : bulk_operate) (f : α → α → α) (res : scalar_variable α) :
    Option α :=
  match aggregate represents elem_type entries op f res with
  | (true, res1) => some res1.value
  | (false, _) => none

/-- A possible reading of "can represent": the output type is at least as wide as the
element type. -/
def represents_by_size (out elem : prim_type) : Bool :=
  decide (elem.get_size ≤ out.get_size)

/-! ## Runs of calls on one generator -/

/-- The state a run of calls leaves behind: the state after its last call, or the
starting state when no call was made. -/
def last_state (g : row_io_generator) (trace : List (matrix_io × row_io_generator)) :
    row_io_generator :=
  match trace.getLast? with
  | none => g
  | some p => p.2

/-- Number of calls of a run that are made while `has_next_io()` is true. -/
def live_calls (cfg : matrix_config) (blocks : List row_block) :
    row_io_generator → List io_call → Nat
  | _, [] => 0
  | g, k :: ks =>
    match g.call cfg blocks k with
    | Except.error _ => if g.has_next_io then 1 else 0
    | Except.ok (_, g1) => (if g.has_next_io then 1 else 0) + live_calls cfg blocks g1 ks

/-- The loop `while (c.has_data()) reqs.push_back(c.get_sub_io(tot_num_cols, file_id));`
run for at most `fuel` rounds: the requests it collects and the chunk it leaves behind. -/
def large_row_io.steal_all (cfg : matrix_config) (blocks : List row_block)
    (tot_num_cols : Nat) (file_id : Int) :
    Nat → large_row_io → Except io_error (List matrix_io × large_row_io)
  | 0, c => Except.ok ([], c)
  | fuel + 1, c =>
    if c.has_data then
      match c.get_sub_io cfg blocks tot_num_cols file_id with
      | Except.error e => Except.error e
      | Except.ok (r, c1) =>
        match large_row_io.steal_all cfg blocks tot_num_cols file_id fuel c1 with
        | Except.error e => Except.error e
        | Except.ok (rs, c2) => Except.ok (r :: rs, c2)
    else Except.ok ([], c)

/-- The class `type_set_operate<T>`: its method `set(arr, num_eles, row_idx, col_idx)`
as a function of the buffer it writes into. -/
structure type_set_operate (α : Type) where
  set : (Nat → α) → Nat → Nat → Nat → Nat → Nat → α

/-- The class `set_col_operate`: `arr[i] = (row_idx + i) * num_cols + col_idx`. -/
def set_col_operate {α : Type} (conv : Nat → α) (sz num_cols : Nat) : type_set_operate α :=
  { set := fun data arr num_eles row_idx col_idx =>
      (List.range num_eles).foldl
        (fun d i => mem_write d (arr + i * sz)
          (conv (((row_idx + i) * num_cols + col_idx) % 2 ^ 64)))
        data }

/-- The class `set_row_operate`: `arr[i] = row_idx * num_cols + col_idx + i`. -/
def set_row_operate {α : Type} (conv : Nat → α) (sz num_cols : Nat) : type_set_operate α :=
  { set := fun data arr num_eles row_idx col_idx =>
      (List.range num_eles).foldl
        (fun d i => mem_write d (arr + i * sz)
          (conv ((row_idx * num_cols + col_idx + i) % 2 ^ 64)))
        data }

/-- Modelled from the spec: the bodies of `set_data` and `serial_set_data` are not among
the sources; they fill every element from the rule, a column-major matrix column by
column (`op.set(get_col(c), nrow, 0, c)`) and a row-major matrix row by row
(`op.set(get_row(r), ncol, r, 0)`), the parallel variant over disjoint ranges. -/
def mem_dense_matrix.set_data {α : Type} (op : type_set_operate α) :
    mem_dense_matrix α → mem_dense_matrix α
  | mem_dense_matrix.row m =>
    mem_dense_matrix.row
      { nrow := m.nrow, ncol := m.ncol, entry_size := m.entry_size,
        data :=
          (List.range m.nrow).foldl (fun d r => op.set d (m.get_row r) m.ncol r 0) m.data }
  | mem_dense_matrix.col m =>
    mem_dense_matrix.col
      { nrow := m.nrow, ncol := m.ncol, entry_size := m.entry_size,
        data :=
          (List.range m.ncol).foldl (fun d c => op.set d (m.get_col c) m.nrow 0 c) m.data }

/-- The factory `type_mem_dense_matrix<EntryType>::create(nrow, ncol, layout, op)`: the
matrix is allocated (`data` is what the fresh buffer holds) and filled by `op`. -/
def type_mem_dense_matrix.create_set {α : Type} (sz nrow ncol : Nat) (layout : matrix_layout_t)
    (op : type_set_operate α) (data : Nat → α) : type_mem_dense_matrix α :=
  { m := (type_mem_dense_matrix.create sz nrow ncol layout data).m.set_data op }

/-! ## Operator descriptors of the R interface (`matrix_interface.cpp`)

The values of the enumerations `basic_ops::op_idx` and `basic_uops::op_idx` are declared
in a header that is not among the sources; they are a parameter `code`. -/

/-- The enumerators of `basic_ops::op_idx` that `R_FM_get_basic_op` names. -/
inductive basic_ops.op_idx where
  | ADD
  | SUB
  | MUL
  | DIV
  | MIN
  | MAX
  | POW
  | EQ
  | GT
  | GE
deriving DecidableEq, Repr

/-- The enumerators of `basic_uops::op_idx` that `R_FM_get_basic_uop` names. -/
inductive basic_uops.op_idx where
  | NEG
  | SQRT
  | ABS
  | NOT
deriving DecidableEq, Repr

/-- An access outside the allocation of a vector. -/
inductive memory_error where
  | out_of_bounds
deriving DecidableEq, Repr

/-- The class `Rcpp::IntegerVector`: a vector of `int` whose length is fixed when it is
allocated. -/
structure IntegerVector where
  elems : List Int
deriving DecidableEq, Repr

/-- The constructor `Rcpp::IntegerVector v(n)`: `n` entries, all zero. -/
def IntegerVector.create (n : Nat) : IntegerVector :=
  { elems := List.replicate n 0 }

/-- The length `v.size()` of the vector. -/
def IntegerVector.size (v : IntegerVector) : Nat := v.elems.length

/-- The store `v[i] = x`: `operator[]` does not check its index, so an index at or beyond
the length is a store outside the allocation. -/
def IntegerVector.store (v : IntegerVector) (i : Nat) (x : Int) :
    Except memory_error IntegerVector :=
  if i < v.elems.length then Except.ok { elems := v.elems.set i x }
  else Except.error memory_error.out_of_bounds

/-- The load `v[i]`, unchecked like the store. -/
def IntegerVector.load (v : IntegerVector) (i : Nat) : Except memory_error Int :=
  match v.elems[i]? with
  | some x => Except.ok x
  | none => Except.error memory_error.out_of_bounds

/-- The `Rcpp::List` that describes an operator: `ret["info"]` and `ret["name"]`. -/
structure R_op_object where
  info : IntegerVector
  name : String
deriving DecidableEq, Repr

/-- The function `R_FM_get_basic_op`; `none` is `R_NilValue`, returned for a name that is
not supported. -/
def R_FM_get_basic_op (code : basic_ops.op_idx → Int) (pname : String) :
    Except memory_error (Option R_op_object) :=
  let idx : Option basic_ops.op_idx :=
    if pname = "add" then some basic_ops.op_idx.ADD
    else if pname = "sub" then some basic_ops.op_idx.SUB
    else if pname = "mul" then some basic_ops.op_idx.MUL
    else if pname = "div" then some basic_ops.op_idx.DIV
    else if pname = "min" then some basic_ops.op_idx.MIN
    else if pname = "max" then some basic_ops.op_idx.MAX
    else if pname = "pow" then some basic_ops.op_idx.POW
    else if pname = "eq" then some basic_ops.op_idx.EQ
    else if pname = "gt" then some basic_ops.op_idx.GT
    else if pname = "ge" then some basic_ops.op_idx.GE
    else none
  match idx with
  | none => Except.ok none
  | some idx =>
    let r_info := IntegerVector.create 1
    match r_info.store 0 (code idx) with
    | Except.error e => Except.error e
    | Except.ok r_info =>
      match r_info.store 1 2 with
      | Except.error e => Except.error e
      | Except.ok r_info => Except.ok (some { info := r_info, name := pname })

/-- The function `R_FM_get_basic_uop`. -/
def R_FM_get_basic_uop (code : basic_uops.op_idx → Int) (pname : String) :
    Except memory_error (Option R_op_object) :=
  let idx : Option basic_uops.op_idx :=
    if pname = "neg" then some basic_uops.op_idx.NEG
    else if pname = "sqrt" then some basic_uops.op_idx.SQRT
    else if pname = "abs" then some basic_uops.op_idx.ABS
    else if pname = "not" then some basic_uops.op_idx.NOT
    else none
  match idx with
  | none => Except.ok none
  | some idx =>
    let r_info := IntegerVector.create 1
    match r_info.store 0 (code idx) with
    | Except.error e => Except.error e
    | Except.ok r_info =>
      match r_info.store 1 1 with
      | Except.error e => Except.error e
      | Except.ok r_info => Except.ok (some { info := r_info, name := pname })

/-- The function `get_op_idx`: `info[0]`. -/
def get_op_idx (fun_obj : R_op_object) : Except memory_error Int :=
  fun_obj.info.load 0

/-- The function `get_op_nop`: `info[1]`. -/
def get_op_nop (fun_obj : R_op_object) : Except memory_error Int :=
  fun_obj.info.load 1

/-! ## The worker thread (`matrix_worker_thread.h`)

A worker records the calls it makes on the generators: the index of the generator, the
call, and the request the call returned. -/

/-- Modelled from the spec: the body of `matrix_worker_thread::get_next_io` is not among
the sources (only its declaration and the fields `this_io_gen`, `steal_io_id` and
`io_gens` are).  This is its scan of the peer generators: `steal_io()` on the peers in
the given order, until one yields a valid request or all of them have been tried. -/
def steal_scan (cfg : matrix_config) (blocks : List row_block) :
    List Nat → List row_io_generator →
    Except io_error (matrix_io × List row_io_generator × List (Nat × io_call × matrix_io))
  | [], gens => Except.ok (matrix_io.empty, gens, [])
  | p :: ps, gens =>
    match gens[p]? with
    | none => Except.error io_error.out_of_range
    | some g =>
      match g.steal_io cfg blocks with
      | Except.error e => Except.error e
      | Except.ok (io, g1) =>
        if io.is_valid then
          Except.ok (io, gens.set p g1, [(p, io_call.steal, io)])
        else
          match steal_scan cfg blocks ps (gens.set p g1) with
          | Except.error e => Except.error e
          | Except.ok (io1, gens1, log) => Except.ok (io1, gens1, (p, io_call.steal, io) :: log)

/-- The class `matrix_worker_thread`, with the two fields of the header that decide
where requests are taken from: the worker's own generator `this_io_gen` is
`io_gens[worker_id]`, and `steal_io_id` is the generator at which the worker starts to
look for requests to steal. -/
structure matrix_worker_thread where
  worker_id : Nat
  steal_io_id : Nat
deriving DecidableEq, Repr

/-- Modelled from the spec: the body of `matrix_worker_thread::get_next_io` is not among
the sources.  The order in which the peers are scanned ("in a fixed or round-robin
order"): once round all `num_gens` generators, starting at `steal_io_id`, the worker's
own generator left out. -/
def matrix_worker_thread.scan_order (w : matrix_worker_thread) (num_gens : Nat) : List Nat :=
  ((List.range num_gens).map fun j => (w.steal_io_id + j) % num_gens).filter
    fun p => decide (p ≠ w.worker_id)

/-- Modelled from the spec: the body of `matrix_worker_thread::get_next_io` is not among
the sources.  The worker obtains a request "first via `get_next_io()` on its own
generator; if that returns empty, scan peer generators (in a fixed or round-robin order)
calling `steal_io()` until one yields a valid request or all are exhausted".  The result
is the `bool` returned (a request was obtained), the request, the generators after the
calls, and the record of the calls made. -/
def matrix_worker_thread.get_next_io (cfg : matrix_config) (blocks : List row_block)
    (w : matrix_worker_thread) (io_gens : List row_io_generator) :
    Except io_error
      (Bool × matrix_io × List row_io_generator × List (Nat × io_call × matrix_io)) :=
  match io_gens[w.worker_id]? with
  | none => Except.error io_error.out_of_range
  | some this_io_gen =>
    match this_io_gen.get_next_io cfg blocks with
    | Except.error e => Except.error e
    | Except.ok (io, g1) =>
      if io.is_valid then
        Except.ok (true, io, io_gens.set w.worker_id g1, [(w.worker_id, io_call.next, io)])
      else
        match steal_scan cfg blocks (w.scan_order io_gens.length)
            (io_gens.set w.worker_id g1) with
        | Except.error e => Except.error e
        | Except.ok (io1, gens1, log) =>
          Except.ok (io1.is_valid, io1, gens1, (w.worker_id, io_call.next, io) :: log)

/-- Generator of worker 0 of the example, as built. -/
def example_gen0 : row_io_generator :=
  { ios := [⟨0, 2, 8⟩, ⟨4, 2, 8⟩], curr_io_off := 0, file_id := 0, tot_num_cols := 3 }

/-- Generator of worker 0 of the example after its owner has read both chunks. -/
def example_gen0_done : row_io_generator :=
  { ios := [⟨2, 0, 0⟩, ⟨6, 0, 0⟩], curr_io_off := 2, file_id := 0, tot_num_cols := 3 }

/-- Generator of worker 1 of the example after its owner has read both chunks. -/
def example_gen_done : row_io_generator :=
  { ios := [⟨4, 0, 0⟩, ⟨7, 0, 0⟩], curr_io_off := 2, file_id := 0, tot_num_cols := 3 }

/-! ## The strided workload (`workload.h`)

The entries of a workload are numbered from zero, so the `long` fields are natural
numbers; they are taken without overflow.  `PAGE_SIZE` is a macro of a header that is
not among the sources and is a parameter. -/

/-- The class `stride_workload`. -/
structure stride_workload where
  first : Nat
  last : Nat
  curr : Nat
  num : Nat
  stride : Nat
  entry_size : Nat
deriving DecidableEq, Repr

/-- The constructor `stride_workload(first, last, entry_size)`; `none` stands for the
division by zero in `PAGE_SIZE / entry_size`. -/
def stride_workload.create (PAGE_SIZE first last entry_size : Nat) : Option stride_workload :=
  if entry_size = 0 then none
  else some { first := first, last := last, curr := first, num := 0,
              stride := PAGE_SIZE / entry_size, entry_size := entry_size }

/-- Method `stride_workload::next_offset`: the offset returned and the state after the
call.  With `stride = 0` the mask `stride - 1` is `-1` and `curr & -1` is `curr`. -/
def stride_workload.next_offset (w : stride_workload) : Nat × stride_workload :=
  let ret := w.curr
  let num := w.num + 1
  let curr := w.curr + w.stride
  let curr :=
    if curr ≥ w.last then
      w.first + (if w.stride = 0 then curr else curr &&& (w.stride - 1)) + 1
    else curr
  (ret * w.entry_size, { w with curr := curr, num := num })

/-- Method `stride_workload::has_next`. -/
def stride_workload.has_next (w : stride_workload) : Bool :=
  decide (w.num < w.last - w.first)

/-- The offsets returned by `n` calls of `next_offset`, and the state after them. -/
def stride_workload.calls : Nat → stride_workload → List Nat × stride_workload
  | 0, w => ([], w)
  | n + 1, w =>
    ((w.next_offset).1 :: (stride_workload.calls n (w.next_offset).2).1,
      (stride_workload.calls n (w.next_offset).2).2)

/-- The loop `while (w.has_next()) offs.push_back(w.next_offset());` run for at most
`fuel` rounds: the offsets it collects and the state it leaves behind. -/
def stride_workload.run : Nat → stride_workload → List Nat × stride_workload
  | 0, w => ([], w)
  | fuel + 1, w =>
    if w.has_next then
      ((w.next_offset).1 :: (stride_workload.run fuel (w.next_offset).2).1,
        (stride_workload.run fuel (w.next_offset).2).2)
    else ([], w)

/-- Number of entries `e < len` with `e % stride = r`, for `r < len`. -/
def class_size (stride len r : Nat) : Nat := (len - r + stride - 1) / stride

/-- The order in which a strided walk visits the entries `0 .. len - 1`: the entries
congruent to `0` modulo the stride in increasing order, then those congruent to `1`,
and so on. -/
def visit_order (stride len : Nat) : List Nat :=
  (List.range (min stride len)).flatMap fun r =>
    (List.range (class_size stride len r)).map fun j => r + j * stride

/-- Number of calls of an interleaving that are made on generator `i`. -/
def calls_on (i : Nat) (calls : List (Nat × io_call)) : Nat :=
  (calls.filter fun c => decide (c.1 = i)).length

end fm

/-! ## Lemmas -/

namespace fm

theorem ctor_loop_closed (cfg : matrix_config) (n tot step : Nat) (hstep : 0 < step) :
    ∀ fuel i, n - i ≤ fuel →
      ∃ k, ctor_loop cfg n tot step fuel i
          = some ((List.range k).map fun j => ctor_chunk cfg n tot (i + j * step)) ∧
        (∀ j, j < k → i + j * step < n) ∧ n ≤ i + k * step := by
  intro fuel
  induction fuel with
  | zero =>
    intro i hi
    refine ⟨0, ?_, ?_, ?_⟩
    · have : ¬ i < n := by omega
      simp [ctor_loop, this]
    · intro j hj; omega
    · omega
  | succ fuel ih =>
    intro i hi
    by_cases hin : i < n
    · obtain ⟨k, hk, hlt, hge⟩ := ih (i + step) (by omega)
      refine ⟨k + 1, ?_, ?_, ?_⟩
      · simp only [ctor_loop, hin, if_true, hk, List.range_succ_eq_map, List.map_cons,
          List.map_map]
        simp only [Nat.zero_mul, Nat.add_zero, ctor_chunk, matrix_config.get_rb_io_size,
          matrix_config.get_row_block_size, Option.some.injEq, List.cons.injEq, true_and]
        apply List.map_congr_left
        intro j _
        simp only [Function.comp, Nat.succ_eq_add_one]
        have : i + step + j * step = i + (j + 1) * step := by ring
        rw [this]
      · intro j hj
        cases j with
        | zero => simpa using hin
        | succ j =>
          have := hlt j (by omega)
          have e : i + step + j * step = i + (j + 1) * step := by ring
          omega
      · have e : i + step + k * step = i + (k + 1) * step := by ring
        omega
    · refine ⟨0, ?_, ?_, ?_⟩
      · simp [ctor_loop, hin]
      · intro j hj; omega
      · omega

theorem size_t_sub_one (m : Nat) : size_t_sub (m + 1) 1 = m := by
  simp [size_t_sub]

theorem getElem_of_getElem? {α : Type} {l : List α} {i : Nat} {a : α} (h : l[i]? = some a) :
    ∃ hi : i < l.length, l[i] = a := by
  rw [List.getElem?_eq_some] at h
  exact h

theorem get_io_ok (cfg : matrix_config) (blocks : List row_block) (c : large_row_io)
    (tc : Nat) (fid : Int) (hr : c.first_row_block + c.num_row_blocks < blocks.length) :
    ∃ b0 b1, blocks[c.first_row_block]? = some b0 ∧
      blocks[c.first_row_block + c.num_row_blocks]? = some b1 ∧
      c.get_io cfg blocks tc fid = Except.ok
        (matrix_io.mk_io ⟨(c.first_row_block : Int) * (cfg.row_block_size : Int), 0⟩
            c.tot_num_rows tc fid b0.offset (off_to_size (b1.offset - b0.offset)),
          { first_row_block := c.first_row_block + c.num_row_blocks, num_row_blocks := 0,
            tot_num_rows := 0 }) := by
  have h0 : c.first_row_block < blocks.length := by omega
  refine ⟨blocks[c.first_row_block], blocks[c.first_row_block + c.num_row_blocks],
    List.getElem?_eq_getElem h0, List.getElem?_eq_getElem hr, ?_⟩
  simp [large_row_io.get_io, List.getElem?_eq_getElem h0, List.getElem?_eq_getElem hr,
    row_block.get_offset, matrix_config.get_row_block_size]

theorem get_sub_io_ok (cfg : matrix_config) (blocks : List row_block) (c : large_row_io)
    (tc : Nat) (fid : Int) (hr : c.first_row_block + c.num_row_blocks < blocks.length) :
    ∃ b0 b1, blocks[c.first_row_block]? = some b0 ∧
      blocks[c.first_row_block + min c.num_row_blocks cfg.rb_steal_io_size]? = some b1 ∧
      c.get_sub_io cfg blocks tc fid = Except.ok
        (matrix_io.mk_io ⟨(c.first_row_block : Int) * (cfg.row_block_size : Int), 0⟩
            (min c.tot_num_rows (min c.num_row_blocks cfg.rb_steal_io_size * cfg.row_block_size))
            tc fid b0.offset (off_to_size (b1.offset - b0.offset)),
          { first_row_block := c.first_row_block + min c.num_row_blocks cfg.rb_steal_io_size,
            num_row_blocks := c.num_row_blocks - min c.num_row_blocks cfg.rb_steal_io_size,
            tot_num_rows := c.tot_num_rows
              - min c.tot_num_rows
                  (min c.num_row_blocks cfg.rb_steal_io_size * cfg.row_block_size) }) := by
  have h0 : c.first_row_block < blocks.length := by omega
  have h1 : c.first_row_block + min c.num_row_blocks cfg.rb_steal_io_size < blocks.length := by
    have := Nat.min_le_left c.num_row_blocks cfg.rb_steal_io_size
    omega
  refine ⟨blocks[c.first_row_block],
    blocks[c.first_row_block + min c.num_row_blocks cfg.rb_steal_io_size],
    List.getElem?_eq_getElem h0, List.getElem?_eq_getElem h1, ?_⟩
  simp [large_row_io.get_sub_io, List.getElem?_eq_getElem h0, List.getElem?_eq_getElem h1,
    row_block.get_offset, matrix_config.get_row_block_size,
    matrix_config.get_rb_steal_io_size]

theorem get_next_io_ok (cfg : matrix_config) (blocks : List row_block) (g : row_io_generator)
    (c : large_row_io) (hc : g.ios[g.curr_io_off]? = some c) (hd : 0 < c.num_row_blocks)
    (hr : c.first_row_block + c.num_row_blocks < blocks.length) :
    ∃ b0 b1, blocks[c.first_row_block]? = some b0 ∧
      blocks[c.first_row_block + c.num_row_blocks]? = some b1 ∧
      g.get_next_io cfg blocks = Except.ok
        (matrix_io.mk_io ⟨(c.first_row_block : Int) * (cfg.row_block_size : Int), 0⟩
            c.tot_num_rows g.tot_num_cols g.file_id b0.offset
            (off_to_size (b1.offset - b0.offset)),
          { g with
            ios := g.ios.set g.curr_io_off
              { first_row_block := c.first_row_block + c.num_row_blocks, num_row_blocks := 0,
                tot_num_rows := 0 },
            curr_io_off := g.curr_io_off + 1 }) := by
  obtain ⟨hi, hci⟩ := getElem_of_getElem? hc
  obtain ⟨b0, b1, h0, h1, hio⟩ := get_io_ok cfg blocks c g.tot_num_cols g.file_id hr
  refine ⟨b0, b1, h0, h1, ?_⟩
  simp [row_io_generator.get_next_io, hi, hci, large_row_io.has_data, hd, hio,
    matrix_io.is_valid, matrix_io.mk_io]

theorem steal_io_ok (cfg : matrix_config) (blocks : List row_block) (g : row_io_generator)
    (c : large_row_io) (hc : g.ios[g.curr_io_off]? = some c) (hd : 0 < c.num_row_blocks)
    (hr : c.first_row_block + c.num_row_blocks < blocks.length) :
    ∃ b0 b1, blocks[c.first_row_block]? = some b0 ∧
      blocks[c.first_row_block + min c.num_row_blocks cfg.rb_steal_io_size]? = some b1 ∧
      g.steal_io cfg blocks = Except.ok
        (matrix_io.mk_io ⟨(c.first_row_block : Int) * (cfg.row_block_size : Int), 0⟩
            (min c.tot_num_rows (min c.num_row_blocks cfg.rb_steal_io_size * cfg.row_block_size))
            g.tot_num_cols g.file_id b0.offset (off_to_size (b1.offset - b0.offset)),
          { g with
            ios := g.ios.set g.curr_io_off
              { first_row_block :=
                  c.first_row_block + min c.num_row_blocks cfg.rb_steal_io_size,
                num_row_blocks :=
                  c.num_row_blocks - min c.num_row_blocks cfg.rb_steal_io_size,
                tot_num_rows := c.tot_num_rows
                  - min c.tot_num_rows
                      (min c.num_row_blocks cfg.rb_steal_io_size * cfg.row_block_size) },
            curr_io_off :=
              if 0 < c.num_row_blocks - min c.num_row_blocks cfg.rb_steal_io_size
              then g.curr_io_off else g.curr_io_off + 1 }) := by
  obtain ⟨hi, hci⟩ := getElem_of_getElem? hc
  obtain ⟨b0, b1, h0, h1, hio⟩ := get_sub_io_ok cfg blocks c g.tot_num_cols g.file_id hr
  refine ⟨b0, b1, h0, h1, ?_⟩
  simp [row_io_generator.steal_io, hi, hci, large_row_io.has_data, hd, hio,
    matrix_io.is_valid, matrix_io.mk_io]

theorem get_next_io_done (cfg : matrix_config) (blocks : List row_block) (g : row_io_generator)
    (h : ¬ g.curr_io_off < g.ios.length) :
    g.get_next_io cfg blocks = Except.ok (matrix_io.empty, g) := by
  simp [row_io_generator.get_next_io, h]

theorem steal_io_done (cfg : matrix_config) (blocks : List row_block) (g : row_io_generator)
    (h : ¬ g.curr_io_off < g.ios.length) :
    g.steal_io cfg blocks = Except.ok (matrix_io.empty, g) := by
  simp [row_io_generator.steal_io, h]

theorem call_ok (cfg : matrix_config) (blocks : List row_block) (g : row_io_generator)
    (k : io_call) (c : large_row_io) (hc : g.ios[g.curr_io_off]? = some c)
    (hd : 0 < c.num_row_blocks)
    (hr : c.first_row_block + c.num_row_blocks < blocks.length) :
    ∃ b0 b1, blocks[c.first_row_block]? = some b0 ∧
      blocks[c.first_row_block + taken_blocks cfg k c]? = some b1 ∧
      g.call cfg blocks k = Except.ok (request_of cfg k g c b0 b1, gen_after cfg k g c) := by
  cases k with
  | next =>
    obtain ⟨b0, b1, h0, h1, h⟩ := get_next_io_ok cfg blocks g c hc hd hr
    refine ⟨b0, b1, h0, h1, ?_⟩
    simp [row_io_generator.call, h, request_of, gen_after, chunk_after, taken_blocks,
      taken_rows]
  | steal =>
    obtain ⟨b0, b1, h0, h1, h⟩ := steal_io_ok cfg blocks g c hc hd hr
    refine ⟨b0, b1, h0, h1, ?_⟩
    simp [row_io_generator.call, h, request_of, gen_after, chunk_after, taken_blocks,
      taken_rows]

theorem call_done (cfg : matrix_config) (blocks : List row_block) (g : row_io_generator)
    (k : io_call) (h : ¬ g.curr_io_off < g.ios.length) :
    g.call cfg blocks k = Except.ok (matrix_io.empty, g) := by
  cases k with
  | next => simp [row_io_generator.call, get_next_io_done cfg blocks g h]
  | steal => simp [row_io_generator.call, steal_io_done cfg blocks g h]

theorem taken_blocks_le (cfg : matrix_config) (k : io_call) (c : large_row_io) :
    taken_blocks cfg k c ≤ c.num_row_blocks := by
  cases k with
  | next => simp [taken_blocks]
  | steal => simp only [taken_blocks]; exact Nat.min_le_left _ _

theorem create_closed (cfg : matrix_config) (blocks : List row_block) (n tot tc : Nat)
    (fid : Int) (gen_id num_gens : Nat) (hn : blocks.length = n + 1)
    (hrb : 0 < cfg.rb_io_size) (hw : 0 < num_gens) :
    ∃ k, row_io_generator.create cfg blocks tot tc fid gen_id num_gens
        = some { ios := (List.range k).map fun j =>
                    ctor_chunk cfg n tot ((gen_id + j * num_gens) * cfg.rb_io_size),
                 curr_io_off := 0, file_id := fid, tot_num_cols := tc } ∧
      (∀ j, j < k → (gen_id + j * num_gens) * cfg.rb_io_size < n) ∧
      n ≤ (gen_id + k * num_gens) * cfg.rb_io_size := by
  have hstep : 0 < cfg.rb_io_size * num_gens := Nat.mul_pos hrb hw
  obtain ⟨k, hk, hlt, hge⟩ := ctor_loop_closed cfg n tot (cfg.rb_io_size * num_gens) hstep n
    (gen_id * cfg.rb_io_size) (Nat.sub_le _ _)
  have e : ∀ j, gen_id * cfg.rb_io_size + j * (cfg.rb_io_size * num_gens)
      = (gen_id + j * num_gens) * cfg.rb_io_size := by intro j; ring
  refine ⟨k, ?_, ?_, ?_⟩
  · simp only [row_io_generator.create, hn, size_t_sub_one, matrix_config.get_rb_io_size, hk]
    simp only [e]
  · intro j hj; rw [← e]; exact hlt j hj
  · rw [← e]; exact hge

theorem ctor_loop_chunks (cfg : matrix_config) (n tot step : Nat) :
    ∀ fuel i ios, ctor_loop cfg n tot step fuel i = some ios →
      ∀ c ∈ ios, 0 < n - c.first_row_block ∧ c = ctor_chunk cfg n tot c.first_row_block := by
  intro fuel
  induction fuel with
  | zero =>
    intro i ios h c hc
    simp only [ctor_loop] at h
    split at h
    · cases h
    · cases h; cases hc
  | succ fuel ih =>
    intro i ios h c hc
    simp only [ctor_loop] at h
    split at h
    · rename_i hin
      split at h
      · cases h
      · rename_i rest hrest
        cases h
        rcases List.mem_cons.1 hc with rfl | hc
        · exact ⟨by simpa using hin, rfl⟩
        · exact ih _ _ hrest c hc
    · cases h; cases hc

theorem ctor_loop_stuck (cfg : matrix_config) (n tot : Nat) :
    ∀ fuel i, i < n → ctor_loop cfg n tot 0 fuel i = none := by
  intro fuel
  induction fuel with
  | zero => intro i hi; simp [ctor_loop, hi]
  | succ fuel ih => intro i hi; simp [ctor_loop, hi, ih i hi]

theorem ctor_loop_step_pos (cfg : matrix_config) (n tot step fuel i : Nat)
    (ios : List large_row_io) (c : large_row_io)
    (h : ctor_loop cfg n tot step fuel i = some ios) (hc : c ∈ ios) : 0 < step := by
  rcases Nat.eq_zero_or_pos step with h0 | h0
  · subst h0
    by_cases hin : i < n
    · rw [ctor_loop_stuck cfg n tot fuel i hin] at h; cases h
    · cases fuel with
      | zero => simp [ctor_loop, hin] at h; subst h; cases hc
      | succ fuel => simp [ctor_loop, hin] at h; subst h; cases hc
  · exact h0

theorem create_ios (cfg : matrix_config) (blocks : List row_block) (tot tc : Nat)
    (fid : Int) (gen_id num_gens : Nat) (g0 : row_io_generator)
    (h : row_io_generator.create cfg blocks tot tc fid gen_id num_gens = some g0) :
    ctor_loop cfg (size_t_sub blocks.length 1) tot (cfg.rb_io_size * num_gens)
        (size_t_sub blocks.length 1) (gen_id * cfg.rb_io_size) = some g0.ios ∧
      g0.curr_io_off = 0 ∧ g0.file_id = fid ∧ g0.tot_num_cols = tc := by
  simp only [row_io_generator.create, matrix_config.get_rb_io_size] at h
  split at h
  · cases h
  · rename_i ios hios
    cases h
    exact ⟨hios, rfl, rfl, rfl⟩

theorem create_chunk (cfg : matrix_config) (blocks : List row_block) (n tot tc : Nat)
    (fid : Int) (gen_id num_gens : Nat) (g0 : row_io_generator) (hn : blocks.length = n + 1)
    (h : row_io_generator.create cfg blocks tot tc fid gen_id num_gens = some g0)
    (c : large_row_io) (hc : c ∈ g0.ios) :
    c.first_row_block < n ∧ c = ctor_chunk cfg n tot c.first_row_block ∧
      0 < cfg.rb_io_size ∧ 0 < num_gens := by
  obtain ⟨hios, -, -, -⟩ := create_ios cfg blocks tot tc fid gen_id num_gens g0 h
  rw [hn, size_t_sub_one] at hios
  obtain ⟨h1, h2⟩ := ctor_loop_chunks cfg n tot _ _ _ _ hios c hc
  have h3 := ctor_loop_step_pos cfg n tot _ _ _ _ c hios hc
  refine ⟨by omega, h2, Nat.pos_of_mul_pos_right h3, Nat.pos_of_mul_pos_left h3⟩

theorem create_inv (cfg : matrix_config) (blocks : List row_block) (n tot tc : Nat)
    (fid : Int) (gen_id num_gens : Nat) (g0 : row_io_generator) (hn : blocks.length = n + 1)
    (h : row_io_generator.create cfg blocks tot tc fid gen_id num_gens = some g0) :
    gen_inv n g0 g0 := by
  have hcur : g0.curr_io_off = 0 := (create_ios cfg blocks tot tc fid gen_id num_gens g0 h).2.1
  have hch := create_chunk cfg blocks n tot tc fid gen_id num_gens g0 hn h
  refine ⟨rfl, by omega, ?_, ?_, ?_, ?_, ?_, rfl, rfl⟩
  · intro i c _ hi; omega
  · intro i c hc _
    obtain ⟨h1, h2, h3, _⟩ := hch c (List.getElem?_mem hc)
    rw [h2]
    simp only [ctor_chunk]
    exact Nat.lt_min.2 ⟨h3, by omega⟩
  · intro i c hc _; exact hc
  · intro i c c0 hc hc0
    rw [hc] at hc0; cases hc0
    exact ⟨le_refl _, rfl⟩
  · intro i c hc
    obtain ⟨h1, h2, _, _⟩ := hch c (List.getElem?_mem hc)
    rw [h2]
    simp only [ctor_chunk]
    have := Nat.min_le_right cfg.rb_io_size (n - c.first_row_block)
    omega

theorem gen_inv_after (cfg : matrix_config) (n : Nat) (g0 g : row_io_generator) (k : io_call)
    (c : large_row_io) (hinv : gen_inv n g0 g) (hc : g.ios[g.curr_io_off]? = some c) :
    gen_inv n g0 (gen_after cfg k g c) := by
  obtain ⟨hi, -⟩ := getElem_of_getElem? hc
  have hle := taken_blocks_le cfg k c
  have hget : ∀ (i : Nat) (d : large_row_io),
      (g.ios.set g.curr_io_off (chunk_after cfg k c))[i]? = some d →
      (i = g.curr_io_off ∧ d = chunk_after cfg k c) ∨ (i ≠ g.curr_io_off ∧ g.ios[i]? = some d) := by
    intro i d hd
    rw [List.getElem?_set] at hd
    by_cases e : g.curr_io_off = i
    · simp only [e, if_true] at hd
      split at hd
      · cases hd; exact Or.inl ⟨e.symm, rfl⟩
      · cases hd
    · simp only [e, if_false] at hd
      exact Or.inr ⟨fun h => e h.symm, hd⟩
  refine ⟨?_, ?_, ?_, ?_, ?_, ?_, ?_, hinv.same_file, hinv.same_cols⟩
  · simp [gen_after, hinv.len_eq]
  · simp only [gen_after, List.length_set]
    split <;> omega
  · intro i d hd hlt
    simp only [gen_after] at hd hlt
    rcases hget i d hd with ⟨rfl, rfl⟩ | ⟨hne, hd⟩
    · split at hlt
      · omega
      · omega
    · apply hinv.passed i d hd
      split at hlt <;> omega
  · intro i d hd hge
    simp only [gen_after] at hd hge
    rcases hget i d hd with ⟨rfl, rfl⟩ | ⟨hne, hd⟩
    · split at hge
      · assumption
      · omega
    · apply hinv.ahead i d hd
      split at hge <;> omega
  · intro i d hd hlt
    simp only [gen_after] at hd hlt
    rcases hget i d hd with ⟨rfl, rfl⟩ | ⟨hne, hd⟩
    · split at hlt <;> omega
    · apply hinv.untouched i d hd
      split at hlt <;> omega
  · intro i d d0 hd hd0
    simp only [gen_after] at hd
    rcases hget i d hd with ⟨rfl, rfl⟩ | ⟨hne, hd⟩
    · obtain ⟨h1, h2⟩ := hinv.suffix _ c d0 hc hd0
      simp only [chunk_after]
      omega
    · exact hinv.suffix i d d0 hd hd0
  · intro i d hd
    simp only [gen_after] at hd
    rcases hget i d hd with ⟨rfl, rfl⟩ | ⟨hne, hd⟩
    · have := hinv.in_range _ c hc
      simp only [chunk_after]
      omega
    · exact hinv.in_range i d hd

/-- What a call does in a state that satisfies the invariant. -/
theorem call_cases (cfg : matrix_config) (blocks : List row_block) (n : Nat)
    (g0 g : row_io_generator) (k : io_call) (hn : blocks.length = n + 1)
    (hinv : gen_inv n g0 g) :
    (¬ g.curr_io_off < g.ios.length ∧ g.call cfg blocks k = Except.ok (matrix_io.empty, g)) ∨
    (g.curr_io_off < g.ios.length ∧
      ∃ c b0 b1, g.ios[g.curr_io_off]? = some c ∧ 0 < c.num_row_blocks ∧
        c.first_row_block + c.num_row_blocks ≤ n ∧
        blocks[c.first_row_block]? = some b0 ∧
        blocks[c.first_row_block + taken_blocks cfg k c]? = some b1 ∧
        g.call cfg blocks k
          = Except.ok (request_of cfg k g c b0 b1, gen_after cfg k g c)) := by
  by_cases h : g.curr_io_off < g.ios.length
  · right
    refine ⟨h, ?_⟩
    have hc : g.ios[g.curr_io_off]? = some g.ios[g.curr_io_off] := List.getElem?_eq_getElem h
    have hd := hinv.ahead _ _ hc (le_refl _)
    have hr := hinv.in_range _ _ hc
    obtain ⟨b0, b1, h0, h1, hcall⟩ := call_ok cfg blocks g k _ hc hd (by omega)
    exact ⟨_, b0, b1, hc, hd, hr, h0, h1, hcall⟩
  · left
    exact ⟨h, call_done cfg blocks g k h⟩

theorem gen_inv_call (cfg : matrix_config) (blocks : List row_block) (n : Nat)
    (g0 g g1 : row_io_generator) (k : io_call) (r : matrix_io) (hn : blocks.length = n + 1)
    (hinv : gen_inv n g0 g) (hcall : g.call cfg blocks k = Except.ok (r, g1)) :
    gen_inv n g0 g1 := by
  rcases call_cases cfg blocks n g0 g k hn hinv with ⟨_, h⟩ | ⟨_, c, b0, b1, hc, _, _, _, _, h⟩
  · rw [h] at hcall; cases hcall; exact hinv
  · rw [h] at hcall; cases hcall
    exact gen_inv_after cfg n g0 g k c hinv hc

theorem reachable_inv (cfg : matrix_config) (blocks : List row_block) (n tot tc : Nat)
    (fid : Int) (gen_id num_gens : Nat) (g : row_io_generator) (hn : blocks.length = n + 1)
    (h : reachable cfg blocks tot tc fid gen_id num_gens g) :
    ∃ g0, row_io_generator.create cfg blocks tot tc fid gen_id num_gens = some g0 ∧
      gen_inv n g0 g := by
  induction h with
  | init h0 => exact ⟨_, h0, create_inv cfg blocks n tot tc fid gen_id num_gens _ hn h0⟩
  | step _ hcall ih =>
    obtain ⟨g0, h0, hinv⟩ := ih
    exact ⟨g0, h0, gen_inv_call cfg blocks n g0 _ _ _ _ hn hinv hcall⟩

theorem filter_range_window (n f m : Nat) (p : Nat → Bool)
    (hp : ∀ b, b < n → (p b = true ↔ f ≤ b ∧ b < f + m)) (h : f + m ≤ n) :
    (List.range n).filter p = List.range' f m := by
  have e : List.range n
      = List.range' 0 f ++ (List.range' f m ++ List.range' (f + m) (n - (f + m))) := by
    have e1 := List.range'_append_1 f m (n - (f + m))
    have e2 := List.range'_append_1 0 f (n - (f + m) + m)
    rw [Nat.zero_add] at e2
    rw [List.range_eq_range', e1, e2]
    congr 1
    omega
  rw [e, List.filter_append, List.filter_append]
  have h1 : (List.range' 0 f).filter p = [] := by
    rw [List.filter_eq_nil_iff]
    intro b hb
    rw [List.mem_range'_1] at hb
    rw [hp b (by omega)]
    omega
  have h2 : (List.range' f m).filter p = List.range' f m := by
    rw [List.filter_eq_self]
    intro b hb
    rw [List.mem_range'_1] at hb
    rw [hp b (by omega)]
    omega
  have h3 : (List.range' (f + m) (n - (f + m))).filter p = [] := by
    rw [List.filter_eq_nil_iff]
    intro b hb
    rw [List.mem_range'_1] at hb
    rw [hp b (by omega)]
    omega
  rw [h1, h2, h3]
  simp

theorem offsets_lt (blocks : List row_block) (hinc : offsets_increasing blocks) (i j : Nat)
    (bi bj : row_block) (hi : blocks[i]? = some bi) (hj : blocks[j]? = some bj) (hij : i < j) :
    bi.offset < bj.offset := by
  obtain ⟨hi1, rfl⟩ := getElem_of_getElem? hi
  obtain ⟨hj1, rfl⟩ := getElem_of_getElem? hj
  exact (List.pairwise_iff_getElem.1 hinc) i j hi1 hj1 hij

theorem offsets_le (blocks : List row_block) (hinc : offsets_increasing blocks) (i j : Nat)
    (bi bj : row_block) (hi : blocks[i]? = some bi) (hj : blocks[j]? = some bj) (hij : i ≤ j) :
    bi.offset ≤ bj.offset := by
  rcases Nat.eq_or_lt_of_le hij with rfl | h
  · rw [hi] at hj; cases hj; exact le_refl _
  · exact le_of_lt (offsets_lt blocks hinc i j bi bj hi hj h)

theorem off_to_size_nonneg (d : Int) (h : 0 ≤ d) : ((off_to_size d : Nat) : Int) = d := by
  simp [off_to_size, h, Int.toNat_of_nonneg h]

theorem covered_window (blocks : List row_block) (n : Nat) (hn : blocks.length = n + 1)
    (hinc : offsets_increasing blocks) (f m : Nat) (hfm : f + m ≤ n) (b0 b1 : row_block)
    (h0 : blocks[f]? = some b0) (h1 : blocks[f + m]? = some b1) (r : matrix_io)
    (hoff : r.byte_offset = b0.offset)
    (hsize : r.byte_size = off_to_size (b1.offset - b0.offset)) :
    covered_blocks blocks r = List.range' f m := by
  have hle : b0.offset ≤ b1.offset :=
    offsets_le blocks hinc f (f + m) b0 b1 h0 h1 (Nat.le_add_right _ _)
  have hsz : (r.byte_size : Int) = b1.offset - b0.offset := by
    rw [hsize]; exact off_to_size_nonneg _ (by omega)
  unfold covered_blocks
  rw [hn, Nat.add_sub_cancel]
  apply filter_range_window n f m _ _ hfm
  intro b hb
  have hbl : b < blocks.length := by omega
  rw [List.getElem?_eq_getElem hbl]
  simp only [decide_eq_true_eq, hoff, hsz]
  have hb' : blocks[b]? = some blocks[b] := List.getElem?_eq_getElem hbl
  constructor
  · rintro ⟨ha, hc⟩
    constructor
    · by_contra hlt
      have := offsets_lt blocks hinc b f _ b0 hb' h0 (by omega)
      omega
    · by_contra hge
      have := offsets_le blocks hinc (f + m) b b1 _ h1 hb' (by omega)
      omega
  · rintro ⟨ha, hc⟩
    constructor
    · exact offsets_le blocks hinc f b b0 _ h0 hb' ha
    · have := offsets_lt blocks hinc b (f + m) _ b1 hb' h1 hc
      omega

theorem getElem?_set_same {α : Type} (l : List α) (i : Nat) (a : α) (h : i < l.length) :
    (l.set i a)[i]? = some a := by
  rw [List.getElem?_set]; simp [h]

theorem has_next_io_iff (g : row_io_generator) :
    g.has_next_io = true ↔ g.curr_io_off < g.ios.length := by
  simp [row_io_generator.has_next_io]

theorem example_gen_reachable :
    reachable example_cfg example_blocks 26 3 0 1 2 example_gen :=
  reachable.init (by decide)

theorem example_gen_stolen_reachable :
    reachable example_cfg example_blocks 26 3 0 1 2 example_gen_stolen :=
  reachable.step (k := io_call.steal) (r := ⟨⟨8, 0⟩, 4, 3, 0, 25, 5, true⟩)
    example_gen_reachable rfl

theorem call_exhaustion (cfg : matrix_config) (blocks : List row_block) (n : Nat)
    (g0 g : row_io_generator) (k : io_call) (hn : blocks.length = n + 1)
    (hinv : gen_inv n g0 g) :
    ∃ r g1, g.call cfg blocks k = Except.ok (r, g1) ∧
      (r = matrix_io.empty ↔ g.has_next_io = false) ∧
      (r.is_valid = false ↔ g.has_next_io = false) ∧
      (g.has_next_io = false → g1 = g) := by
  rcases call_cases cfg blocks n g0 g k hn hinv with
    ⟨h, hcall⟩ | ⟨h, c, b0, b1, _, _, _, _, _, hcall⟩
  · have hf : g.has_next_io = false := by simp [row_io_generator.has_next_io, h]
    exact ⟨_, _, hcall, by simp [hf], by simp [hf, matrix_io.is_valid, matrix_io.empty],
      fun _ => rfl⟩
  · have ht : g.has_next_io = true := (has_next_io_iff g).2 h
    refine ⟨_, _, hcall, ?_, ?_, ?_⟩
    · simp only [ht, Bool.true_eq_false, iff_false]
      intro he
      have := congrArg matrix_io.valid he
      simp [request_of, matrix_io.mk_io, matrix_io.empty] at this
    · simp [ht, request_of, matrix_io.mk_io, matrix_io.is_valid]
    · intro hf; rw [ht] at hf; cases hf

theorem run_calls_inv (cfg : matrix_config) (blocks : List row_block) (n : Nat)
    (g0 : row_io_generator) (hn : blocks.length = n + 1) :
    ∀ (calls : List io_call) (g : row_io_generator), gen_inv n g0 g →
      ∃ trace, run_calls cfg blocks g calls = Except.ok trace ∧
        trace.length = calls.length ∧
        List.Chain (fun a b => a.curr_io_off ≤ b.curr_io_off) g (trace.map Prod.snd) ∧
        ∀ s ∈ trace.map Prod.snd, gen_inv n g0 s := by
  intro calls
  induction calls with
  | nil =>
    intro g _
    exact ⟨[], rfl, rfl, List.Chain.nil, by simp⟩
  | cons k ks ih =>
    intro g hinv
    obtain ⟨r, g1, hcall, hle⟩ : ∃ r g1, g.call cfg blocks k = Except.ok (r, g1) ∧
        g.curr_io_off ≤ g1.curr_io_off := by
      rcases call_cases cfg blocks n g0 g k hn hinv with
        ⟨_, hcall⟩ | ⟨_, c, b0, b1, _, _, _, _, _, hcall⟩
      · exact ⟨_, _, hcall, le_refl _⟩
      · refine ⟨_, _, hcall, ?_⟩
        simp only [gen_after]
        split <;> omega
    have hinv1 := gen_inv_call cfg blocks n g0 g g1 k r hn hinv hcall
    obtain ⟨trace, htr, hlen, hchain, hall⟩ := ih g1 hinv1
    refine ⟨(r, g1) :: trace, ?_, ?_, ?_, ?_⟩
    · simp [run_calls, hcall, htr]
    · simp [hlen]
    · simp only [List.map_cons]
      exact List.Chain.cons hle hchain
    · intro s hs
      simp only [List.map_cons, List.mem_cons] at hs
      rcases hs with rfl | hs
      · exact hinv1
      · exact hall s hs

theorem mem_striped (n rb w gen_id k : Nat) (hrb : 0 < rb) (hid : gen_id < w)
    (hlt : ∀ j, j < k → (gen_id + j * w) * rb < n) (hge : n ≤ (gen_id + k * w) * rb)
    (b : Nat) :
    (∃ j, j < k ∧ (gen_id + j * w) * rb ≤ b ∧
        b < (gen_id + j * w) * rb + min rb (n - (gen_id + j * w) * rb)) ↔
      (b < n ∧ (b / rb) % w = gen_id) := by
  constructor
  · rintro ⟨j, hj, h1, h2⟩
    have hs := hlt j hj
    have h3 : b < (gen_id + j * w) * rb + rb := by
      have := Nat.min_le_left rb (n - (gen_id + j * w) * rb); omega
    have h4 : b < n := by
      have := Nat.min_le_right rb (n - (gen_id + j * w) * rb); omega
    have hq : b / rb = gen_id + j * w := by
      apply Nat.div_eq_of_lt_le
      · exact h1
      · rw [Nat.succ_mul]; exact h3
    refine ⟨h4, ?_⟩
    rw [hq, Nat.add_mul_mod_self_right, Nat.mod_eq_of_lt hid]
  · rintro ⟨hb, hmod⟩
    have hq : gen_id + (b / rb) / w * w = b / rb := by
      have := Nat.mod_add_div (b / rb) w
      rw [hmod, Nat.mul_comm] at this
      exact this
    have hdm := Nat.div_add_mod b rb
    have hml := Nat.mod_lt b hrb
    rw [Nat.mul_comm] at hdm
    have hs1 : (b / rb) * rb ≤ b := by omega
    have hs2 : b < (b / rb) * rb + rb := by omega
    have hjk : (b / rb) / w < k := by
      by_contra hnot
      have hkj : k ≤ (b / rb) / w := by omega
      have h1 : gen_id + k * w ≤ gen_id + (b / rb) / w * w :=
        Nat.add_le_add_left (Nat.mul_le_mul_right w hkj) gen_id
      have h2 : (gen_id + k * w) * rb ≤ (gen_id + (b / rb) / w * w) * rb :=
        Nat.mul_le_mul_right rb h1
      rw [hq] at h2
      omega
    refine ⟨(b / rb) / w, hjk, ?_, ?_⟩
    · rw [hq]; exact hs1
    · rw [hq]
      have : min rb (n - (b / rb) * rb) = rb ∨ min rb (n - (b / rb) * rb) = n - (b / rb) * rb := by
        rcases Nat.le_total rb (n - (b / rb) * rb) with h | h
        · left; exact Nat.min_eq_left h
        · right; exact Nat.min_eq_right h
      rcases this with h | h <;> rw [h] <;> omega

theorem range_num_rows_zero (cfg : matrix_config) (n tot f : Nat) :
    range_num_rows cfg n tot f 0 = 0 := by
  simp [range_num_rows]

theorem range_num_rows_succ (cfg : matrix_config) (n tot f m : Nat) :
    range_num_rows cfg n tot f (m + 1)
      = block_num_rows cfg n tot f + range_num_rows cfg n tot (f + 1) m := by
  simp [range_num_rows, List.range'_succ]

theorem range_num_rows_full (cfg : matrix_config) (n tot : Nat) :
    ∀ m f, f + m < n → range_num_rows cfg n tot f m = m * cfg.row_block_size := by
  intro m
  induction m with
  | zero => intro f _; simp [range_num_rows_zero]
  | succ m ih =>
    intro f h
    rw [range_num_rows_succ, ih (f + 1) (by omega)]
    have : ¬ f + 1 = n := by omega
    simp only [block_num_rows, this, if_false]
    rw [Nat.succ_mul]
    omega

theorem range_num_rows_last (cfg : matrix_config) (n tot : Nat) :
    ∀ m f, f + (m + 1) = n →
      range_num_rows cfg n tot f (m + 1)
        = m * cfg.row_block_size + (tot - (n - 1) * cfg.row_block_size) := by
  intro m
  induction m with
  | zero =>
    intro f h
    rw [range_num_rows_succ, range_num_rows_zero]
    have : f + 1 = n := by omega
    simp [block_num_rows, this]
  | succ m ih =>
    intro f h
    rw [range_num_rows_succ, ih (f + 1) (by omega)]
    have : ¬ f + 1 = n := by omega
    simp only [block_num_rows, this, if_false]
    rw [Nat.succ_mul]
    omega

/-- The hypothesis `(N - 1) * row_block_size < tot_num_rows ≤ N * row_block_size` over
the natural numbers. -/
theorem rows_bounds (cfg : matrix_config) (n tot : Nat)
    (hlo : ((n : Int) - 1) * (cfg.row_block_size : Int) < (tot : Int))
    (hhi : tot ≤ n * cfg.row_block_size) (hpos : 0 < n) :
    (n - 1) * cfg.row_block_size < tot ∧ 0 < cfg.row_block_size ∧
      tot - (n - 1) * cfg.row_block_size ≤ cfg.row_block_size ∧
      0 < tot - (n - 1) * cfg.row_block_size := by
  obtain ⟨p, rfl⟩ : ∃ p, n = p + 1 := ⟨n - 1, by omega⟩
  have h1 : p * cfg.row_block_size < tot := by
    have : ((p + 1 : Nat) : Int) - 1 = (p : Int) := by push_cast; ring
    rw [this] at hlo
    exact_mod_cast hlo
  rw [Nat.add_sub_cancel]
  rw [Nat.succ_mul] at hhi
  refine ⟨h1, ?_, by omega, by omega⟩
  rcases Nat.eq_zero_or_pos cfg.row_block_size with h0 | h0
  · rw [h0] at hhi h1; simp at hhi h1; omega
  · exact h0

theorem ctor_chunk_rows (cfg : matrix_config) (n tot : Nat)
    (hlo : ((n : Int) - 1) * (cfg.row_block_size : Int) < (tot : Int))
    (hhi : tot ≤ n * cfg.row_block_size) (i : Nat) (hi : i < n) (hrb : 0 < cfg.rb_io_size) :
    (ctor_chunk cfg n tot i).tot_num_rows
      = range_num_rows cfg n tot (ctor_chunk cfg n tot i).first_row_block
          (ctor_chunk cfg n tot i).num_row_blocks := by
  obtain ⟨h1, h2, h3, h4⟩ := rows_bounds cfg n tot hlo hhi (by omega)
  simp only [ctor_chunk]
  have hmpos : 0 < min cfg.rb_io_size (n - i) := Nat.lt_min.2 ⟨hrb, by omega⟩
  have hmle : min cfg.rb_io_size (n - i) ≤ n - i := Nat.min_le_right _ _
  generalize min cfg.rb_io_size (n - i) = m at hmpos hmle
  obtain ⟨p, rfl⟩ : ∃ p, m = p + 1 := ⟨m - 1, by omega⟩
  by_cases hlast : i + (p + 1) = n
  · rw [range_num_rows_last cfg n tot p i hlast]
    have key : (n - 1) * cfg.row_block_size
        = i * cfg.row_block_size + p * cfg.row_block_size := by
      rw [← Nat.add_mul]; congr 1; omega
    have key2 : n * cfg.row_block_size
        = i * cfg.row_block_size + p * cfg.row_block_size + cfg.row_block_size := by
      rw [← hlast, Nat.add_mul, Nat.add_mul, Nat.one_mul]; omega
    rw [key] at h1 ⊢
    rw [key2] at hhi
    have hs : size_t_sub tot (i * cfg.row_block_size) = tot - i * cfg.row_block_size := by
      simp only [size_t_sub]; rw [if_pos (by omega)]
    rw [hs, Nat.add_mul, Nat.one_mul]
    rw [Nat.min_def]
    split <;> omega
  · rw [range_num_rows_full cfg n tot (p + 1) i (by omega)]
    obtain ⟨d, hd⟩ : ∃ d, n - 1 = i + (p + 1) + d := ⟨n - 1 - (i + (p + 1)), by omega⟩
    have key : (n - 1) * cfg.row_block_size
        = i * cfg.row_block_size + (p + 1) * cfg.row_block_size + d * cfg.row_block_size := by
      rw [hd, Nat.add_mul, Nat.add_mul]
    rw [key] at h1
    have hs : size_t_sub tot (i * cfg.row_block_size) = tot - i * cfg.row_block_size := by
      simp only [size_t_sub]; rw [if_pos (by omega)]
    rw [hs]
    apply Nat.min_eq_left
    omega

theorem chunk_after_rows (cfg : matrix_config) (n tot : Nat)
    (hlo : ((n : Int) - 1) * (cfg.row_block_size : Int) < (tot : Int))
    (hhi : tot ≤ n * cfg.row_block_size) (k : io_call) (c : large_row_io)
    (hd : 0 < c.num_row_blocks) (hr : c.first_row_block + c.num_row_blocks ≤ n)
    (hrows : c.tot_num_rows
      = range_num_rows cfg n tot c.first_row_block c.num_row_blocks) :
    (chunk_after cfg k c).tot_num_rows
      = range_num_rows cfg n tot (chunk_after cfg k c).first_row_block
          (chunk_after cfg k c).num_row_blocks := by
  obtain ⟨h1, h2, h3, h4⟩ := rows_bounds cfg n tot hlo hhi (by omega)
  cases k with
  | next => simp [chunk_after, taken_blocks, taken_rows, range_num_rows_zero]
  | steal =>
    simp only [chunk_after, taken_blocks, taken_rows]
    have hsle : min c.num_row_blocks cfg.rb_steal_io_size ≤ c.num_row_blocks :=
      Nat.min_le_left _ _
    generalize min c.num_row_blocks cfg.rb_steal_io_size = s at hsle
    obtain ⟨f, m, t⟩ := c
    simp only at hd hr hrows hsle ⊢
    rcases Nat.eq_or_lt_of_le hsle with rfl | hlt
    · -- the whole chunk is taken
      rw [Nat.sub_self, range_num_rows_zero]
      have : t ≤ s * cfg.row_block_size := by
        obtain ⟨p, rfl⟩ : ∃ p, s = p + 1 := ⟨s - 1, by omega⟩
        by_cases hlast : f + (p + 1) = n
        · rw [range_num_rows_last cfg n tot p f hlast] at hrows
          rw [Nat.add_mul, Nat.one_mul]; omega
        · rw [range_num_rows_full cfg n tot (p + 1) f (by omega)] at hrows
          omega
      rw [Nat.min_eq_left this]; omega
    · -- a proper prefix is taken
      obtain ⟨e, rfl⟩ : ∃ e, m = s + e + 1 := ⟨m - s - 1, by omega⟩
      have hms : s + e + 1 - s = e + 1 := by omega
      rw [hms]
      by_cases hlast : f + (s + e + 1) = n
      · rw [range_num_rows_last cfg n tot (s + e) f hlast] at hrows
        rw [range_num_rows_last cfg n tot e (f + s) (by omega)]
        rw [Nat.add_mul] at hrows
        have : min t (s * cfg.row_block_size) = s * cfg.row_block_size :=
          Nat.min_eq_right (by omega)
        rw [this]; omega
      · rw [range_num_rows_full cfg n tot (s + e + 1) f (by omega)] at hrows
        rw [range_num_rows_full cfg n tot (e + 1) (f + s) (by omega)]
        rw [Nat.add_mul, Nat.add_mul] at hrows
        rw [Nat.add_mul]
        have : min t (s * cfg.row_block_size) = s * cfg.row_block_size :=
          Nat.min_eq_right (by omega)
        rw [this]; omega

theorem range_num_rows_eq_zero (cfg : matrix_config) (n tot : Nat)
    (hlo : ((n : Int) - 1) * (cfg.row_block_size : Int) < (tot : Int))
    (hhi : tot ≤ n * cfg.row_block_size) (f m : Nat) (hr : f + m ≤ n) :
    range_num_rows cfg n tot f m = 0 ↔ m = 0 := by
  constructor
  · intro h
    by_contra hm
    obtain ⟨h1, h2, h3, h4⟩ := rows_bounds cfg n tot hlo hhi (by omega)
    obtain ⟨p, rfl⟩ : ∃ p, m = p + 1 := ⟨m - 1, by omega⟩
    by_cases hlast : f + (p + 1) = n
    · rw [range_num_rows_last cfg n tot p f hlast] at h; omega
    · rw [range_num_rows_full cfg n tot (p + 1) f (by omega), Nat.add_mul] at h; omega
  · rintro rfl; exact range_num_rows_zero cfg n tot f

theorem mem_set_cases {α : Type} (l : List α) (i : Nat) (a x : α) (h : x ∈ l.set i a) :
    x = a ∨ x ∈ l := by
  rcases List.mem_or_eq_of_mem_set h with h | h
  · exact Or.inr h
  · exact Or.inl h

theorem reachable_rows (cfg : matrix_config) (blocks : List row_block) (n tot tc : Nat)
    (fid : Int) (gen_id num_gens : Nat) (g : row_io_generator) (hn : blocks.length = n + 1)
    (hlo : ((n : Int) - 1) * (cfg.row_block_size : Int) < (tot : Int))
    (hhi : tot ≤ n * cfg.row_block_size)
    (hg : reachable cfg blocks tot tc fid gen_id num_gens g) :
    ∀ c ∈ g.ios, c.tot_num_rows
      = range_num_rows cfg n tot c.first_row_block c.num_row_blocks := by
  induction hg with
  | init h0 =>
    intro c hc
    obtain ⟨h1, h2, h3, _⟩ := create_chunk cfg blocks n tot tc fid gen_id num_gens _ hn h0 c hc
    rw [h2]
    exact ctor_chunk_rows cfg n tot hlo hhi _ h1 h3
  | step hg1 hcall ih =>
    rename_i g g1 k r
    obtain ⟨g0, -, hinv⟩ := reachable_inv cfg blocks n tot tc fid gen_id num_gens g hn hg1
    rcases call_cases cfg blocks n g0 g k hn hinv with
      ⟨_, h⟩ | ⟨_, c, b0, b1, hc, hd, hr, _, _, h⟩
    · rw [h] at hcall; cases hcall; exact ih
    · rw [h] at hcall; cases hcall
      intro d hdm
      simp only [gen_after] at hdm
      rcases mem_set_cases _ _ _ _ hdm with rfl | hdm
      · exact chunk_after_rows cfg n tot hlo hhi k c hd hr (ih c (List.getElem?_mem hc))
      · exact ih d hdm

theorem range_num_rows_all (cfg : matrix_config) (n tot : Nat)
    (hlo : ((n : Int) - 1) * (cfg.row_block_size : Int) < (tot : Int))
    (hhi : tot ≤ n * cfg.row_block_size) :
    range_num_rows cfg n tot 0 n = tot := by
  rcases Nat.eq_zero_or_pos n with rfl | hpos
  · simp at hhi
    simp [range_num_rows_zero, hhi]
  · obtain ⟨h1, -, -, -⟩ := rows_bounds cfg n tot hlo hhi hpos
    obtain ⟨p, rfl⟩ : ∃ p, n = p + 1 := ⟨n - 1, by omega⟩
    rw [range_num_rows_last cfg (p + 1) tot p 0 (by omega)]
    rw [Nat.add_sub_cancel] at h1 ⊢
    omega

theorem call_well_formed (cfg : matrix_config) (blocks : List row_block) (n tot tc : Nat)
    (fid : Int) (gen_id num_gens : Nat) (g : row_io_generator) (file_size : Int)
    (k : io_call)
    (hn : blocks.length = n + 1)
    (hinc : offsets_increasing blocks)
    (hnonneg : ∀ b ∈ blocks, 0 ≤ b.offset)
    (hlast : blocks[n]? = some ⟨file_size⟩)
    (hsteal : 1 ≤ cfg.rb_steal_io_size)
    (hlo : ((n : Int) - 1) * (cfg.row_block_size : Int) < (tot : Int))
    (hhi : tot ≤ n * cfg.row_block_size)
    (hg : reachable cfg blocks tot tc fid gen_id num_gens g)
    (hnext : g.has_next_io = true) :
    ∃ r g1, g.call cfg blocks k = Except.ok (r, g1) ∧ r.is_valid = true ∧
      0 < r.num_rows ∧ 0 < r.byte_size ∧ 0 ≤ r.byte_offset ∧
      r.byte_offset + (r.byte_size : Int) ≤ file_size := by
  obtain ⟨g0, -, hinv⟩ := reachable_inv cfg blocks n tot tc fid gen_id num_gens g hn hg
  have hlt := (has_next_io_iff g).1 hnext
  rcases call_cases cfg blocks n g0 g k hn hinv with
    ⟨h, _⟩ | ⟨_, c, b0, b1, hc, hd, hr, hb0, hb1, hcall⟩
  · exact absurd hlt h
  · have hrows := reachable_rows cfg blocks n tot tc fid gen_id num_gens g hn hlo hhi hg c
      (List.getElem?_mem hc)
    have hz := range_num_rows_eq_zero cfg n tot hlo hhi _ _ hr
    obtain ⟨-, hR, -, -⟩ := rows_bounds cfg n tot hlo hhi (by omega)
    have htpos : 0 < c.tot_num_rows := by
      rw [hrows]
      rcases Nat.eq_zero_or_pos (range_num_rows cfg n tot c.first_row_block c.num_row_blocks)
        with h | h
      · have := hz.1 h; omega
      · exact h
    have hmle := taken_blocks_le cfg k c
    have hmpos : 0 < taken_blocks cfg k c := by
      cases k with
      | next => exact hd
      | steal => exact Nat.lt_min.2 ⟨hd, hsteal⟩
    have hoff : b0.offset < b1.offset :=
      offsets_lt blocks hinc _ _ b0 b1 hb0 hb1 (by omega)
    have hend : b1.offset ≤ file_size := by
      have := offsets_le blocks hinc _ n b1 ⟨file_size⟩ hb1 hlast (by omega)
      simpa using this
    have hsz : ((request_of cfg k g c b0 b1).byte_size : Int) = b1.offset - b0.offset :=
      off_to_size_nonneg _ (by omega)
    refine ⟨_, _, hcall, rfl, ?_, ?_, ?_, ?_⟩
    · cases k with
      | next => exact htpos
      | steal =>
        simp only [request_of, matrix_io.mk_io, taken_rows]
        exact Nat.lt_min.2 ⟨htpos, Nat.mul_pos (Nat.lt_min.2 ⟨hd, hsteal⟩) hR⟩
    · have : (0 : Int) < ((request_of cfg k g c b0 b1).byte_size : Int) := by omega
      exact_mod_cast this
    · exact hnonneg b0 (List.getElem?_mem hb0)
    · rw [hsz]
      simp only [request_of, matrix_io.mk_io]
      omega

theorem example_blocks_increasing : offsets_increasing example_blocks := by
  unfold offsets_increasing example_blocks
  decide

theorem flatMap_set_perm {α β : Type} (f : α → List β) :
    ∀ (l : List α) (i : Nat) (a a1 : α) (xs : List β), l[i]? = some a →
      List.Perm (xs ++ f a1) (f a) →
      List.Perm (xs ++ (l.set i a1).flatMap f) (l.flatMap f) := by
  intro l
  induction l with
  | nil => intro i a a1 xs h _; simp at h
  | cons x l ih =>
    intro i a a1 xs h hp
    cases i with
    | zero =>
      simp only [List.getElem?_cons_zero, Option.some.injEq] at h
      subst h
      simp only [List.set_cons_zero, List.flatMap_cons]
      rw [← List.append_assoc]
      exact hp.append_right _
    | succ i =>
      simp only [List.getElem?_cons_succ] at h
      simp only [List.set_cons_succ, List.flatMap_cons]
      exact (List.perm_append_comm_assoc _ _ _).trans ((ih i a a1 xs h hp).append_left _)

theorem block_range_split (cfg : matrix_config) (k : io_call) (c : large_row_io) :
    List.range' c.first_row_block (taken_blocks cfg k c) ++ (chunk_after cfg k c).block_range
      = c.block_range := by
  have := taken_blocks_le cfg k c
  simp only [large_row_io.block_range, chunk_after]
  rw [List.range'_append_1]
  congr 1
  omega

/-- The row blocks a call hands out: those of its request when the request is valid. -/
theorem call_blocks (cfg : matrix_config) (blocks : List row_block) (n : Nat)
    (g0 g g1 : row_io_generator) (k : io_call) (r : matrix_io) (hn : blocks.length = n + 1)
    (hinc : offsets_increasing blocks) (hinv : gen_inv n g0 g)
    (hcall : g.call cfg blocks k = Except.ok (r, g1)) :
    List.Perm ((if r.is_valid then covered_blocks blocks r else []) ++ g1.block_range)
        g.block_range ∧
      (r.is_valid = true → ∃ f m, covered_blocks blocks r = List.range' f m ∧
        (k = io_call.next ∨ 1 ≤ cfg.rb_steal_io_size → 0 < m)) := by
  rcases call_cases cfg blocks n g0 g k hn hinv with
    ⟨_, h⟩ | ⟨_, c, b0, b1, hc, hd, hr, hb0, hb1, h⟩
  · rw [h] at hcall; cases hcall
    simp [matrix_io.is_valid, matrix_io.empty]
  · rw [h] at hcall; cases hcall
    have hle := taken_blocks_le cfg k c
    have hcov := covered_window blocks n hn hinc c.first_row_block (taken_blocks cfg k c)
      (by omega) b0 b1 hb0 hb1 (request_of cfg k g c b0 b1) rfl rfl
    have hv : (request_of cfg k g c b0 b1).is_valid = true := rfl
    constructor
    · rw [hv, if_pos rfl, hcov]
      simp only [row_io_generator.block_range, gen_after]
      apply flatMap_set_perm large_row_io.block_range g.ios g.curr_io_off c _ _ hc
      rw [block_range_split]
    · intro _
      refine ⟨_, _, hcov, ?_⟩
      intro hk
      cases k with
      | next => exact hd
      | steal =>
        rcases hk with hk | hk
        · cases hk
        · exact Nat.lt_min.2 ⟨hd, hk⟩

theorem exhausted_block_range (n : Nat) (g0 g : row_io_generator) (hinv : gen_inv n g0 g)
    (h : g.has_next_io = false) : g.block_range = [] := by
  have hcur : ¬ g.curr_io_off < g.ios.length := by
    intro hlt
    rw [(has_next_io_iff g).2 hlt] at h
    cases h
  simp only [row_io_generator.block_range, List.flatMap_eq_nil_iff]
  intro c hc
  obtain ⟨i, hi⟩ := List.mem_iff_getElem?.1 hc
  obtain ⟨hil, -⟩ := getElem_of_getElem? hi
  have := hinv.passed i c hi (by omega)
  simp [large_row_io.block_range, this]

theorem call_total (cfg : matrix_config) (blocks : List row_block) (n : Nat)
    (g0 g : row_io_generator) (k : io_call) (hn : blocks.length = n + 1)
    (hinv : gen_inv n g0 g) :
    ∃ r g1, g.call cfg blocks k = Except.ok (r, g1) := by
  rcases call_cases cfg blocks n g0 g k hn hinv with
    ⟨_, h⟩ | ⟨_, c, b0, b1, _, _, _, _, _, h⟩
  · exact ⟨_, _, h⟩
  · exact ⟨_, _, h⟩

theorem run_workers_blocks (cfg : matrix_config) (blocks : List row_block) (n : Nat)
    (hn : blocks.length = n + 1) (hinc : offsets_increasing blocks) :
    ∀ (calls : List (Nat × io_call)) (gens : List row_io_generator),
      (∀ g ∈ gens, ∃ g0, gen_inv n g0 g) →
      (∀ c ∈ calls, c.1 < gens.length) →
      ∃ reqs gens1, run_workers cfg blocks gens calls = Except.ok (reqs, gens1) ∧
        reqs.length = calls.length ∧
        gens1.length = gens.length ∧
        (∀ g ∈ gens1, ∃ g0, gen_inv n g0 g) ∧
        List.Perm
          ((reqs.filter matrix_io.is_valid).flatMap (covered_blocks blocks)
            ++ gens1.flatMap row_io_generator.block_range)
          (gens.flatMap row_io_generator.block_range) ∧
        (∀ r ∈ reqs, r.is_valid = true → ∃ f m, covered_blocks blocks r = List.range' f m ∧
          (1 ≤ cfg.rb_steal_io_size → 0 < m)) := by
  intro calls
  induction calls with
  | nil =>
    intro gens hinv _
    exact ⟨[], gens, rfl, rfl, rfl, hinv, by simp, by simp⟩
  | cons ck cs ih =>
    intro gens hinv hidx
    obtain ⟨i, k⟩ := ck
    have hi : i < gens.length := hidx (i, k) (List.mem_cons_self _ _)
    have hgi : gens[i]? = some gens[i] := List.getElem?_eq_getElem hi
    obtain ⟨g0, hg⟩ := hinv _ (List.getElem?_mem hgi)
    obtain ⟨r, g1, hcall⟩ := call_total cfg blocks n g0 gens[i] k hn hg
    have hg1 := gen_inv_call cfg blocks n g0 gens[i] g1 k r hn hg hcall
    obtain ⟨hperm, hshape⟩ := call_blocks cfg blocks n g0 gens[i] g1 k r hn hinc hg hcall
    have hinv1 : ∀ g ∈ gens.set i g1, ∃ g0, gen_inv n g0 g := by
      intro g hgm
      rcases mem_set_cases _ _ _ _ hgm with rfl | hgm
      · exact ⟨g0, hg1⟩
      · exact hinv g hgm
    have hidx1 : ∀ c ∈ cs, c.1 < (gens.set i g1).length := by
      intro c hc
      rw [List.length_set]
      exact hidx c (List.mem_cons_of_mem _ hc)
    obtain ⟨rs, gens1, hrun, hlen, hlen1, hinv2, hp, hsh⟩ := ih (gens.set i g1) hinv1 hidx1
    refine ⟨r :: rs, gens1, ?_, ?_, ?_, hinv2, ?_, ?_⟩
    · simp [run_workers, hgi, hcall, hrun]
    · simp [hlen]
    · rw [hlen1, List.length_set]
    · have hstep := flatMap_set_perm row_io_generator.block_range gens i gens[i] g1 _ hgi hperm
      have e : ((r :: rs).filter matrix_io.is_valid).flatMap (covered_blocks blocks)
          = (if r.is_valid then covered_blocks blocks r else [])
            ++ (rs.filter matrix_io.is_valid).flatMap (covered_blocks blocks) := by
        by_cases hv : r.is_valid = true
        · simp [List.filter_cons, hv]
        · simp [List.filter_cons, hv]
      rw [e, List.append_assoc]
      exact (hp.append_left _).trans hstep
    · intro q hq hv
      rcases List.mem_cons.1 hq with rfl | hq
      · obtain ⟨f, m, h1, h2⟩ := hshape hv
        exact ⟨f, m, h1, fun hs => h2 (Or.inr hs)⟩
      · exact hsh q hq hv

theorem create_block_range (cfg : matrix_config) (blocks : List row_block) (n tot tc : Nat)
    (fid : Int) (gen_id num_gens : Nat) (g : row_io_generator) (hn : blocks.length = n + 1)
    (hrb : 0 < cfg.rb_io_size) (hid : gen_id < num_gens)
    (hg : row_io_generator.create cfg blocks tot tc fid gen_id num_gens = some g) :
    g.block_range.Nodup ∧
      ∀ b, b ∈ g.block_range ↔ (b < n ∧ (b / cfg.rb_io_size) % num_gens = gen_id) := by
  have hw : 0 < num_gens := by omega
  obtain ⟨k, hk, hlt, hge⟩ := create_closed cfg blocks n tot tc fid gen_id num_gens hn hrb hw
  rw [hk] at hg
  cases hg
  constructor
  · simp only [row_io_generator.block_range]
    rw [List.nodup_flatMap]
    constructor
    · intro c _
      exact List.nodup_range' _ _
    · rw [List.pairwise_map]
      refine (List.pairwise_lt_range k).imp ?_
      intro j1 j2 hj
      simp only [Function.onFun]
      rw [List.disjoint_left]
      intro x hx1 hx2
      simp only [large_row_io.block_range, ctor_chunk, List.mem_range'_1] at hx1 hx2
      have h1 : min cfg.rb_io_size (n - (gen_id + j1 * num_gens) * cfg.rb_io_size)
          ≤ cfg.rb_io_size := Nat.min_le_left _ _
      have h2 : (j1 + 1) * num_gens ≤ j2 * num_gens := Nat.mul_le_mul_right _ hj
      have h3 : gen_id + j1 * num_gens + 1 ≤ gen_id + j2 * num_gens := by
        rw [Nat.add_mul, Nat.one_mul] at h2; omega
      have h4 := Nat.mul_le_mul_right cfg.rb_io_size h3
      rw [Nat.add_mul _ 1, Nat.one_mul] at h4
      omega
  · intro b
    rw [← mem_striped n cfg.rb_io_size num_gens gen_id k hrb hid hlt hge b]
    simp only [row_io_generator.block_range, List.mem_flatMap, List.mem_map, List.mem_range]
    constructor
    · rintro ⟨c, ⟨j, hj, rfl⟩, hb⟩
      simp only [large_row_io.block_range, ctor_chunk, List.mem_range'_1] at hb
      exact ⟨j, hj, hb.1, hb.2⟩
    · rintro ⟨j, hj, h1, h2⟩
      refine ⟨_, ⟨j, hj, rfl⟩, ?_⟩
      simp only [large_row_io.block_range, ctor_chunk, List.mem_range'_1]
      exact ⟨h1, h2⟩

theorem create_gens_spec (cfg : matrix_config) (blocks : List row_block) (n tot tc : Nat)
    (fid : Int) (num_gens : Nat) (hn : blocks.length = n + 1)
    (hrb : 0 < cfg.rb_io_size) (hw : 0 < num_gens) :
    ∀ k, ∃ gens, create_gens cfg blocks tot tc fid num_gens k = some gens ∧
      gens.length = k ∧
      ∀ i g, gens[i]? = some g →
        row_io_generator.create cfg blocks tot tc fid i num_gens = some g := by
  intro k
  induction k with
  | zero => exact ⟨[], rfl, rfl, by simp⟩
  | succ k ih =>
    obtain ⟨gens, hgens, hlen, hspec⟩ := ih
    obtain ⟨gk, hk⟩ : ∃ gk,
        row_io_generator.create cfg blocks tot tc fid k num_gens = some gk := by
      obtain ⟨_, hk, -, -⟩ := create_closed cfg blocks n tot tc fid k num_gens hn hrb hw
      exact ⟨_, hk⟩
    refine ⟨gens ++ [gk], ?_, ?_, ?_⟩
    · simp only [create_gens, hgens, hk]
    · simp [hlen]
    · intro i g hi
      rcases Nat.lt_or_ge i gens.length with hlt | hge
      · rw [List.getElem?_append_left hlt] at hi
        exact hspec i g hi
      · rw [List.getElem?_append_right hge] at hi
        have hi0 : i - gens.length = 0 := by
          by_contra hne
          obtain ⟨p, hp⟩ : ∃ p, i - gens.length = p + 1 := ⟨i - gens.length - 1, by omega⟩
          rw [hp] at hi
          simp at hi
        rw [hi0] at hi
        simp only [List.getElem?_cons_zero, Option.some.injEq] at hi
        have : i = k := by omega
        rw [this, ← hi]
        exact hk

theorem create_all_blocks (cfg : matrix_config) (blocks : List row_block) (n tot tc : Nat)
    (fid : Int) (num_gens : Nat) (hn : blocks.length = n + 1)
    (hrb : 0 < cfg.rb_io_size) (hw : 0 < num_gens) :
    ∃ gens, create_all cfg blocks tot tc fid num_gens = some gens ∧
      gens.length = num_gens ∧
      (∀ g ∈ gens, ∃ g0, gen_inv n g0 g) ∧
      List.Perm (gens.flatMap row_io_generator.block_range) (List.range n) := by
  obtain ⟨gens, hgens, hlen, hspec⟩ :=
    create_gens_spec cfg blocks n tot tc fid num_gens hn hrb hw num_gens
  refine ⟨gens, hgens, hlen, ?_, ?_⟩
  · intro g hg
    obtain ⟨i, hi⟩ := List.mem_iff_getElem?.1 hg
    exact ⟨g, create_inv cfg blocks n tot tc fid i num_gens g hn (hspec i g hi)⟩
  · have hrange : ∀ i g, gens[i]? = some g → g.block_range.Nodup ∧
        ∀ b, b ∈ g.block_range ↔ (b < n ∧ (b / cfg.rb_io_size) % num_gens = i) := by
      intro i g hi
      obtain ⟨hil, -⟩ := getElem_of_getElem? hi
      exact create_block_range cfg blocks n tot tc fid i num_gens g hn hrb (by omega)
        (hspec i g hi)
    have hnodup : (gens.flatMap row_io_generator.block_range).Nodup := by
      rw [List.nodup_flatMap]
      constructor
      · intro g hg
        obtain ⟨i, hi⟩ := List.mem_iff_getElem?.1 hg
        exact (hrange i g hi).1
      · rw [List.pairwise_iff_getElem]
        intro i j hi hj hij
        simp only [Function.onFun]
        rw [List.disjoint_left]
        intro b hb1 hb2
        have h1 := ((hrange i _ (List.getElem?_eq_getElem hi)).2 b).1 hb1
        have h2 := ((hrange j _ (List.getElem?_eq_getElem hj)).2 b).1 hb2
        omega
    rw [List.perm_ext_iff_of_nodup hnodup (List.nodup_range n)]
    intro b
    simp only [List.mem_flatMap, List.mem_range]
    constructor
    · rintro ⟨g, hg, hb⟩
      obtain ⟨i, hi⟩ := List.mem_iff_getElem?.1 hg
      exact (((hrange i g hi).2 b).1 hb).1
    · intro hb
      have hm : (b / cfg.rb_io_size) % num_gens < gens.length := by
        rw [hlen]; exact Nat.mod_lt _ hw
      refine ⟨gens[(b / cfg.rb_io_size) % num_gens], List.getElem_mem _, ?_⟩
      exact ((hrange _ _ (List.getElem?_eq_getElem hm)).2 b).2 ⟨hb, rfl⟩

/-- An interleaving on the two generators of the example that serves every row block:
both generators are robbed once, both owners read the rest of their first chunk, and the
second chunks are stolen one row block at a time.  Generator 0 holds four row blocks
and is called four times, generator 1 holds three and is called three times. -/
theorem example_run :
    ∃ gens reqs gens1,
      create_all example_cfg example_blocks 26 3 0 2 = some gens ∧
      run_workers example_cfg example_blocks gens example_calls = Except.ok (reqs, gens1) ∧
      (∀ g ∈ gens1, g.has_next_io = false) ∧
      (reqs.filter matrix_io.is_valid).flatMap (covered_blocks example_blocks)
        = [0, 2, 1, 3, 4, 6, 5] ∧
      (reqs.map fun r => (r.is_valid, covered_blocks example_blocks r))
        = [(true, [0]), (true, [2]), (true, [1]), (true, [3]), (true, [4]), (true, [6]),
            (true, [5])] ∧
      (reqs.map fun r => (r.top_left.row_idx, r.top_left.col_idx, r.num_rows, r.num_cols))
        = [(0, 0, 4, 3), (8, 0, 4, 3), (4, 0, 4, 3), (12, 0, 4, 3), (16, 0, 4, 3),
            (24, 0, 2, 3), (20, 0, 4, 3)] :=
  ⟨_, _, _, rfl, rfl, by decide, by decide, by decide, by decide⟩

theorem create_block_range_sorted (cfg : matrix_config) (blocks : List row_block)
    (n tot tc : Nat) (fid : Int) (gen_id num_gens : Nat) (g : row_io_generator)
    (hn : blocks.length = n + 1)
    (hg : row_io_generator.create cfg blocks tot tc fid gen_id num_gens = some g) :
    g.block_range.Pairwise (· < ·) := by
  rcases List.eq_nil_or_concat g.ios with h | ⟨l, c, h⟩
  · simp [row_io_generator.block_range, h]
  · have hc : c ∈ g.ios := by rw [h]; simp
    obtain ⟨-, -, hrb, hw⟩ := create_chunk cfg blocks n tot tc fid gen_id num_gens g hn hg c hc
    obtain ⟨k, hk, hlt, hge⟩ :=
      create_closed cfg blocks n tot tc fid gen_id num_gens hn hrb hw
    rw [hk] at hg
    cases hg
    simp only [row_io_generator.block_range]
    rw [List.pairwise_flatMap]
    constructor
    · intro c _
      exact List.pairwise_lt_range' _ _
    · rw [List.pairwise_map]
      refine (List.pairwise_lt_range k).imp ?_
      intro j1 j2 hj x hx1 y hx2
      simp only [large_row_io.block_range, ctor_chunk, List.mem_range'_1] at hx1 hx2
      have h1 : min cfg.rb_io_size (n - (gen_id + j1 * num_gens) * cfg.rb_io_size)
          ≤ cfg.rb_io_size := Nat.min_le_left _ _
      have h2 : (j1 + 1) * num_gens ≤ j2 * num_gens := Nat.mul_le_mul_right _ hj
      have h3 : gen_id + j1 * num_gens + 1 ≤ gen_id + j2 * num_gens := by
        rw [Nat.add_mul, Nat.one_mul] at h2; omega
      have h4 := Nat.mul_le_mul_right cfg.rb_io_size h3
      rw [Nat.add_mul _ 1, Nat.one_mul] at h4
      omega

theorem flatMap_split {α β : Type} (f : α → List β) (l : List α) (i : Nat) (a : α)
    (h : l[i]? = some a) :
    l.flatMap f = (l.take i).flatMap f ++ (f a ++ (l.drop (i + 1)).flatMap f) := by
  obtain ⟨hi, rfl⟩ := getElem_of_getElem? h
  have e : l = l.take i ++ l[i] :: l.drop (i + 1) := by
    rw [← List.drop_eq_getElem_cons hi, List.take_append_drop]
  conv_lhs => rw [e]
  rw [List.flatMap_append, List.flatMap_cons]

theorem flatMap_set_split {α β : Type} (f : α → List β) (l : List α) (i : Nat) (a : α)
    (h : i < l.length) :
    (l.set i a).flatMap f = (l.take i).flatMap f ++ (f a ++ (l.drop (i + 1)).flatMap f) := by
  rw [List.set_eq_take_append_cons_drop, if_pos h]
  simp [List.flatMap_append]

theorem passed_block_range (n : Nat) (g0 g : row_io_generator) (hinv : gen_inv n g0 g) :
    (g.ios.take g.curr_io_off).flatMap large_row_io.block_range = [] := by
  rw [List.flatMap_eq_nil_iff]
  intro c hc
  obtain ⟨i, hi⟩ := List.mem_iff_getElem?.1 hc
  obtain ⟨hil, -⟩ := getElem_of_getElem? hi
  rw [List.length_take] at hil
  rw [List.getElem?_take_of_lt (by omega)] at hi
  have := hinv.passed i c hi (by omega)
  simp [large_row_io.block_range, this]

/-- A call takes the row blocks of its request from the front of the row blocks the
generator holds. -/
theorem call_blocks_front (cfg : matrix_config) (blocks : List row_block) (n : Nat)
    (g0 g g1 : row_io_generator) (k : io_call) (r : matrix_io) (hn : blocks.length = n + 1)
    (hinc : offsets_increasing blocks) (hinv : gen_inv n g0 g)
    (hcall : g.call cfg blocks k = Except.ok (r, g1)) :
    (if r.is_valid then covered_blocks blocks r else []) ++ g1.block_range = g.block_range ∧
      (r.is_valid = true → ∃ f m, serves cfg blocks r f m ∧
        (k = io_call.next ∨ 1 ≤ cfg.rb_steal_io_size → 0 < m)) := by
  rcases call_cases cfg blocks n g0 g k hn hinv with
    ⟨_, h⟩ | ⟨hlt, c, b0, b1, hc, hd, hr, hb0, hb1, h⟩
  · rw [h] at hcall; cases hcall
    simp [matrix_io.is_valid, matrix_io.empty]
  · rw [h] at hcall; cases hcall
    have hle := taken_blocks_le cfg k c
    have hcov := covered_window blocks n hn hinc c.first_row_block (taken_blocks cfg k c)
      (by omega) b0 b1 hb0 hb1 (request_of cfg k g c b0 b1) rfl rfl
    have hv : (request_of cfg k g c b0 b1).is_valid = true := rfl
    have hpass := passed_block_range n g0 g hinv
    constructor
    · rw [hv, if_pos rfl, hcov]
      simp only [row_io_generator.block_range, gen_after]
      rw [flatMap_set_split _ _ _ _ hlt, flatMap_split _ g.ios g.curr_io_off c hc, hpass,
        ← block_range_split cfg k c]
      simp
    · intro _
      refine ⟨_, _, ⟨hcov, b0, b1, hb0, hb1, rfl, ?_, rfl⟩, ?_⟩
      · exact off_to_size_nonneg _ (by
          have := offsets_le blocks hinc _ _ b0 b1 hb0 hb1 (Nat.le_add_right _ _)
          omega)
      · intro hk
        cases k with
        | next => exact hd
        | steal =>
          rcases hk with hk | hk
          · cases hk
          · exact Nat.lt_min.2 ⟨hd, hk⟩

theorem run_calls_blocks (cfg : matrix_config) (blocks : List row_block) (n : Nat)
    (g0 : row_io_generator) (hn : blocks.length = n + 1) (hinc : offsets_increasing blocks) :
    ∀ (calls : List io_call) (g : row_io_generator), gen_inv n g0 g →
      ∃ trace rest, run_calls cfg blocks g calls = Except.ok trace ∧
        ((trace.map Prod.fst).filter matrix_io.is_valid).flatMap (covered_blocks blocks) ++ rest
          = g.block_range ∧
        ∀ r ∈ (trace.map Prod.fst).filter matrix_io.is_valid,
          ∃ f m, serves cfg blocks r f m ∧ (1 ≤ cfg.rb_steal_io_size → 0 < m) := by
  intro calls
  induction calls with
  | nil =>
    intro g _
    exact ⟨[], g.block_range, rfl, by simp, by simp⟩
  | cons k ks ih =>
    intro g hinv
    obtain ⟨r, g1, hcall⟩ := call_total cfg blocks n g0 g k hn hinv
    have hinv1 := gen_inv_call cfg blocks n g0 g g1 k r hn hinv hcall
    obtain ⟨hfront, hserve⟩ := call_blocks_front cfg blocks n g0 g g1 k r hn hinc hinv hcall
    obtain ⟨trace, rest, htr, hblocks, hall⟩ := ih g1 hinv1
    refine ⟨(r, g1) :: trace, rest, ?_, ?_, ?_⟩
    · simp [run_calls, hcall, htr]
    · rw [← hfront, ← hblocks]
      by_cases hv : r.is_valid = true
      · simp [List.filter_cons, hv]
      · simp [List.filter_cons, hv]
    · intro q hq
      simp only [List.map_cons, List.filter_cons] at hq
      by_cases hv : r.is_valid = true
      · rw [if_pos hv] at hq
        rcases List.mem_cons.1 hq with rfl | hq
        · obtain ⟨f, m, h1, h2⟩ := hserve hv
          exact ⟨f, m, h1, fun hs => h2 (Or.inr hs)⟩
        · exact hall q hq
      · rw [if_neg hv] at hq
        exact hall q hq

theorem gen_inv_sorted (cfg : matrix_config) (blocks : List row_block) (n : Nat)
    (g0 : row_io_generator) (hn : blocks.length = n + 1) (hinc : offsets_increasing blocks)
    (g g1 : row_io_generator) (k : io_call) (r : matrix_io) (hinv : gen_inv n g0 g)
    (hcall : g.call cfg blocks k = Except.ok (r, g1))
    (hs : g.block_range.Pairwise (· < ·)) : g1.block_range.Pairwise (· < ·) := by
  obtain ⟨hfront, -⟩ := call_blocks_front cfg blocks n g0 g g1 k r hn hinc hinv hcall
  rw [← hfront] at hs
  exact (List.pairwise_append.1 hs).2.1

theorem reachable_sorted (cfg : matrix_config) (blocks : List row_block) (n tot tc : Nat)
    (fid : Int) (gen_id num_gens : Nat) (g : row_io_generator) (hn : blocks.length = n + 1)
    (hinc : offsets_increasing blocks)
    (hg : reachable cfg blocks tot tc fid gen_id num_gens g) :
    g.block_range.Pairwise (· < ·) := by
  induction hg with
  | init h0 => exact create_block_range_sorted cfg blocks n tot tc fid gen_id num_gens _ hn h0
  | step hg1 hcall ih =>
    obtain ⟨g0, -, hinv⟩ := reachable_inv cfg blocks n tot tc fid gen_id num_gens _ hn hg1
    exact gen_inv_sorted cfg blocks n g0 hn hinc _ _ _ _ hinv hcall ih

theorem serves_order (cfg : matrix_config) (blocks : List row_block)
    (hinc : offsets_increasing blocks) (a b : matrix_io) (fa ma fb mb : Nat)
    (ha : serves cfg blocks a fa ma) (hb : serves cfg blocks b fb mb) (hma : 0 < ma)
    (hmb : 0 < mb)
    (hlt : ∀ x ∈ covered_blocks blocks a, ∀ y ∈ covered_blocks blocks b, x < y) :
    (fa < fb ∧ fa + ma ≤ fb) ∧
    (a.byte_offset < b.byte_offset ∧ a.byte_offset + (a.byte_size : Int) ≤ b.byte_offset) ∧
    a.top_left.row_idx ≤ b.top_left.row_idx ∧
    (1 ≤ cfg.row_block_size → a.top_left.row_idx < b.top_left.row_idx) := by
  obtain ⟨hca, a0, a1, ha0, ha1, haoff, hasz, harow⟩ := ha
  obtain ⟨hcb, b0, b1, hb0, hb1, hboff, hbsz, hbrow⟩ := hb
  have hx : fa + ma - 1 ∈ covered_blocks blocks a := by
    rw [hca, List.mem_range'_1]; omega
  have hy : fb ∈ covered_blocks blocks b := by
    rw [hcb, List.mem_range'_1]; omega
  have hord := hlt _ hx _ hy
  have h1 : fa + ma ≤ fb := by omega
  have h2 : fa < fb := by omega
  have ho1 : a0.offset < a1.offset := offsets_lt blocks hinc _ _ a0 a1 ha0 ha1 (by omega)
  have ho2 : a1.offset ≤ b0.offset := offsets_le blocks hinc _ _ a1 b0 ha1 hb0 h1
  refine ⟨⟨h2, h1⟩, ⟨by omega, by omega⟩, ?_, ?_⟩
  · rw [harow, hbrow]
    exact Int.mul_le_mul_of_nonneg_right (by exact_mod_cast h2.le) (Int.ofNat_nonneg _)
  · intro hr
    rw [harow, hbrow]
    exact Int.mul_lt_mul_of_pos_right (by exact_mod_cast h2) (by exact_mod_cast hr)

theorem striped_full_sum (n rb w gen_id k : Nat) (hw : 0 < w)
    (hlt : ∀ j, j < k → (gen_id + j * w) * rb < n) :
    ∀ m, m + 1 ≤ k →
      ((List.range m).map fun j => min rb (n - (gen_id + j * w) * rb)).sum = m * rb := by
  intro m
  induction m with
  | zero => intro _; simp
  | succ m ih =>
    intro hm
    rw [List.range_succ, List.map_append, List.sum_append, ih (by omega)]
    have h1 := hlt (m + 1) (by omega)
    have h2 : (gen_id + (m + 1) * w) * rb = (gen_id + m * w) * rb + w * rb := by ring
    have h3 : rb ≤ w * rb := Nat.le_mul_of_pos_left rb hw
    have h4 : min rb (n - (gen_id + m * w) * rb) = rb := Nat.min_eq_left (by omega)
    simp only [List.map_cons, List.map_nil, List.sum_cons, List.sum_nil, h4]
    rw [Nat.succ_mul]
    omega

theorem striped_sum (n rb w gen_id k : Nat) (hw : 0 < w)
    (hlt : ∀ j, j < k + 1 → (gen_id + j * w) * rb < n) :
    ((List.range (k + 1)).map fun j => min rb (n - (gen_id + j * w) * rb)).sum
      = k * rb + min rb (n - (gen_id + k * w) * rb) := by
  rw [List.range_succ, List.map_append, List.sum_append,
    striped_full_sum n rb w gen_id (k + 1) hw hlt k (le_refl _)]
  simp

theorem create_num_blocks (cfg : matrix_config) (blocks : List row_block) (n tot tc : Nat)
    (fid : Int) (gen_id num_gens : Nat) (hn : blocks.length = n + 1)
    (hrb : 0 < cfg.rb_io_size) (hw : 0 < num_gens) :
    ∃ g k, row_io_generator.create cfg blocks tot tc fid gen_id num_gens = some g ∧
      g.ios.length = k ∧
      (∀ j, j < k → (gen_id + j * num_gens) * cfg.rb_io_size < n) ∧
      n ≤ (gen_id + k * num_gens) * cfg.rb_io_size ∧
      g.num_blocks = g.block_range.length ∧
      (k = 0 → g.num_blocks = 0) ∧
      (0 < k → g.num_blocks
        = (k - 1) * cfg.rb_io_size
          + min cfg.rb_io_size (n - (gen_id + (k - 1) * num_gens) * cfg.rb_io_size)) := by
  obtain ⟨k, hk, hlt, hge⟩ := create_closed cfg blocks n tot tc fid gen_id num_gens hn hrb hw
  refine ⟨_, k, hk, by simp, hlt, hge, ?_, ?_, ?_⟩
  · simp only [row_io_generator.num_blocks, row_io_generator.block_range]
    generalize (List.map (fun j => ctor_chunk cfg n tot ((gen_id + j * num_gens) * cfg.rb_io_size))
      (List.range k)) = l
    induction l with
    | nil => rfl
    | cons c l ih => simp [large_row_io.block_range, ih]
  · rintro rfl
    simp [row_io_generator.num_blocks]
  · intro hk0
    obtain ⟨p, rfl⟩ : ∃ p, k = p + 1 := ⟨k - 1, by omega⟩
    simp only [row_io_generator.num_blocks, List.map_map, Function.comp, ctor_chunk,
      Nat.add_sub_cancel]
    exact striped_sum n cfg.rb_io_size num_gens gen_id p hw hlt

theorem balance_arith (n rb w a b ka kb : Nat) (hrb : 0 < rb) (hb : b < w)
    (hlta : ∀ j, j < ka → (a + j * w) * rb < n) (hgea : n ≤ (a + ka * w) * rb)
    (hltb : ∀ j, j < kb → (b + j * w) * rb < n) (hgeb : n ≤ (b + kb * w) * rb) :
    ka ≤ kb + 1 ∧
    ((if ka = 0 then 0 else (ka - 1) * rb + min rb (n - (a + (ka - 1) * w) * rb))
      ≤ (if kb = 0 then 0 else (kb - 1) * rb + min rb (n - (b + (kb - 1) * w) * rb)) + rb) := by
  have hk : ka ≤ kb + 1 := by
    by_contra hnot
    have h1 := hlta (kb + 1) (by omega)
    have h2 : (a + (kb + 1) * w) * rb < (b + kb * w) * rb := by omega
    have h3 := Nat.lt_of_mul_lt_mul_right h2
    rw [Nat.succ_mul] at h3
    omega
  refine ⟨hk, ?_⟩
  rcases Nat.eq_zero_or_pos ka with rfl | hka
  · simp
  · rw [if_neg (by omega)]
    obtain ⟨p, rfl⟩ : ∃ p, ka = p + 1 := ⟨ka - 1, by omega⟩
    simp only [Nat.add_sub_cancel]
    have hla : min rb (n - (a + p * w) * rb) ≤ rb := Nat.min_le_left _ _
    rcases Nat.eq_zero_or_pos kb with rfl | hkb
    · have : p = 0 := by omega
      subst this
      simp only [if_true, Nat.zero_mul, Nat.zero_add]
      omega
    · rw [if_neg (by omega)]
      obtain ⟨q, rfl⟩ : ∃ q, kb = q + 1 := ⟨kb - 1, by omega⟩
      simp only [Nat.add_sub_cancel]
      have hsb := hltb q (by omega)
      have hlb : 1 ≤ min rb (n - (b + q * w) * rb) := Nat.le_min.2 ⟨hrb, by omega⟩
      rcases Nat.lt_or_ge p (q + 1) with hpq | hpq
      · -- the second generator has at least as many chunks
        have : p * rb ≤ q * rb := Nat.mul_le_mul_right rb (by omega)
        omega
      · -- the first generator has one chunk more: the last chunk of the second is full
        have hp : p = q + 1 := by omega
        subst hp
        have hsa := hlta (q + 1) (by omega)
        have h1 : b + q * w + 1 ≤ a + (q + 1) * w := by rw [Nat.succ_mul]; omega
        have h2 := Nat.mul_le_mul_right rb h1
        rw [Nat.add_mul _ 1, Nat.one_mul] at h2
        have h3 : min rb (n - (b + q * w) * rb) = rb := Nat.min_eq_left (by omega)
        rw [h3, Nat.succ_mul]
        omega

theorem test_MM2_kernel_eq {α : Type} [Zero α] [Add α] [Mul α] (sz nrow ncol right_ncol : Nat)
    (row_m : mem_row_dense_matrix α) (col_m : mem_col_dense_matrix α)
    (res_row_m : mem_row_dense_matrix α) :
    test_MM2_kernel sz nrow ncol right_ncol row_m col_m res_row_m
      = mm_loops nrow ncol right_ncol (fun i j => res_row_m.get_row i + j * sz)
          (fun i k => row_m.data (row_m.get_row i + k * sz))
          (fun k j => col_m.data (col_m.get_col j + k * sz)) res_row_m.data := rfl

theorem test_MM3_kernel_eq {α : Type} [Zero α] [Add α] [Mul α] (sz nrow ncol right_ncol : Nat)
    (left_m right_m res_col_m : mem_col_dense_matrix α) :
    test_MM3_kernel sz nrow ncol right_ncol left_m right_m res_col_m
      = mm_loops nrow ncol right_ncol (fun i j => res_col_m.get_col j + i * sz)
          (fun i k => left_m.data (left_m.get_col k + i * sz))
          (fun k j => right_m.data (right_m.get_col j + k * sz)) res_col_m.data := rfl

theorem mem_write_same {α : Type} (data : Nat → α) (off : Nat) (v : α) :
    mem_write data off v off = v := by
  simp [mem_write]

theorem mem_write_other {α : Type} (data : Nat → α) (off o : Nat) (v : α) (h : o ≠ off) :
    mem_write data off v o = data o := by
  simp [mem_write, h]

theorem acc_loop {α : Type} [Add α] (e : Nat) (f : Nat → α) :
    ∀ (l : List Nat) (out : Nat → α),
      (l.foldl (fun out k => mem_write out e (out e + f k)) out) e
          = l.foldl (fun acc k => acc + f k) (out e) ∧
        ∀ o, o ≠ e → (l.foldl (fun out k => mem_write out e (out e + f k)) out) o = out o := by
  intro l
  induction l with
  | nil => intro out; exact ⟨rfl, fun _ _ => rfl⟩
  | cons k l ih =>
    intro out
    obtain ⟨h1, h2⟩ := ih (mem_write out e (out e + f k))
    simp only [List.foldl_cons]
    refine ⟨?_, ?_⟩
    · rw [h1, mem_write_same]
    · intro o ho
      rw [h2 o ho, mem_write_other _ _ _ _ ho]

theorem cell_loop {α : Type} [Zero α] [Add α] [Mul α] (ncol e : Nat) (a b : Nat → α)
    (out : Nat → α) :
    ((List.range ncol).foldl (fun out k => mem_write out e (out e + a k * b k))
        (mem_write out e 0)) e = dot_in_order ncol a b ∧
      ∀ o, o ≠ e →
        ((List.range ncol).foldl (fun out k => mem_write out e (out e + a k * b k))
          (mem_write out e 0)) o = out o := by
  obtain ⟨h1, h2⟩ := acc_loop e (fun k => a k * b k) (List.range ncol) (mem_write out e 0)
  refine ⟨?_, ?_⟩
  · rw [h1, mem_write_same]; rfl
  · intro o ho
    rw [h2 o ho, mem_write_other _ _ _ _ ho]

theorem row_loop {α : Type} [Zero α] [Add α] [Mul α] (ncol right_ncol : Nat)
    (addr : Nat → Nat) (a : Nat → α) (b : Nat → Nat → α)
    (hinj : ∀ j j1, j < right_ncol → j1 < right_ncol → addr j = addr j1 → j = j1) :
    ∀ m, m ≤ right_ncol → ∀ out : Nat → α,
      (∀ j, j < m →
        ((List.range m).foldl
          (fun out j =>
            (List.range ncol).foldl
              (fun out k => mem_write out (addr j) (out (addr j) + a k * b k j))
              (mem_write out (addr j) 0))
          out) (addr j) = dot_in_order ncol a (fun k => b k j)) ∧
      ∀ o, (∀ j, j < m → o ≠ addr j) →
        ((List.range m).foldl
          (fun out j =>
            (List.range ncol).foldl
              (fun out k => mem_write out (addr j) (out (addr j) + a k * b k j))
              (mem_write out (addr j) 0))
          out) o = out o := by
  intro m
  induction m with
  | zero =>
    intro _ out
    exact ⟨fun j hj => absurd hj (Nat.not_lt_zero j), fun _ _ => rfl⟩
  | succ m ih =>
    intro hm out
    obtain ⟨h1, h2⟩ := ih (by omega) out
    rw [List.range_succ, List.foldl_append]
    simp only [List.foldl_cons, List.foldl_nil]
    obtain ⟨c1, c2⟩ := cell_loop ncol (addr m) a (fun k => b k m)
      ((List.range m).foldl
        (fun out j =>
          (List.range ncol).foldl
            (fun out k => mem_write out (addr j) (out (addr j) + a k * b k j))
            (mem_write out (addr j) 0))
        out)
    refine ⟨?_, ?_⟩
    · intro j hj
      rcases Nat.lt_or_ge j m with hlt | hge
      · have hne : addr j ≠ addr m := fun h => by
          have := hinj j m (by omega) (by omega) h; omega
        rw [c2 _ hne]
        exact h1 j hlt
      · have : j = m := by omega
        subst this
        exact c1
    · intro o ho
      rw [c2 o (ho m (by omega))]
      exact h2 o (fun j hj => ho j (by omega))

theorem mm_loops_rows {α : Type} [Zero α] [Add α] [Mul α] (nrow ncol right_ncol : Nat)
    (addr : Nat → Nat → Nat) (a b : Nat → Nat → α)
    (hinj : ∀ i j i1 j1, i < nrow → j < right_ncol → i1 < nrow → j1 < right_ncol →
      addr i j = addr i1 j1 → i = i1 ∧ j = j1) :
    ∀ m, m ≤ nrow → ∀ out : Nat → α,
      (∀ i j, i < m → j < right_ncol →
        mm_loops m ncol right_ncol addr a b out (addr i j)
          = dot_in_order ncol (a i) (fun k => b k j)) ∧
      ∀ o, (∀ i j, i < m → j < right_ncol → o ≠ addr i j) →
        mm_loops m ncol right_ncol addr a b out o = out o := by
  intro m
  induction m with
  | zero =>
    intro _ out
    exact ⟨fun i j hi _ => absurd hi (Nat.not_lt_zero i), fun _ _ => rfl⟩
  | succ m ih =>
    intro hm out
    obtain ⟨h1, h2⟩ := ih (by omega) out
    have hstep : mm_loops (m + 1) ncol right_ncol addr a b out
        = (List.range right_ncol).foldl
            (fun out j =>
              (List.range ncol).foldl
                (fun out k => mem_write out (addr m j) (out (addr m j) + a m k * b k j))
                (mem_write out (addr m j) 0))
            (mm_loops m ncol right_ncol addr a b out) := by
      simp only [mm_loops, List.range_succ, List.foldl_append, List.foldl_cons, List.foldl_nil]
    obtain ⟨r1, r2⟩ := row_loop ncol right_ncol (addr m) (a m) b
      (fun j j1 hj hj1 h => (hinj m j m j1 (by omega) hj (by omega) hj1 h).2)
      right_ncol (le_refl _) (mm_loops m ncol right_ncol addr a b out)
    rw [hstep]
    refine ⟨?_, ?_⟩
    · intro i j hi hj
      rcases Nat.lt_or_ge i m with hlt | hge
      · rw [r2 (addr i j) (fun j1 hj1 h => by
          have := (hinj i j m j1 (by omega) hj (by omega) hj1 h).1; omega)]
        exact h1 i j hlt hj
      · have : i = m := by omega
        subst this
        exact r1 j hj
    · intro o ho
      rw [r2 o (fun j hj => ho m j (by omega) hj)]
      exact h2 o (fun i j hi hj => ho i j (by omega) hj)

theorem row_addr_inj (sz ncol : Nat) (hsz : 0 < sz) (i j i1 j1 : Nat) (hj : j < ncol)
    (hj1 : j1 < ncol) (h : i * ncol * sz + j * sz = i1 * ncol * sz + j1 * sz) :
    i = i1 ∧ j = j1 := by
  have e1 : i * ncol * sz + j * sz = (i * ncol + j) * sz := by ring
  have e2 : i1 * ncol * sz + j1 * sz = (i1 * ncol + j1) * sz := by ring
  rw [e1, e2] at h
  have h1 : i * ncol + j = i1 * ncol + j1 := Nat.eq_of_mul_eq_mul_right hsz h
  have hi : i = i1 := by
    rcases Nat.lt_trichotomy i i1 with hlt | heq | hgt
    · have : (i + 1) * ncol ≤ i1 * ncol := Nat.mul_le_mul_right ncol hlt
      rw [Nat.succ_mul] at this
      omega
    · exact heq
    · have : (i1 + 1) * ncol ≤ i * ncol := Nat.mul_le_mul_right ncol hgt
      rw [Nat.succ_mul] at this
      omega
  subst hi
  exact ⟨rfl, by omega⟩

theorem dot_in_order_congr {α : Type} [Zero α] [Add α] [Mul α] (ncol : Nat)
    (a b a1 b1 : Nat → α) (ha : ∀ k, k < ncol → a k = a1 k) (hb : ∀ k, k < ncol → b k = b1 k) :
    dot_in_order ncol a b = dot_in_order ncol a1 b1 := by
  unfold dot_in_order
  induction ncol with
  | zero => rfl
  | succ m ih =>
    rw [List.range_succ, List.foldl_append, List.foldl_append]
    simp only [List.foldl_cons, List.foldl_nil]
    rw [ih (fun k hk => ha k (by omega)) (fun k hk => hb k (by omega)),
      ha m (by omega), hb m (by omega)]

theorem dot_in_order_eq_sum {α : Type} [Semiring α] (ncol : Nat) (a b : Nat → α) :
    dot_in_order ncol a b = ∑ k in Finset.range ncol, a k * b k := by
  unfold dot_in_order
  induction ncol with
  | zero => simp
  | succ m ih =>
    rw [List.range_succ, List.foldl_append, Finset.sum_range_succ, ← ih]
    simp

theorem col_addr_inj (sz nrow : Nat) (hsz : 0 < sz) (i j i1 j1 : Nat) (hi : i < nrow)
    (hi1 : i1 < nrow) (h : j * nrow * sz + i * sz = j1 * nrow * sz + i1 * sz) :
    i = i1 ∧ j = j1 := by
  have := row_addr_inj sz nrow hsz j i j1 i1 hi hi1 h
  exact ⟨this.2, this.1⟩

theorem test_MM2_get {α : Type} [Zero α] [Add α] [Mul α] (sz nrow ncol right_ncol : Nat)
    (m1_data m2_data res_data : Nat → α) (hsz : 1 ≤ sz) (i j : Nat) (hi : i < nrow)
    (hj : j < right_ncol) :
    (test_MM2 sz nrow ncol right_ncol m1_data m2_data res_data).get i j
      = dot_in_order ncol
          (fun k => (type_mem_dense_matrix.create sz nrow ncol matrix_layout_t.L_ROW
            m1_data).get i k)
          (fun k => (type_mem_dense_matrix.create sz ncol right_ncol matrix_layout_t.L_COL
            m2_data).get k j) := by
  simp only [test_MM2, type_mem_dense_matrix.get, mem_dense_matrix.data, mem_dense_matrix.get,
    mem_row_dense_matrix.get, type_mem_dense_matrix.create, mem_col_dense_matrix.get,
    test_MM2_kernel_eq]
  exact (mm_loops_rows nrow ncol right_ncol _ _ _
    (fun i j i1 j1 _ hj _ hj1 h =>
      row_addr_inj sz right_ncol hsz i j i1 j1 hj hj1 h)
    nrow (le_refl _) res_data).1 i j hi hj

theorem test_MM3_get {α : Type} [Zero α] [Add α] [Mul α] (sz nrow ncol right_ncol : Nat)
    (m1_data m2_data res_data : Nat → α) (hsz : 1 ≤ sz) (i j : Nat) (hi : i < nrow)
    (hj : j < right_ncol) :
    (test_MM3 sz nrow ncol right_ncol m1_data m2_data res_data).get i j
      = dot_in_order ncol
          (fun k => (type_mem_dense_matrix.create sz nrow ncol matrix_layout_t.L_COL
            m1_data).get i k)
          (fun k => (type_mem_dense_matrix.create sz ncol right_ncol matrix_layout_t.L_COL
            m2_data).get k j) := by
  simp only [test_MM3, type_mem_dense_matrix.get, mem_dense_matrix.data, mem_dense_matrix.get,
    type_mem_dense_matrix.create, mem_col_dense_matrix.get, test_MM3_kernel_eq]
  exact (mm_loops_rows nrow ncol right_ncol _ _ _
    (fun i j i1 j1 hi _ hi1 _ h =>
      col_addr_inj sz nrow hsz i j i1 j1 hi hi1 h)
    nrow (le_refl _) res_data).1 i j hi hj

theorem get_in_buffer (sz nrow ncol r c : Nat) (hr : r < nrow) (hc : c < ncol) :
    r * ncol * sz + c * sz + sz ≤ nrow * ncol * sz := by
  have e : r * ncol * sz + c * sz + sz = (r * ncol + c + 1) * sz := by ring
  rw [e]
  apply Nat.mul_le_mul_right
  have h1 : (r + 1) * ncol ≤ nrow * ncol := Nat.mul_le_mul_right ncol hr
  rw [Nat.succ_mul] at h1
  omega

theorem set_get_value {α : Type} (t : type_mem_dense_matrix α) (r c r1 c1 : Nat) (v : α) :
    (t.set r c v).get r1 c1 = if t.m.get r1 c1 = t.m.get r c then v else t.get r1 c1 := by
  obtain ⟨m⟩ := t
  cases m <;> rfl

theorem left_ops_supported (matrix right_mat : dense_matrix)
    (h1 : matrix.entry_size = 4 ∨ matrix.entry_size = 8)
    (h2 : right_mat.entry_size = 4 ∨ right_mat.entry_size = 8) :
    ∃ lops, get_inner_prod_left_ops matrix right_mat = Except.ok lops ∧
      get_inner_prod_right_ops lops.get_multiply = Except.ok R_basic_ops_DD := by
  obtain ⟨n1, c1, e1⟩ := matrix
  obtain ⟨n2, c2, e2⟩ := right_mat
  simp only at h1 h2
  rcases h1 with rfl | rfl <;> rcases h2 with rfl | rfl
  · exact ⟨R_basic_ops_IID, rfl, rfl⟩
  · exact ⟨R_basic_ops_ID, rfl, rfl⟩
  · exact ⟨R_basic_ops_DI, rfl, rfl⟩
  · exact ⟨R_basic_ops_DD, rfl, rfl⟩

theorem left_ops_unsupported (matrix right_mat : dense_matrix)
    (h : ¬ ((matrix.entry_size = 4 ∨ matrix.entry_size = 8) ∧
      (right_mat.entry_size = 4 ∨ right_mat.entry_size = 8))) :
    get_inner_prod_left_ops matrix right_mat = Except.error process_exit.aborted := by
  simp only [get_inner_prod_left_ops, dense_matrix.get_entry_size, prim_type.get_size]
  split_ifs with a b c d
  · exact absurd ⟨Or.inl a.1, Or.inl a.2⟩ h
  · exact absurd ⟨Or.inr b.1, Or.inl b.2⟩ h
  · exact absurd ⟨Or.inl c.1, Or.inr c.2⟩ h
  · exact absurd ⟨Or.inr d.1, Or.inr d.2⟩ h
  · rfl

theorem multiply_dense_run
    (inner_prod : dense_matrix → dense_matrix → bulk_operate → bulk_operate →
      Option dense_matrix)
    (is_vec : Bool) (matrix right_mat : dense_matrix) (lops rops : basic_ops)
    (hl : get_inner_prod_left_ops matrix right_mat = Except.ok lops)
    (hr : get_inner_prod_right_ops lops.get_multiply = Except.ok rops) :
    R_FM_multiply_dense inner_prod is_vec matrix right_mat
      = match inner_prod matrix right_mat lops.get_multiply rops.get_add with
        | some prod => if is_vec then Except.ok (SEXP.FMR_vector prod)
                       else Except.ok (SEXP.FMR_matrix prod)
        | none => Except.ok SEXP.R_NilValue := by
  simp only [R_FM_multiply_dense, hl, hr]

theorem last_state_cons (g : row_io_generator) (p : matrix_io × row_io_generator)
    (t : List (matrix_io × row_io_generator)) :
    last_state g (p :: t) = last_state p.2 t := by
  cases t with
  | nil => simp [last_state]
  | cons q t =>
    simp only [last_state, List.getLast?_cons_cons]
    cases h : (q :: t).getLast? with
    | none => simp at h
    | some x => rfl

theorem sum_map_set (f : large_row_io → Nat) :
    ∀ (l : List large_row_io) (i : Nat) (c d : large_row_io), l[i]? = some c →
      ((l.set i d).map f).sum + f c = (l.map f).sum + f d := by
  intro l
  induction l with
  | nil => intro i c d h; simp at h
  | cons a l ih =>
    intro i c d h
    cases i with
    | zero =>
      simp only [List.getElem?_cons_zero, Option.some.injEq] at h
      subst h
      simp only [List.set_cons_zero, List.map_cons, List.sum_cons]
      omega
    | succ i =>
      simp only [List.getElem?_cons_succ] at h
      have := ih i c d h
      simp only [List.set_cons_succ, List.map_cons, List.sum_cons]
      omega

/-- A call made while `has_next_io()` is true serves at least one row block when
`rb_steal_io_size ≥ 1`. -/
theorem call_progress (cfg : matrix_config) (blocks : List row_block) (n : Nat)
    (g0 g : row_io_generator) (k : io_call) (hn : blocks.length = n + 1)
    (hsteal : 1 ≤ cfg.rb_steal_io_size) (hinv : gen_inv n g0 g)
    (hnext : g.has_next_io = true) :
    ∃ r g1, g.call cfg blocks k = Except.ok (r, g1) ∧ r.is_valid = true ∧
      g1.num_blocks + 1 ≤ g.num_blocks := by
  rcases call_cases cfg blocks n g0 g k hn hinv with
    ⟨h, _⟩ | ⟨_, c, b0, b1, hc, hd, _, _, _, h⟩
  · exact absurd ((has_next_io_iff g).1 hnext) h
  · refine ⟨_, _, h, rfl, ?_⟩
    have hs := sum_map_set large_row_io.num_row_blocks g.ios g.curr_io_off c
      (chunk_after cfg k c) hc
    have ht : 0 < taken_blocks cfg k c := by
      cases k with
      | next => simpa [taken_blocks] using hd
      | steal => simp only [taken_blocks]; exact Nat.lt_min.2 ⟨hd, hsteal⟩
    have hle := taken_blocks_le cfg k c
    simp only [row_io_generator.num_blocks, gen_after]
    have hnum : (chunk_after cfg k c).num_row_blocks
        = c.num_row_blocks - taken_blocks cfg k c := rfl
    rw [hnum] at hs
    omega

theorem run_calls_progress (cfg : matrix_config) (blocks : List row_block) (n : Nat)
    (g0 : row_io_generator) (hn : blocks.length = n + 1)
    (hsteal : 1 ≤ cfg.rb_steal_io_size) :
    ∀ (calls : List io_call) (g : row_io_generator), gen_inv n g0 g →
      ∃ trace, run_calls cfg blocks g calls = Except.ok trace ∧
        live_calls cfg blocks g calls ≤ g.num_blocks ∧
        (g.has_next_io = false ∨ g.num_blocks ≤ calls.length →
          (last_state g trace).has_next_io = false) := by
  intro calls
  induction calls with
  | nil =>
    intro g hinv
    refine ⟨[], rfl, Nat.zero_le _, ?_⟩
    intro h
    simp only [last_state, List.getLast?_nil]
    rcases h with h | h
    · exact h
    · by_contra hne
      have hnext : g.has_next_io = true := by simpa using hne
      obtain ⟨_, _, _, _, hlt⟩ :=
        call_progress cfg blocks n g0 g io_call.next hn hsteal hinv hnext
      simp at h
      omega
  | cons k ks ih =>
    intro g hinv
    by_cases hnext : g.has_next_io = true
    · obtain ⟨r, g1, hcall, _, hlt⟩ := call_progress cfg blocks n g0 g k hn hsteal hinv hnext
      have hinv1 := gen_inv_call cfg blocks n g0 g g1 k r hn hinv hcall
      obtain ⟨trace, hrun, hlive, hfin⟩ := ih g1 hinv1
      refine ⟨(r, g1) :: trace, ?_, ?_, ?_⟩
      · simp [run_calls, hcall, hrun]
      · simp only [live_calls, hcall, hnext, if_true]
        omega
      · intro h
        rw [last_state_cons]
        apply hfin
        rcases h with h | h
        · rw [hnext] at h; cases h
        · right
          simp only [List.length_cons] at h
          omega
    · have hf : g.has_next_io = false := by simpa using hnext
      have hcur : ¬ g.curr_io_off < g.ios.length := fun hlt =>
        hnext ((has_next_io_iff g).2 hlt)
      have hcall := call_done cfg blocks g k hcur
      obtain ⟨trace, hrun, hlive, hfin⟩ := ih g hinv
      refine ⟨(matrix_io.empty, g) :: trace, ?_, ?_, ?_⟩
      · simp [run_calls, hcall, hrun]
      · simp only [live_calls, hcall, hf]
        simpa using hlive
      · intro _
        rw [last_state_cons]
        exact hfin (Or.inl hf)

/-- A chunk never holds more rows than its row blocks can hold. -/
theorem reachable_rows_le (cfg : matrix_config) (blocks : List row_block) (n tot tc : Nat)
    (fid : Int) (gen_id num_gens : Nat) (g : row_io_generator) (hn : blocks.length = n + 1)
    (hg : reachable cfg blocks tot tc fid gen_id num_gens g) :
    ∀ c ∈ g.ios, c.tot_num_rows ≤ c.num_row_blocks * cfg.row_block_size := by
  induction hg with
  | init h0 =>
    intro c hc
    obtain ⟨_, h2, _, _⟩ := create_chunk cfg blocks n tot tc fid gen_id num_gens _ hn h0 c hc
    rw [h2]
    simp only [ctor_chunk]
    exact Nat.min_le_left _ _
  | step hg1 hcall ih =>
    rename_i g g1 k r
    obtain ⟨g0, -, hinv⟩ := reachable_inv cfg blocks n tot tc fid gen_id num_gens g hn hg1
    rcases call_cases cfg blocks n g0 g k hn hinv with
      ⟨_, h⟩ | ⟨_, c, b0, b1, hc, hd, hr, _, _, h⟩
    · rw [h] at hcall; cases hcall; exact ih
    · rw [h] at hcall; cases hcall
      intro d hdm
      simp only [gen_after] at hdm
      rcases mem_set_cases _ _ _ _ hdm with rfl | hdm
      · have hle := ih c (List.getElem?_mem hc)
        cases k with
        | next => simp [chunk_after, taken_rows]
        | steal =>
          simp only [chunk_after, taken_blocks, taken_rows]
          have hs : min c.num_row_blocks cfg.rb_steal_io_size ≤ c.num_row_blocks :=
            Nat.min_le_left _ _
          generalize min c.num_row_blocks cfg.rb_steal_io_size = s at hs
          rw [Nat.sub_mul]
          rcases Nat.le_total c.tot_num_rows (s * cfg.row_block_size) with h1 | h1
          · rw [Nat.min_eq_left h1]; omega
          · rw [Nat.min_eq_right h1]; omega
      · exact ih d hdm

/-- Stealing a chunk piece by piece: the pieces are consecutive, start where the chunk
starts, and add up to the chunk. -/
theorem steal_all_spec (cfg : matrix_config) (blocks : List row_block) (n : Nat)
    (cols : Nat) (file : Int) (hn : blocks.length = n + 1) (hinc : offsets_increasing blocks)
    (hsteal : 1 ≤ cfg.rb_steal_io_size) :
    ∀ (fuel : Nat) (c : large_row_io), c.num_row_blocks ≤ fuel →
      c.first_row_block + c.num_row_blocks ≤ n →
      c.tot_num_rows ≤ c.num_row_blocks * cfg.row_block_size →
      ∃ pieces b0 b1, blocks[c.first_row_block]? = some b0 ∧
        blocks[c.first_row_block + c.num_row_blocks]? = some b1 ∧
        c.steal_all cfg blocks cols file fuel
          = Except.ok (pieces,
              { first_row_block := c.first_row_block + c.num_row_blocks, num_row_blocks := 0,
                tot_num_rows := 0 }) ∧
        (0 < c.num_row_blocks → pieces ≠ []) ∧
        (∀ p, pieces.head? = some p → p.byte_offset = b0.offset ∧
          p.top_left = ⟨(c.first_row_block : Int) * (cfg.row_block_size : Int), 0⟩) ∧
        List.Chain' (fun a b => b.byte_offset = a.byte_offset + (a.byte_size : Int)) pieces ∧
        (((pieces.map matrix_io.byte_size).sum : Nat) : Int) = b1.offset - b0.offset ∧
        (pieces.map matrix_io.num_rows).sum = c.tot_num_rows ∧
        ∀ p ∈ pieces, p.is_valid = true ∧ p.num_cols = cols ∧ p.file_id = file := by
  intro fuel
  induction fuel with
  | zero =>
    intro c hf hr hrows
    have hz : c.num_row_blocks = 0 := by omega
    have ht : c.tot_num_rows = 0 := by rw [hz] at hrows; simpa using hrows
    have hlt : c.first_row_block < blocks.length := by omega
    refine ⟨[], blocks[c.first_row_block], blocks[c.first_row_block], ?_, ?_, ?_, ?_, ?_, ?_,
      ?_, ?_, ?_⟩
    · exact List.getElem?_eq_getElem hlt
    · rw [hz]; exact List.getElem?_eq_getElem hlt
    · obtain ⟨f, m, t⟩ := c
      simp only at hz ht
      subst hz; subst ht
      rfl
    · intro h; omega
    · intro p hp; simp at hp
    · exact List.chain'_nil
    · simp
    · simp [ht]
    · intro p hp; simp at hp
  | succ fuel ih =>
    intro c hf hr hrows
    by_cases hd : 0 < c.num_row_blocks
    · have hlt : c.first_row_block + c.num_row_blocks < blocks.length := by omega
      obtain ⟨b0, bm, h0, hm, hsub⟩ := get_sub_io_ok cfg blocks c cols file hlt
      have hs1 : min c.num_row_blocks cfg.rb_steal_io_size ≤ c.num_row_blocks :=
        Nat.min_le_left _ _
      have hs2 : 0 < min c.num_row_blocks cfg.rb_steal_io_size := Nat.lt_min.2 ⟨hd, hsteal⟩
      generalize min c.num_row_blocks cfg.rb_steal_io_size = s at hm hsub hs1 hs2
      have hrows1 : c.tot_num_rows - min c.tot_num_rows (s * cfg.row_block_size)
          ≤ (c.num_row_blocks - s) * cfg.row_block_size := by
        rw [Nat.sub_mul]
        rcases Nat.le_total c.tot_num_rows (s * cfg.row_block_size) with h1 | h1
        · rw [Nat.min_eq_left h1]; omega
        · rw [Nat.min_eq_right h1]; omega
      obtain ⟨rest, bm1, b1, hm1, h1, hrun, _, hhead, hchain, hsize, hnum, hall⟩ :=
        ih { first_row_block := c.first_row_block + s,
             num_row_blocks := c.num_row_blocks - s,
             tot_num_rows := c.tot_num_rows - min c.tot_num_rows (s * cfg.row_block_size) }
          (by simp only; omega) (by simp only; omega) hrows1
      simp only at hm1 h1 hrun hhead hnum
      rw [hm] at hm1; cases hm1
      have hidx : c.first_row_block + s + (c.num_row_blocks - s)
          = c.first_row_block + c.num_row_blocks := by omega
      rw [hidx] at h1 hrun
      have hle : b0.offset ≤ bm.offset :=
        offsets_le blocks hinc _ _ b0 bm h0 hm (Nat.le_add_right _ _)
      have hsz := off_to_size_nonneg (bm.offset - b0.offset) (by omega)
      have hdata : c.has_data = true := by simp [large_row_io.has_data, hd]
      refine ⟨matrix_io.mk_io ⟨(c.first_row_block : Int) * (cfg.row_block_size : Int), 0⟩
          (min c.tot_num_rows (s * cfg.row_block_size)) cols file b0.offset
          (off_to_size (bm.offset - b0.offset)) :: rest, b0, b1, h0, h1, ?_, ?_, ?_, ?_, ?_, ?_,
        ?_⟩
      · simp only [large_row_io.steal_all, hdata, if_true, hsub, hrun]
      · intro _; simp
      · intro p hp
        simp only [List.head?_cons, Option.some.injEq] at hp
        subst hp
        exact ⟨rfl, rfl⟩
      · rw [List.chain'_cons']
        refine ⟨?_, hchain⟩
        intro q hq
        obtain ⟨hq1, _⟩ := hhead q hq
        rw [hq1]
        simp only [matrix_io.mk_io]
        rw [hsz]; omega
      · simp only [List.map_cons, List.sum_cons, matrix_io.mk_io]
        rw [Nat.cast_add, hsz, hsize]; omega
      · simp only [List.map_cons, List.sum_cons, matrix_io.mk_io, hnum]
        have := Nat.min_le_left c.tot_num_rows (s * cfg.row_block_size)
        omega
      · intro p hp
        rcases List.mem_cons.1 hp with rfl | hp
        · exact ⟨rfl, rfl, rfl⟩
        · exact hall p hp
    · have hz : c.num_row_blocks = 0 := by omega
      have ht : c.tot_num_rows = 0 := by rw [hz] at hrows; simpa using hrows
      have hlt : c.first_row_block < blocks.length := by omega
      have hdata : c.has_data = false := by simp [large_row_io.has_data, hz]
      refine ⟨[], blocks[c.first_row_block], blocks[c.first_row_block], ?_, ?_, ?_, ?_, ?_,
        ?_, ?_, ?_, ?_⟩
      · exact List.getElem?_eq_getElem hlt
      · rw [hz]; exact List.getElem?_eq_getElem hlt
      · simp only [large_row_io.steal_all, hdata]
        obtain ⟨f, m, t⟩ := c
        simp only at hz ht
        subst hz; subst ht
        rfl
      · intro h; omega
      · intro p hp; simp at hp
      · exact List.chain'_nil
      · simp
      · simp [ht]
      · intro p hp; simp at hp

theorem calls_on_cons (i j : Nat) (k : io_call) (cs : List (Nat × io_call)) :
    calls_on j ((i, k) :: cs) = (if i = j then 1 else 0) + calls_on j cs := by
  simp only [calls_on, List.filter_cons]
  by_cases h : i = j
  · simp [h]; omega
  · simp [h]

/-- Calls enough on every generator exhaust them all: a generator is exhausted at the end
of an interleaving that calls it at least as often as it holds row blocks, whatever the
mix of `get_next_io` and `steal_io`. -/
theorem run_workers_exhaust (cfg : matrix_config) (blocks : List row_block) (n : Nat)
    (hn : blocks.length = n + 1) (hsteal : 1 ≤ cfg.rb_steal_io_size) :
    ∀ (calls : List (Nat × io_call)) (gens : List row_io_generator),
      (∀ g ∈ gens, ∃ g0, gen_inv n g0 g) →
      (∀ c ∈ calls, c.1 < gens.length) →
      (∀ i g, gens[i]? = some g → g.has_next_io = false ∨ g.num_blocks ≤ calls_on i calls) →
      ∃ reqs gens1, run_workers cfg blocks gens calls = Except.ok (reqs, gens1) ∧
        ∀ g ∈ gens1, g.has_next_io = false := by
  intro calls
  induction calls with
  | nil =>
    intro gens hinv _ hcnt
    refine ⟨[], gens, rfl, ?_⟩
    intro g hg
    obtain ⟨i, hi⟩ := List.mem_iff_getElem?.1 hg
    rcases hcnt i g hi with h | h
    · exact h
    · by_contra hne
      have hnext : g.has_next_io = true := by simpa using hne
      obtain ⟨g0, hg0⟩ := hinv g hg
      obtain ⟨_, _, _, _, hpos⟩ :=
        call_progress cfg blocks n g0 g io_call.next hn hsteal hg0 hnext
      simp only [calls_on, List.filter_nil, List.length_nil] at h
      omega
  | cons ck cs ih =>
    intro gens hinv hidx hcnt
    obtain ⟨i, k⟩ := ck
    have hi : i < gens.length := hidx (i, k) (List.mem_cons_self _ _)
    have hgi : gens[i]? = some gens[i] := List.getElem?_eq_getElem hi
    obtain ⟨g0, hg⟩ := hinv _ (List.getElem?_mem hgi)
    obtain ⟨r, g1, hcall⟩ := call_total cfg blocks n g0 gens[i] k hn hg
    have hg1 := gen_inv_call cfg blocks n g0 gens[i] g1 k r hn hg hcall
    have hinv1 : ∀ g ∈ gens.set i g1, ∃ g0, gen_inv n g0 g := by
      intro g hgm
      rcases mem_set_cases _ _ _ _ hgm with rfl | hgm
      · exact ⟨g0, hg1⟩
      · exact hinv g hgm
    have hidx1 : ∀ c ∈ cs, c.1 < (gens.set i g1).length := by
      intro c hc
      rw [List.length_set]
      exact hidx c (List.mem_cons_of_mem _ hc)
    have hcnt1 : ∀ j g2, (gens.set i g1)[j]? = some g2 →
        g2.has_next_io = false ∨ g2.num_blocks ≤ calls_on j cs := by
      intro j g2 hj
      rw [List.getElem?_set] at hj
      by_cases e : i = j
      · subst e
        simp only [if_true, hi] at hj
        cases hj
        by_cases hnext : gens[i].has_next_io = true
        · obtain ⟨r2, g3, hcall2, _, hlt⟩ :=
            call_progress cfg blocks n g0 gens[i] k hn hsteal hg hnext
          rw [hcall] at hcall2
          cases hcall2
          rcases hcnt i _ hgi with h | h
          · rw [hnext] at h; cases h
          · right
            rw [calls_on_cons] at h
            simp only [if_true] at h
            omega
        · have hcur : ¬ gens[i].curr_io_off < gens[i].ios.length := fun hlt =>
            hnext ((has_next_io_iff _).2 hlt)
          have hdone := call_done cfg blocks gens[i] k hcur
          rw [hcall] at hdone
          cases hdone
          left
          simpa using hnext
      · simp only [e, if_false] at hj
        rcases hcnt j g2 hj with h | h
        · exact Or.inl h
        · right
          rw [calls_on_cons] at h
          simpa [e] using h
    obtain ⟨rs, gens1, hrun, hdone⟩ := ih (gens.set i g1) hinv1 hidx1 hcnt1
    exact ⟨r :: rs, gens1, by simp [run_workers, hgi, hcall, hrun], hdone⟩

/-- A loop that stores `val i` at `addr i`, the addresses being distinct. -/
theorem fill_loop {α : Type} (addr : Nat → Nat) (val : Nat → α) :
    ∀ n, (∀ i j, i < n → j < n → addr i = addr j → i = j) → ∀ data : Nat → α,
      (∀ i, i < n →
        ((List.range n).foldl (fun d i => mem_write d (addr i) (val i)) data) (addr i)
          = val i) ∧
      ∀ o, (∀ i, i < n → o ≠ addr i) →
        ((List.range n).foldl (fun d i => mem_write d (addr i) (val i)) data) o = data o := by
  intro n
  induction n with
  | zero =>
    intro _ data
    exact ⟨fun i hi => absurd hi (Nat.not_lt_zero i), fun _ _ => rfl⟩
  | succ n ih =>
    intro hinj data
    obtain ⟨h1, h2⟩ := ih (fun i j hi hj => hinj i j (by omega) (by omega)) data
    rw [List.range_succ, List.foldl_append]
    simp only [List.foldl_cons, List.foldl_nil]
    refine ⟨?_, ?_⟩
    · intro i hi
      by_cases e : i = n
      · rw [e, mem_write_same]
      · have hne : addr i ≠ addr n := fun h => e (hinj i n hi (by omega) h)
        rw [mem_write_other _ _ _ _ hne]
        exact h1 i (by omega)
    · intro o ho
      rw [mem_write_other _ _ _ _ (ho n (by omega))]
      exact h2 o (fun i hi => ho i (by omega))

/-- Two nested loops that store `val a i` at `addr a i`, the addresses being distinct. -/
theorem fill_loops {α : Type} (len : Nat) (addr : Nat → Nat → Nat) (val : Nat → Nat → α) :
    ∀ n, (∀ a i b j, a < n → i < len → b < n → j < len → addr a i = addr b j →
        a = b ∧ i = j) →
      ∀ data : Nat → α,
      (∀ a i, a < n → i < len →
        ((List.range n).foldl
          (fun d a => (List.range len).foldl (fun d i => mem_write d (addr a i) (val a i)) d)
          data) (addr a i) = val a i) ∧
      ∀ o, (∀ a i, a < n → i < len → o ≠ addr a i) →
        ((List.range n).foldl
          (fun d a => (List.range len).foldl (fun d i => mem_write d (addr a i) (val a i)) d)
          data) o = data o := by
  intro n
  induction n with
  | zero =>
    intro _ data
    exact ⟨fun a i ha _ => absurd ha (Nat.not_lt_zero a), fun _ _ => rfl⟩
  | succ n ih =>
    intro hinj data
    obtain ⟨h1, h2⟩ :=
      ih (fun a i b j ha hi hb hj => hinj a i b j (by omega) hi (by omega) hj) data
    rw [List.range_succ, List.foldl_append]
    simp only [List.foldl_cons, List.foldl_nil]
    obtain ⟨g1, g2⟩ := fill_loop (addr n) (val n) len
      (fun i j hi hj h => (hinj n i n j (by omega) hi (by omega) hj h).2)
      ((List.range n).foldl
        (fun d a => (List.range len).foldl (fun d i => mem_write d (addr a i) (val a i)) d)
        data)
    refine ⟨?_, ?_⟩
    · intro a i ha hi
      by_cases e : a = n
      · rw [e]; exact g1 i hi
      · rw [g2 (addr a i) (fun j hj h => e (hinj a i n j ha hi (by omega) hj h).1)]
        exact h1 a i (by omega) hi
    · intro o ho
      rw [g2 o (fun j hj => ho n j (by omega) hj)]
      exact h2 o (fun a i ha hi => ho a i (by omega) hi)

theorem set_same {α : Type} : ∀ (l : List α) (i : Nat) (a : α), l[i]? = some a → l.set i a = l
  | [], _, _, h => by simp at h
  | x :: l, 0, a, h => by
    simp only [List.getElem?_cons_zero, Option.some.injEq] at h
    rw [List.set_cons_zero, h]
  | x :: l, i + 1, a, h => by
    simp only [List.getElem?_cons_succ] at h
    rw [List.set_cons_succ, set_same l i a h]

/-- The scan of the peers: it completes and makes only `steal_io` calls on the peers; it
returns a valid request exactly when some peer has work left, and when it returns none
it has changed nothing. -/
theorem steal_scan_spec (cfg : matrix_config) (blocks : List row_block) (n : Nat)
    (hn : blocks.length = n + 1) :
    ∀ (peers : List Nat) (gens : List row_io_generator),
      (∀ g ∈ gens, ∃ g0, gen_inv n g0 g) →
      (∀ p ∈ peers, p < gens.length) →
      ∃ io gens1 log, steal_scan cfg blocks peers gens = Except.ok (io, gens1, log) ∧
        (∀ e ∈ log, e.2.1 = io_call.steal ∧ e.1 ∈ peers) ∧
        (io.is_valid = false → gens1 = gens ∧ io = matrix_io.empty ∧
          ∀ p ∈ peers, ∀ g, gens[p]? = some g → g.has_next_io = false) ∧
        ((∀ p ∈ peers, ∀ g, gens[p]? = some g → g.has_next_io = false) →
          io.is_valid = false) := by
  intro peers
  induction peers with
  | nil =>
    intro gens _ _
    exact ⟨matrix_io.empty, gens, [], rfl, by simp, fun _ => ⟨rfl, rfl, by simp⟩,
      fun _ => rfl⟩
  | cons p ps ih =>
    intro gens hinv hidx
    have hp : p < gens.length := hidx p (List.mem_cons_self _ _)
    have hgp : gens[p]? = some gens[p] := List.getElem?_eq_getElem hp
    obtain ⟨g0, hg⟩ := hinv _ (List.getElem?_mem hgp)
    obtain ⟨r, g1, hcall, -, hval, hsame⟩ :=
      call_exhaustion cfg blocks n g0 gens[p] io_call.steal hn hg
    simp only [row_io_generator.call] at hcall
    by_cases hv : r.is_valid = true
    · refine ⟨r, gens.set p g1, [(p, io_call.steal, r)], ?_, ?_, ?_, ?_⟩
      · simp [steal_scan, hgp, hcall, hv]
      · intro e he
        simp only [List.mem_singleton] at he
        subst he
        exact ⟨rfl, List.mem_cons_self _ _⟩
      · intro h; rw [hv] at h; cases h
      · intro hall
        have hdone := hall p (List.mem_cons_self _ _) _ hgp
        rw [hval.2 hdone] at hv
        cases hv
    · have hf : r.is_valid = false := by simpa using hv
      have hdone := hval.1 hf
      have hg1 : g1 = gens[p] := hsame hdone
      have hset : gens.set p g1 = gens := by rw [hg1]; exact set_same gens p _ hgp
      obtain ⟨io, gens1, log, hrun, hlog, hnone, hex⟩ :=
        ih gens hinv (fun q hq => hidx q (List.mem_cons_of_mem _ hq))
      refine ⟨io, gens1, (p, io_call.steal, r) :: log, ?_, ?_, ?_, ?_⟩
      · simp [steal_scan, hgp, hcall, hf, hset, hrun]
      · intro e he
        rcases List.mem_cons.1 he with rfl | he
        · exact ⟨rfl, List.mem_cons_self _ _⟩
        · exact ⟨(hlog e he).1, List.mem_cons_of_mem _ (hlog e he).2⟩
      · intro hio
        obtain ⟨h1, h2, h3⟩ := hnone hio
        refine ⟨h1, h2, ?_⟩
        intro q hq g hgq
        rcases List.mem_cons.1 hq with rfl | hq
        · rw [hgp] at hgq; cases hgq; exact hdone
        · exact h3 q hq g hgq
      · intro hall
        exact hex (fun q hq g hgq => hall q (List.mem_cons_of_mem _ hq) g hgq)

/-- The scan goes over every generator but the worker's own. -/
theorem mem_scan_order (w : matrix_worker_thread) (num_gens p : Nat) :
    p ∈ w.scan_order num_gens ↔ p < num_gens ∧ p ≠ w.worker_id := by
  simp only [matrix_worker_thread.scan_order, List.mem_filter, List.mem_map, List.mem_range,
    decide_eq_true_eq]
  constructor
  · rintro ⟨⟨j, hj, rfl⟩, hne⟩
    exact ⟨Nat.mod_lt _ (by omega), hne⟩
  · rintro ⟨hp, hne⟩
    have hpos : 0 < num_gens := by omega
    have ht := Nat.mod_lt w.steal_io_id hpos
    refine ⟨⟨(p + num_gens - w.steal_io_id % num_gens) % num_gens, Nat.mod_lt _ hpos, ?_⟩,
      hne⟩
    rw [Nat.add_mod, Nat.mod_mod]
    generalize w.steal_io_id % num_gens = t at ht
    rcases Nat.lt_or_ge p t with h | h
    · rw [Nat.mod_eq_of_lt (by omega : p + num_gens - t < num_gens)]
      have e : t + (p + num_gens - t) = p + num_gens := by omega
      rw [e, Nat.add_mod_right, Nat.mod_eq_of_lt hp]
    · have e1 : p + num_gens - t = (p - t) + num_gens := by omega
      rw [e1, Nat.add_mod_right, Nat.mod_eq_of_lt (by omega : p - t < num_gens)]
      have e2 : t + (p - t) = p := by omega
      rw [e2, Nat.mod_eq_of_lt hp]

theorem example_gen0_done_reachable :
    reachable example_cfg example_blocks 26 3 0 0 2 example_gen0_done :=
  reachable.step (k := io_call.next) (r := ⟨⟨16, 0⟩, 8, 3, 0, 47, 14, true⟩)
    (reachable.step (k := io_call.next) (r := ⟨⟨0, 0⟩, 8, 3, 0, 0, 25, true⟩)
      (g := example_gen0) (reachable.init (by decide)) rfl)
    rfl

theorem example_gen_done_reachable :
    reachable example_cfg example_blocks 26 3 0 1 2 example_gen_done :=
  reachable.step (k := io_call.next) (r := ⟨⟨24, 0⟩, 2, 3, 0, 61, 19, true⟩)
    (reachable.step (k := io_call.next) (r := ⟨⟨8, 0⟩, 8, 3, 0, 25, 22, true⟩)
      example_gen_reachable rfl)
    rfl

/-- The state of the example in which worker 0 has nothing left and worker 1 has not
started. -/
theorem example_steal_state_reachable (i : Nat) (g : row_io_generator)
    (h : [example_gen0_done, example_gen][i]? = some g) :
    reachable example_cfg example_blocks 26 3 0 i 2 g := by
  match i, h with
  | 0, h =>
    simp only [List.getElem?_cons_zero, Option.some.injEq] at h
    subst h
    exact example_gen0_done_reachable
  | 1, h =>
    simp only [List.getElem?_cons_succ, List.getElem?_cons_zero, Option.some.injEq] at h
    subst h
    exact example_gen_reachable
  | i + 2, h => simp at h

/-- The state of the example in which both workers have nothing left. -/
theorem example_idle_state_reachable (i : Nat) (g : row_io_generator)
    (h : [example_gen0_done, example_gen_done][i]? = some g) :
    reachable example_cfg example_blocks 26 3 0 i 2 g := by
  match i, h with
  | 0, h =>
    simp only [List.getElem?_cons_zero, Option.some.injEq] at h
    subst h
    exact example_gen0_done_reachable
  | 1, h =>
    simp only [List.getElem?_cons_succ, List.getElem?_cons_zero, Option.some.injEq] at h
    subst h
    exact example_gen_done_reachable
  | i + 2, h => simp at h

theorem calls_append : ∀ (a b : Nat) (w : stride_workload),
    stride_workload.calls (a + b) w
      = ((stride_workload.calls a w).1
          ++ (stride_workload.calls b (stride_workload.calls a w).2).1,
        (stride_workload.calls b (stride_workload.calls a w).2).2)
  | 0, b, w => by simp [stride_workload.calls]
  | a + 1, b, w => by
    have e : a + 1 + b = (a + b) + 1 := by omega
    rw [e]
    simp only [stride_workload.calls, calls_append a b, List.cons_append]

/-- A call of `next_offset` changes neither the range nor the stride nor the entry
size, and counts itself. -/
theorem next_offset_fields (w : stride_workload) :
    (w.next_offset).2.first = w.first ∧ (w.next_offset).2.last = w.last ∧
      (w.next_offset).2.num = w.num + 1 ∧ (w.next_offset).2.stride = w.stride ∧
      (w.next_offset).2.entry_size = w.entry_size :=
  ⟨rfl, rfl, rfl, rfl, rfl⟩

theorem calls_fields : ∀ (n : Nat) (w : stride_workload),
    (stride_workload.calls n w).2.first = w.first ∧
      (stride_workload.calls n w).2.last = w.last ∧
      (stride_workload.calls n w).2.num = w.num + n ∧
      (stride_workload.calls n w).1.length = n
  | 0, w => ⟨rfl, rfl, rfl, rfl⟩
  | n + 1, w => by
    obtain ⟨h1, h2, h3, h4⟩ := calls_fields n (w.next_offset).2
    obtain ⟨g1, g2, g3, -, -⟩ := next_offset_fields w
    simp only [stride_workload.calls, List.length_cons]
    refine ⟨by rw [h1, g1], by rw [h2, g2], by rw [h3, g3]; omega, by rw [h4]⟩

/-- The loop makes as many calls as its fuel allows and as there are entries left. -/
theorem run_eq_calls : ∀ (fuel : Nat) (w : stride_workload),
    stride_workload.run fuel w
      = stride_workload.calls (min fuel (w.last - w.first - w.num)) w
  | 0, w => by simp [stride_workload.run, stride_workload.calls]
  | fuel + 1, w => by
    obtain ⟨g1, g2, g3, -, -⟩ := next_offset_fields w
    by_cases h : w.num < w.last - w.first
    · have e : min (fuel + 1) (w.last - w.first - w.num)
          = min fuel (w.last - w.first - (w.num + 1)) + 1 := by omega
      have hn : w.has_next = true := by simp [stride_workload.has_next, h]
      rw [e]
      simp only [stride_workload.run, hn, if_true, stride_workload.calls,
        run_eq_calls fuel (w.next_offset).2, g1, g2, g3]
    · have e : min (fuel + 1) (w.last - w.first - w.num) = 0 := by omega
      have hn : w.has_next = false := by simp [stride_workload.has_next, h]
      rw [e]
      simp [stride_workload.run, hn, stride_workload.calls]

/-- The mask of the wrap-around keeps the position within the stride. -/
theorem wrap_mask (p a x : Nat) :
    (2 ^ p * a + x + 2 ^ p) &&& (2 ^ p - 1) = x % 2 ^ p := by
  rw [Nat.and_pow_two_sub_one_eq_mod, Nat.add_mod_right, Nat.mul_add_mod]

/-- One round of the walk: from the position `x` of a residue class the calls visit
`x`, `x + stride`, ... up to the end of the range and wrap around to the start of the
next class. -/
theorem calls_class (p a len es : Nat) :
    ∀ (k x num : Nat), 1 ≤ k → x + k * 2 ^ p < len + 2 ^ p → len ≤ x + k * 2 ^ p →
      stride_workload.calls k
          { first := 2 ^ p * a, last := 2 ^ p * a + len, curr := 2 ^ p * a + x, num := num,
            stride := 2 ^ p, entry_size := es }
        = ((List.range k).map (fun j => (2 ^ p * a + (x + j * 2 ^ p)) * es),
            { first := 2 ^ p * a, last := 2 ^ p * a + len,
              curr := 2 ^ p * a + x % 2 ^ p + 1, num := num + k,
              stride := 2 ^ p, entry_size := es }) := by
  intro k
  induction k with
  | zero => intro x num h; omega
  | succ k ih =>
    intro x num _ hin hout
    have hS : 0 < 2 ^ p := Nat.two_pow_pos p
    have hne : ¬ 2 ^ p = 0 := by omega
    rw [Nat.succ_mul] at hin hout
    rcases Nat.eq_zero_or_pos k with rfl | hk
    · -- the last entry of the class: the walk wraps around
      simp only [Nat.zero_mul, Nat.zero_add] at hin hout
      have hge : 2 ^ p * a + x + 2 ^ p ≥ 2 ^ p * a + len := by omega
      simp only [stride_workload.calls, stride_workload.next_offset, hge, if_true, hne,
        if_false, wrap_mask]
      simp [List.range_succ]
    · have hlt : ¬ 2 ^ p * a + x + 2 ^ p ≥ 2 ^ p * a + len := by
        have : 1 * 2 ^ p ≤ k * 2 ^ p := Nat.mul_le_mul_right _ hk
        omega
      have hin1 : x + 2 ^ p + k * 2 ^ p < len + 2 ^ p := by
        generalize k * 2 ^ p = t at hin ⊢
        generalize 2 ^ p = S at hin ⊢
        omega
      have hout1 : len ≤ x + 2 ^ p + k * 2 ^ p := by
        generalize k * 2 ^ p = t at hout ⊢
        generalize 2 ^ p = S at hout ⊢
        omega
      have hrec := ih (x + 2 ^ p) (num + 1) hk hin1 hout1
      have e1 : 2 ^ p * a + (x + 2 ^ p) = 2 ^ p * a + x + 2 ^ p := by omega
      rw [e1, Nat.add_mod_right] at hrec
      simp only [stride_workload.calls, stride_workload.next_offset, hlt, if_false, hrec]
      refine Prod.ext ?_ ?_
      · simp only
        rw [List.range_succ_eq_map, List.map_cons, List.map_map]
        simp only [Nat.zero_mul, Nat.add_zero, List.cons.injEq, true_and]
        apply List.map_congr_left
        intro j _
        simp only [Function.comp, Nat.succ_mul]
        congr 1
        omega
      · simp only [stride_workload.mk.injEq, true_and, and_true]
        omega

/-- The size of a residue class: it is positive, its last entry is inside the range and
the next one of the class would be outside. -/
theorem class_size_spec (stride len r : Nat) (hs : 0 < stride) (hr : r < len) :
    1 ≤ class_size stride len r ∧ r + class_size stride len r * stride < len + stride ∧
      len ≤ r + class_size stride len r * stride := by
  have h1 := Nat.div_add_mod (len - r + stride - 1) stride
  have h2 := Nat.mod_lt (len - r + stride - 1) hs
  simp only [class_size]
  rw [Nat.mul_comm] at h1
  generalize (len - r + stride - 1) / stride = k at h1
  generalize (len - r + stride - 1) % stride = m at h1 h2
  refine ⟨?_, by omega, by omega⟩
  rcases Nat.eq_zero_or_pos k with rfl | hk
  · simp at h1; omega
  · exact hk

/-- The rounds of the walk, one residue class after the other. -/
theorem calls_rounds (p a len es : Nat) :
    ∀ m, m ≤ 2 ^ p → m ≤ len →
      stride_workload.calls (((List.range m).map (class_size (2 ^ p) len)).sum)
          { first := 2 ^ p * a, last := 2 ^ p * a + len, curr := 2 ^ p * a, num := 0,
            stride := 2 ^ p, entry_size := es }
        = (((List.range m).flatMap fun r =>
              (List.range (class_size (2 ^ p) len r)).map fun j => r + j * 2 ^ p).map
              (fun c => (2 ^ p * a + c) * es),
            { first := 2 ^ p * a, last := 2 ^ p * a + len, curr := 2 ^ p * a + m,
              num := ((List.range m).map (class_size (2 ^ p) len)).sum,
              stride := 2 ^ p, entry_size := es }) := by
  intro m
  induction m with
  | zero => intro _ _; simp [stride_workload.calls]
  | succ m ih =>
    intro h1 h2
    have hS : 0 < 2 ^ p := Nat.two_pow_pos p
    obtain ⟨k1, k2, k3⟩ := class_size_spec (2 ^ p) len m hS (by omega)
    have hcl := calls_class p a len es (class_size (2 ^ p) len m) m
      (((List.range m).map (class_size (2 ^ p) len)).sum) k1 k2 k3
    rw [Nat.mod_eq_of_lt (by omega : m < 2 ^ p)] at hcl
    rw [List.range_succ, List.map_append, List.sum_append, calls_append,
      ih (by omega) (by omega)]
    simp only [List.map_cons, List.map_nil, List.sum_cons, List.sum_nil, Nat.add_zero, hcl,
      List.flatMap_append, List.flatMap_cons, List.flatMap_nil, List.append_nil,
      List.map_append, List.map_map]
    rfl

/-- The walk visits every entry of the range once. -/
theorem visit_order_perm (stride len : Nat) (hs : 0 < stride) :
    List.Perm (visit_order stride len) (List.range len) := by
  have hmem : ∀ c, c ∈ visit_order stride len ↔ c ∈ List.range len := by
    intro c
    simp only [visit_order, List.mem_flatMap, List.mem_map, List.mem_range]
    constructor
    · rintro ⟨r, hr, j, hj, rfl⟩
      obtain ⟨_, k2, _⟩ := class_size_spec stride len r hs (by omega)
      have : (j + 1) * stride ≤ class_size stride len r * stride :=
        Nat.mul_le_mul_right _ hj
      rw [Nat.succ_mul] at this
      omega
    · intro hc
      have hm := Nat.mod_lt c hs
      have hle := Nat.mod_le c stride
      have hdm := Nat.div_add_mod c stride
      rw [Nat.mul_comm] at hdm
      refine ⟨c % stride, by omega, c / stride, ?_, by omega⟩
      obtain ⟨_, _, k3⟩ := class_size_spec stride len (c % stride) hs (by omega)
      have hlt : c / stride * stride < class_size stride len (c % stride) * stride := by omega
      exact Nat.lt_of_mul_lt_mul_right hlt
  refine (List.perm_ext_iff_of_nodup ?_ (List.nodup_range len)).2 hmem
  simp only [visit_order]
  rw [List.nodup_flatMap]
  constructor
  · intro r _
    refine (List.nodup_range _).map ?_
    intro j1 j2 h
    simp only at h
    exact Nat.eq_of_mul_eq_mul_right hs (Nat.add_left_cancel h)
  · refine (List.pairwise_lt_range _).imp_of_mem ?_
    intro r1 r2 hr1 hr2 hlt
    simp only [Function.onFun]
    rw [List.disjoint_left]
    intro x hx1 hx2
    simp only [List.mem_map, List.mem_range] at hx1 hx2 hr1 hr2
    obtain ⟨j1, _, rfl⟩ := hx1
    obtain ⟨j2, _, h⟩ := hx2
    have e1 : (r1 + j1 * stride) % stride = r1 := by
      rw [Nat.add_mul_mod_self_right]; exact Nat.mod_eq_of_lt (by omega)
    have e2 : (r2 + j2 * stride) % stride = r2 := by
      rw [Nat.add_mul_mod_self_right]; exact Nat.mod_eq_of_lt (by omega)
    rw [h, e1] at e2
    omega

theorem visit_order_length (stride len : Nat) (hs : 0 < stride) :
    ((List.range (min stride len)).map (class_size stride len)).sum = len := by
  have h := (visit_order_perm stride len hs).length_eq
  rw [List.length_range, visit_order, List.length_flatMap] at h
  have e : (List.range (min stride len)).map (class_size stride len)
      = (List.range (min stride len)).map
          (List.length ∘ fun r =>
            (List.range (class_size stride len r)).map fun j => r + j * stride) := by
    apply List.map_congr_left
    intro r _
    simp
  rw [e]
  exact h

/-- The offsets of a whole walk, in the order of the visit. -/
theorem run_visit (p a len es fuel : Nat) (hfuel : len ≤ fuel) :
    stride_workload.run fuel
        { first := 2 ^ p * a, last := 2 ^ p * a + len, curr := 2 ^ p * a, num := 0,
          stride := 2 ^ p, entry_size := es }
      = stride_workload.calls len
          { first := 2 ^ p * a, last := 2 ^ p * a + len, curr := 2 ^ p * a, num := 0,
            stride := 2 ^ p, entry_size := es } ∧
    (stride_workload.calls len
        { first := 2 ^ p * a, last := 2 ^ p * a + len, curr := 2 ^ p * a, num := 0,
          stride := 2 ^ p, entry_size := es }).1
      = (visit_order (2 ^ p) len).map (fun c => (2 ^ p * a + c) * es) := by
  constructor
  · rw [run_eq_calls]
    simp only
    congr 1
    omega
  · have h := calls_rounds p a len es (min (2 ^ p) len) (Nat.min_le_left _ _)
      (Nat.min_le_right _ _)
    rw [visit_order_length (2 ^ p) len (Nat.two_pow_pos p)] at h
    rw [h]
    rfl

end fm

/-! ## The properties of the specification -/

namespace fm

/-- C1 (exhaustive partition). For a row-block vector of `N + 1` strictly increasing
offsets, `W ≥ 1` workers, `rb_io_size ≥ 1` and `rb_steal_io_size ≥ 1`, the `W`
generators with `gen_id = 0 .. W - 1` are built, and every finite interleaving of atomic
`get_next_io` / `steal_io` calls on them runs to its end, one request per call.  Every
valid request returned reads a non-empty run of consecutive row blocks.  At any point
the row blocks of the valid requests returned so far together with the row blocks the
generators still hold are a permutation of `0 .. N - 1`: no row block is lost or served
twice.  An interleaving that calls every generator at least as often as it was assigned
row blocks ends with `has_next_io()` false on every generator, whatever the mix of
calls.  And whenever `has_next_io()` is false on every generator at the end, the row
blocks of the valid requests are a permutation of `0 .. N - 1`: every row block is
covered exactly once, with no gap and no overlap. -/
theorem exhaustive_partition (cfg : matrix_config) (blocks : List row_block)
    (n tot tc : Nat) (fid : Int) (num_gens : Nat) (calls : List (Nat × io_call))
    (hn : blocks.length = n + 1)
    (hinc : offsets_increasing blocks)
    (hw : 1 ≤ num_gens)
    (hrb : 1 ≤ cfg.rb_io_size)
    (hsteal : 1 ≤ cfg.rb_steal_io_size)
    (hcalls : ∀ c ∈ calls, c.1 < num_gens) :
    ∃ gens reqs gens1,
      create_all cfg blocks tot tc fid num_gens = some gens ∧
      gens.length = num_gens ∧
      run_workers cfg blocks gens calls = Except.ok (reqs, gens1) ∧
      reqs.length = calls.length ∧
      gens1.length = num_gens ∧
      (∀ r ∈ reqs, r.is_valid = true →
        ∃ f m, 0 < m ∧ covered_blocks blocks r = List.range' f m) ∧
      List.Perm
        ((reqs.filter matrix_io.is_valid).flatMap (covered_blocks blocks)
          ++ gens1.flatMap row_io_generator.block_range)
        (List.range n) ∧
      ((∀ i g, gens[i]? = some g → g.num_blocks ≤ calls_on i calls) →
        ∀ g ∈ gens1, g.has_next_io = false) ∧
      ((∀ g ∈ gens1, g.has_next_io = false) →
        List.Perm ((reqs.filter matrix_io.is_valid).flatMap (covered_blocks blocks))
          (List.range n)) := by
  obtain ⟨gens, hgens, hlen, hinv, hinit⟩ :=
    create_all_blocks cfg blocks n tot tc fid num_gens hn hrb hw
  obtain ⟨reqs, gens1, hrun, hrl, hlen1, hinv1, hperm, hshape⟩ :=
    run_workers_blocks cfg blocks n hn hinc calls gens hinv (by rw [hlen]; exact hcalls)
  refine ⟨gens, reqs, gens1, hgens, hlen, hrun, hrl, by rw [hlen1, hlen], ?_,
    hperm.trans hinit, ?_, ?_⟩
  · intro r hr hv
    obtain ⟨f, m, h1, h2⟩ := hshape r hr hv
    exact ⟨f, m, h2 hsteal, h1⟩
  · intro hcnt
    obtain ⟨reqs2, gens2, hrun2, hdone⟩ :=
      run_workers_exhaust cfg blocks n hn hsteal calls gens hinv
        (by rw [hlen]; exact hcalls) (fun i g hg => Or.inr (hcnt i g hg))
    rw [hrun] at hrun2
    cases hrun2
    exact hdone
  · intro hdone
    have hnil : gens1.flatMap row_io_generator.block_range = [] := by
      rw [List.flatMap_eq_nil_iff]
      intro g hg
      obtain ⟨g0, hg0⟩ := hinv1 g hg
      exact exhausted_block_range n g0 g hg0 (hdone g hg)
    rw [hnil, List.append_nil] at hperm
    exact hperm.trans hinit

/-- Witness of C1: two workers over the seven row blocks of the example.  The seven calls
of the interleaving, four on generator 0 (which was assigned four row blocks) and three
on generator 1 (assigned three), all return a valid request, for the row blocks `0`,
`2`, `1`, `3`, `4`, `6` and `5`; after them `has_next_io()` is false on both generators
and every row block `0 .. 6` was served once. -/
theorem exhaustive_partition_witness :
    example_blocks.length = 7 + 1 ∧
    offsets_increasing example_blocks ∧
    1 ≤ 2 ∧
    1 ≤ example_cfg.rb_io_size ∧
    1 ≤ example_cfg.rb_steal_io_size ∧
    (∀ c ∈ example_calls, c.1 < 2) ∧
    ∃ gens reqs gens1,
      create_all example_cfg example_blocks 26 3 0 2 = some gens ∧
      gens.length = 2 ∧
      run_workers example_cfg example_blocks gens example_calls = Except.ok (reqs, gens1) ∧
      (reqs.map fun r => (r.is_valid, covered_blocks example_blocks r))
        = [(true, [0]), (true, [2]), (true, [1]), (true, [3]), (true, [4]), (true, [6]),
            (true, [5])] ∧
      (∀ i g, gens[i]? = some g → g.num_blocks ≤ calls_on i example_calls) ∧
      (∀ g ∈ gens1, g.has_next_io = false) ∧
      List.Perm ((reqs.filter matrix_io.is_valid).flatMap (covered_blocks example_blocks))
        (List.range 7) := by
  obtain ⟨gens, reqs, gens1, hc, hlen, hrun, -, -, -, -, hlive, hperm⟩ :=
    exhaustive_partition example_cfg example_blocks 7 26 3 0 2 example_calls
      (by decide) example_blocks_increasing (by decide) (by decide) (by decide) (by decide)
  obtain ⟨gens2, reqs2, gens3, hc2, hrun2, -, -, hlist, -⟩ := example_run
  rw [hc] at hc2
  cases hc2
  rw [hrun] at hrun2
  cases hrun2
  have hcnt : ∀ i g, gens[i]? = some g → g.num_blocks ≤ calls_on i example_calls := by
    have hg : create_all example_cfg example_blocks 26 3 0 2
        = some [example_gen0, example_gen] := by decide
    rw [hc] at hg
    cases hg
    intro i g h
    match i, h with
    | 0, h =>
      simp only [List.getElem?_cons_zero, Option.some.injEq] at h
      subst h
      decide
    | 1, h =>
      simp only [List.getElem?_cons_succ, List.getElem?_cons_zero, Option.some.injEq] at h
      subst h
      decide
    | i + 2, h => simp at h
  have hdone := hlive hcnt
  exact ⟨by decide, example_blocks_increasing, by decide, by decide, by decide, by decide,
    gens, reqs, gens1, hc, hlen, hrun, hlist, hcnt, hdone, hperm hdone⟩

/-- C2 (striping at construction). For `N` row blocks, `num_gens ≥ 1`,
`rb_io_size ≥ 1` and `gen_id < num_gens`, the constructor returns a generator with
`curr_io_off = 0` whose chunks are, in order, the runs that start at row block
`(gen_id + j * num_gens) * rb_io_size` for `j = 0, 1, ..., k - 1`, where `k` is the
first `j` whose start is not below `N`; each run has `min rb_io_size (N - start)` row
blocks.  Equivalently, row block `b` lies in a chunk of this generator iff `b < N` and
`(b / rb_io_size) % num_gens = gen_id`. -/
theorem striping_at_construction (cfg : matrix_config) (blocks : List row_block)
    (n tot tc : Nat) (fid : Int) (gen_id num_gens : Nat)
    (hn : blocks.length = n + 1)
    (hw : 1 ≤ num_gens)
    (hrb : 1 ≤ cfg.rb_io_size)
    (hid : gen_id < num_gens) :
    ∃ g k, row_io_generator.create cfg blocks tot tc fid gen_id num_gens = some g ∧
      g.curr_io_off = 0 ∧
      g.ios.map (fun c => (c.first_row_block, c.num_row_blocks))
        = (List.range k).map (fun j =>
            ((gen_id + j * num_gens) * cfg.rb_io_size,
              min cfg.rb_io_size (n - (gen_id + j * num_gens) * cfg.rb_io_size))) ∧
      (∀ j, j < k → (gen_id + j * num_gens) * cfg.rb_io_size < n) ∧
      n ≤ (gen_id + k * num_gens) * cfg.rb_io_size ∧
      ∀ b, (∃ c ∈ g.ios, c.first_row_block ≤ b ∧ b < c.first_row_block + c.num_row_blocks) ↔
        (b < n ∧ (b / cfg.rb_io_size) % num_gens = gen_id) := by
  obtain ⟨k, hk, hlt, hge⟩ :=
    create_closed cfg blocks n tot tc fid gen_id num_gens hn hrb hw
  refine ⟨_, k, hk, rfl, ?_, hlt, hge, ?_⟩
  · simp [List.map_map, Function.comp, ctor_chunk]
  · intro b
    rw [← mem_striped n cfg.rb_io_size num_gens gen_id k hrb hid hlt hge b]
    simp only [List.mem_map, List.mem_range]
    constructor
    · rintro ⟨c, ⟨j, hj, rfl⟩, h1, h2⟩
      exact ⟨j, hj, h1, h2⟩
    · rintro ⟨j, hj, h1, h2⟩
      exact ⟨_, ⟨j, hj, rfl⟩, h1, h2⟩

/-- Witness of C2: worker 1 of 2 over the seven row blocks of the example. -/
theorem striping_at_construction_witness :
    example_blocks.length = 7 + 1 ∧ 1 ≤ 2 ∧ 1 ≤ example_cfg.rb_io_size ∧ 1 < 2 ∧
    ∃ g k, row_io_generator.create example_cfg example_blocks 26 3 0 1 2 = some g ∧
      g.curr_io_off = 0 ∧
      g.ios.map (fun c => (c.first_row_block, c.num_row_blocks))
        = (List.range k).map (fun j =>
            ((1 + j * 2) * example_cfg.rb_io_size,
              min example_cfg.rb_io_size (7 - (1 + j * 2) * example_cfg.rb_io_size))) ∧
      (∀ j, j < k → (1 + j * 2) * example_cfg.rb_io_size < 7) ∧
      7 ≤ (1 + k * 2) * example_cfg.rb_io_size ∧
      ∀ b, (∃ c ∈ g.ios, c.first_row_block ≤ b ∧ b < c.first_row_block + c.num_row_blocks) ↔
        (b < 7 ∧ (b / example_cfg.rb_io_size) % 2 = 1) :=
  ⟨by decide, by decide, by decide, by decide,
    striping_at_construction example_cfg example_blocks 7 26 3 0 1 2 (by decide) (by decide)
      (by decide) (by decide)⟩

/-- C3 (steal bound). In every reachable generator state with a request left,
`steal_io` returns a request for exactly the first
`min (remaining row blocks of the current chunk) rb_steal_io_size` row blocks of the
current chunk, hence for at most `rb_steal_io_size` row blocks: the chunk is left
without them, the request starts at the byte offset of the first of them and its byte
size is the `size_t` value of `blocks[first + count].offset - blocks[first].offset`;
when the offsets increase this is that difference itself, and the row blocks whose
start lies in the byte range of the request are exactly these `count` row blocks. -/
theorem steal_io_bound (cfg : matrix_config) (blocks : List row_block) (n tot tc : Nat)
    (fid : Int) (gen_id num_gens : Nat) (g : row_io_generator)
    (hn : blocks.length = n + 1)
    (hg : reachable cfg blocks tot tc fid gen_id num_gens g)
    (hnext : g.has_next_io = true) :
    ∃ c c1 b0 b1 r g1,
      g.ios[g.curr_io_off]? = some c ∧
      g.steal_io cfg blocks = Except.ok (r, g1) ∧
      g1.ios[g.curr_io_off]? = some c1 ∧
      c1.first_row_block = c.first_row_block + min c.num_row_blocks cfg.rb_steal_io_size ∧
      c1.num_row_blocks = c.num_row_blocks - min c.num_row_blocks cfg.rb_steal_io_size ∧
      min c.num_row_blocks cfg.rb_steal_io_size ≤ cfg.rb_steal_io_size ∧
      blocks[c.first_row_block]? = some b0 ∧
      blocks[c.first_row_block + min c.num_row_blocks cfg.rb_steal_io_size]? = some b1 ∧
      r.is_valid = true ∧
      r.byte_offset = b0.offset ∧
      r.byte_size = off_to_size (b1.offset - b0.offset) ∧
      (offsets_increasing blocks →
        (r.byte_size : Int) = b1.offset - b0.offset ∧
        covered_blocks blocks r
          = List.range' c.first_row_block (min c.num_row_blocks cfg.rb_steal_io_size) ∧
        (covered_blocks blocks r).length ≤ cfg.rb_steal_io_size) := by
  obtain ⟨g0, -, hinv⟩ := reachable_inv cfg blocks n tot tc fid gen_id num_gens g hn hg
  have hlt := (has_next_io_iff g).1 hnext
  rcases call_cases cfg blocks n g0 g io_call.steal hn hinv with
    ⟨h, _⟩ | ⟨_, c, b0, b1, hc, hd, hr, hb0, hb1, hcall⟩
  · exact absurd hlt h
  · have hm : min c.num_row_blocks cfg.rb_steal_io_size ≤ c.num_row_blocks :=
      Nat.min_le_left _ _
    refine ⟨c, chunk_after cfg io_call.steal c, b0, b1, request_of cfg io_call.steal g c b0 b1,
      gen_after cfg io_call.steal g c, hc, hcall, getElem?_set_same _ _ _ hlt, rfl, rfl,
      Nat.min_le_right _ _, hb0, hb1, rfl, rfl, rfl, ?_⟩
    intro hinc
    have hcov := covered_window blocks n hn hinc c.first_row_block
      (min c.num_row_blocks cfg.rb_steal_io_size) (by omega) b0 b1 hb0 hb1
      (request_of cfg io_call.steal g c b0 b1) rfl rfl
    refine ⟨?_, hcov, ?_⟩
    · exact off_to_size_nonneg _ (by
        have := offsets_le blocks hinc _ _ b0 b1 hb0 hb1 (Nat.le_add_right _ _)
        omega)
    · rw [hcov, List.length_range']
      exact Nat.min_le_right _ _

/-- Witness of C3: the generator of worker 1 over the example matrix, as built. -/
theorem steal_io_bound_witness :
    example_blocks.length = 7 + 1 ∧
    reachable example_cfg example_blocks 26 3 0 1 2 example_gen ∧
    example_gen.has_next_io = true ∧
    ∃ c c1 b0 b1 r g1,
      example_gen.ios[example_gen.curr_io_off]? = some c ∧
      example_gen.steal_io example_cfg example_blocks = Except.ok (r, g1) ∧
      g1.ios[example_gen.curr_io_off]? = some c1 ∧
      c1.first_row_block
        = c.first_row_block + min c.num_row_blocks example_cfg.rb_steal_io_size ∧
      c1.num_row_blocks = c.num_row_blocks - min c.num_row_blocks example_cfg.rb_steal_io_size ∧
      min c.num_row_blocks example_cfg.rb_steal_io_size ≤ example_cfg.rb_steal_io_size ∧
      example_blocks[c.first_row_block]? = some b0 ∧
      example_blocks[c.first_row_block + min c.num_row_blocks example_cfg.rb_steal_io_size]?
        = some b1 ∧
      r.is_valid = true ∧
      r.byte_offset = b0.offset ∧
      r.byte_size = off_to_size (b1.offset - b0.offset) ∧
      (offsets_increasing example_blocks →
        (r.byte_size : Int) = b1.offset - b0.offset ∧
        covered_blocks example_blocks r
          = List.range' c.first_row_block
              (min c.num_row_blocks example_cfg.rb_steal_io_size) ∧
        (covered_blocks example_blocks r).length ≤ example_cfg.rb_steal_io_size) :=
  ⟨by decide, reachable.init (by decide), by decide,
    steal_io_bound example_cfg example_blocks 7 26 3 0 1 2 example_gen (by decide)
      (reachable.init (by decide)) (by decide)⟩

/-- C4 (cursor monotonicity). From every reachable generator state, every finite
sequence of `get_next_io` / `steal_io` calls runs to its end, `curr_io_off` never
decreases from one state to the next (starting with the state before the first call),
and after every call each chunk at an index below `curr_io_off` reports
`has_data() == false`. -/
theorem cursor_monotone (cfg : matrix_config) (blocks : List row_block)
    (n tot tc : Nat) (fid : Int) (gen_id num_gens : Nat) (g : row_io_generator)
    (calls : List io_call)
    (hn : blocks.length = n + 1)
    (hg : reachable cfg blocks tot tc fid gen_id num_gens g) :
    ∃ trace, run_calls cfg blocks g calls = Except.ok trace ∧
      trace.length = calls.length ∧
      List.Chain (fun a b => a.curr_io_off ≤ b.curr_io_off) g (trace.map Prod.snd) ∧
      ∀ s ∈ trace.map Prod.snd, ∀ (i : Nat) (c : large_row_io),
        s.ios[i]? = some c → i < s.curr_io_off → c.has_data = false := by
  obtain ⟨g0, -, hinv⟩ := reachable_inv cfg blocks n tot tc fid gen_id num_gens g hn hg
  obtain ⟨trace, htr, hlen, hchain, hall⟩ := run_calls_inv cfg blocks n g0 hn calls g hinv
  refine ⟨trace, htr, hlen, hchain, ?_⟩
  intro s hs i c hc hi
  have := (hall s hs).passed i c hc hi
  simp [large_row_io.has_data, this]

/-- Witness of C4: one steal, the owner's call, and two more steals on the generator of
worker 1 over the example matrix. -/
theorem cursor_monotone_witness :
    example_blocks.length = 7 + 1 ∧
    reachable example_cfg example_blocks 26 3 0 1 2 example_gen ∧
    ∃ trace,
      run_calls example_cfg example_blocks example_gen
          [io_call.steal, io_call.next, io_call.steal, io_call.steal]
        = Except.ok trace ∧
      trace.length = [io_call.steal, io_call.next, io_call.steal, io_call.steal].length ∧
      List.Chain (fun a b => a.curr_io_off ≤ b.curr_io_off) example_gen
        (trace.map Prod.snd) ∧
      ∀ s ∈ trace.map Prod.snd, ∀ (i : Nat) (c : large_row_io),
        s.ios[i]? = some c → i < s.curr_io_off → c.has_data = false :=
  ⟨by decide, reachable.init (by decide),
    cursor_monotone example_cfg example_blocks 7 26 3 0 1 2 example_gen
      [io_call.steal, io_call.next, io_call.steal, io_call.steal] (by decide)
      (reachable.init (by decide))⟩

/-- C5 (`get_next_io` takes the whole remaining range). In every reachable generator
state with `curr_io_off` below the number of chunks, `get_next_io` returns one valid
request: its byte offset is the offset of the first remaining row block of the current
chunk, its byte size is the `size_t` value of
`blocks[first + remaining].offset - blocks[first].offset` (that difference itself when
it is not negative), its `num_rows` is the `tot_num_rows` left in the chunk, and its
top-left corner is `(first * row_block_size, 0)`.  Afterwards the chunk has no data,
`curr_io_off` is one more and the other chunks are as before.  The chunk served is a
suffix of the chunk built at this place by the constructor: it ends at the same row
block, so after steals the owner gets exactly the part that was not stolen. -/
theorem get_next_io_whole (cfg : matrix_config) (blocks : List row_block) (n tot tc : Nat)
    (fid : Int) (gen_id num_gens : Nat) (g : row_io_generator)
    (hn : blocks.length = n + 1)
    (hg : reachable cfg blocks tot tc fid gen_id num_gens g)
    (hcur : g.curr_io_off < g.ios.length) :
    ∃ c c1 b0 b1 r g1,
      g.ios[g.curr_io_off]? = some c ∧
      g.get_next_io cfg blocks = Except.ok (r, g1) ∧
      blocks[c.first_row_block]? = some b0 ∧
      blocks[c.first_row_block + c.num_row_blocks]? = some b1 ∧
      r.is_valid = true ∧
      r.byte_offset = b0.offset ∧
      r.byte_size = off_to_size (b1.offset - b0.offset) ∧
      (b0.offset ≤ b1.offset → (r.byte_size : Int) = b1.offset - b0.offset) ∧
      r.num_rows = c.tot_num_rows ∧
      r.top_left = ⟨(c.first_row_block : Int) * (cfg.row_block_size : Int), 0⟩ ∧
      g1.ios[g.curr_io_off]? = some c1 ∧
      c1.has_data = false ∧
      c1.first_row_block = c.first_row_block + c.num_row_blocks ∧
      g1.curr_io_off = g.curr_io_off + 1 ∧
      (∀ i, i ≠ g.curr_io_off → g1.ios[i]? = g.ios[i]?) ∧
      ∃ g0 c0,
        row_io_generator.create cfg blocks tot tc fid gen_id num_gens = some g0 ∧
        g0.ios[g.curr_io_off]? = some c0 ∧
        c0.first_row_block ≤ c.first_row_block ∧
        c.first_row_block + c.num_row_blocks = c0.first_row_block + c0.num_row_blocks := by
  obtain ⟨g0, hg0, hinv⟩ := reachable_inv cfg blocks n tot tc fid gen_id num_gens g hn hg
  rcases call_cases cfg blocks n g0 g io_call.next hn hinv with
    ⟨h, _⟩ | ⟨_, c, b0, b1, hc, hd, hr, hb0, hb1, hcall⟩
  · exact absurd hcur h
  · have hlen0 : g.curr_io_off < g0.ios.length := by rw [← hinv.len_eq]; exact hcur
    have hc0 : g0.ios[g.curr_io_off]? = some g0.ios[g.curr_io_off] :=
      List.getElem?_eq_getElem hlen0
    obtain ⟨hs1, hs2⟩ := hinv.suffix _ c _ hc hc0
    refine ⟨c, chunk_after cfg io_call.next c, b0, b1, request_of cfg io_call.next g c b0 b1,
      gen_after cfg io_call.next g c, hc, hcall, hb0, hb1, rfl, rfl, rfl, ?_, rfl, rfl,
      getElem?_set_same _ _ _ hcur, ?_, rfl, ?_, ?_, g0, _, hg0, hc0, hs1, hs2⟩
    · intro hle
      exact off_to_size_nonneg _ (by omega)
    · simp [large_row_io.has_data, chunk_after, taken_blocks]
    · simp [gen_after, chunk_after, taken_blocks]
    · intro i hi
      simp only [gen_after]
      rw [List.getElem?_set]
      simp [Ne.symm hi]

/-- Witness of C5: worker 1 of the example after one row block of its first chunk
was stolen. -/
theorem get_next_io_whole_witness :
    example_blocks.length = 7 + 1 ∧
    reachable example_cfg example_blocks 26 3 0 1 2 example_gen_stolen ∧
    example_gen_stolen.curr_io_off < example_gen_stolen.ios.length ∧
    ∃ c c1 b0 b1 r g1,
      example_gen_stolen.ios[example_gen_stolen.curr_io_off]? = some c ∧
      example_gen_stolen.get_next_io example_cfg example_blocks = Except.ok (r, g1) ∧
      example_blocks[c.first_row_block]? = some b0 ∧
      example_blocks[c.first_row_block + c.num_row_blocks]? = some b1 ∧
      r.is_valid = true ∧
      r.byte_offset = b0.offset ∧
      r.byte_size = off_to_size (b1.offset - b0.offset) ∧
      (b0.offset ≤ b1.offset → (r.byte_size : Int) = b1.offset - b0.offset) ∧
      r.num_rows = c.tot_num_rows ∧
      r.top_left = ⟨(c.first_row_block : Int) * (example_cfg.row_block_size : Int), 0⟩ ∧
      g1.ios[example_gen_stolen.curr_io_off]? = some c1 ∧
      c1.has_data = false ∧
      c1.first_row_block = c.first_row_block + c.num_row_blocks ∧
      g1.curr_io_off = example_gen_stolen.curr_io_off + 1 ∧
      (∀ i, i ≠ example_gen_stolen.curr_io_off → g1.ios[i]? = example_gen_stolen.ios[i]?) ∧
      ∃ g0 c0,
        row_io_generator.create example_cfg example_blocks 26 3 0 1 2 = some g0 ∧
        g0.ios[example_gen_stolen.curr_io_off]? = some c0 ∧
        c0.first_row_block ≤ c.first_row_block ∧
        c.first_row_block + c.num_row_blocks = c0.first_row_block + c0.num_row_blocks :=
  ⟨by decide,
    example_gen_stolen_reachable,
    by decide,
    get_next_io_whole example_cfg example_blocks 7 26 3 0 1 2 example_gen_stolen (by decide)
      example_gen_stolen_reachable
      (by decide)⟩

/-- C6 (`steal_io` takes a prefix and advances the cursor iff the chunk is emptied).
In every reachable generator state with `curr_io_off` below the number of chunks and
with `rb_steal_io_size ≥ 1`, `steal_io` returns a valid request for the first
`m = min remaining rb_steal_io_size ≥ 1` row blocks of the current chunk (its byte range
runs from `blocks[first].offset` to `blocks[first + m].offset`), leaves the chunk with
`first_row_block` advanced by `m` and `remaining - m` row blocks, adds one to
`curr_io_off` if and only if `remaining - m = 0` and leaves it alone otherwise, and
changes no other chunk. -/
theorem steal_io_prefix (cfg : matrix_config) (blocks : List row_block) (n tot tc : Nat)
    (fid : Int) (gen_id num_gens : Nat) (g : row_io_generator)
    (hn : blocks.length = n + 1)
    (hg : reachable cfg blocks tot tc fid gen_id num_gens g)
    (hcur : g.curr_io_off < g.ios.length)
    (hsteal : 1 ≤ cfg.rb_steal_io_size) :
    ∃ c c1 b0 b1 r g1,
      g.ios[g.curr_io_off]? = some c ∧
      g.steal_io cfg blocks = Except.ok (r, g1) ∧
      1 ≤ min c.num_row_blocks cfg.rb_steal_io_size ∧
      blocks[c.first_row_block]? = some b0 ∧
      blocks[c.first_row_block + min c.num_row_blocks cfg.rb_steal_io_size]? = some b1 ∧
      r.is_valid = true ∧
      r.byte_offset = b0.offset ∧
      r.byte_size = off_to_size (b1.offset - b0.offset) ∧
      g1.ios = g.ios.set g.curr_io_off c1 ∧
      c1.first_row_block = c.first_row_block + min c.num_row_blocks cfg.rb_steal_io_size ∧
      c1.num_row_blocks = c.num_row_blocks - min c.num_row_blocks cfg.rb_steal_io_size ∧
      (g1.curr_io_off = g.curr_io_off + 1 ↔
        c.num_row_blocks - min c.num_row_blocks cfg.rb_steal_io_size = 0) ∧
      (g1.curr_io_off = g.curr_io_off ↔
        c.num_row_blocks - min c.num_row_blocks cfg.rb_steal_io_size ≠ 0) ∧
      (∀ i, i ≠ g.curr_io_off → g1.ios[i]? = g.ios[i]?) := by
  obtain ⟨g0, -, hinv⟩ := reachable_inv cfg blocks n tot tc fid gen_id num_gens g hn hg
  rcases call_cases cfg blocks n g0 g io_call.steal hn hinv with
    ⟨h, _⟩ | ⟨_, c, b0, b1, hc, hd, hr, hb0, hb1, hcall⟩
  · exact absurd hcur h
  · refine ⟨c, chunk_after cfg io_call.steal c, b0, b1, request_of cfg io_call.steal g c b0 b1,
      gen_after cfg io_call.steal g c, hc, hcall, Nat.le_min.2 ⟨hd, hsteal⟩, hb0, hb1, rfl, rfl,
      rfl, rfl, rfl, rfl, ?_, ?_, ?_⟩
    · simp only [gen_after, chunk_after, taken_blocks]
      split <;> omega
    · simp only [gen_after, chunk_after, taken_blocks]
      split <;> omega
    · intro i hi
      simp only [gen_after]
      rw [List.getElem?_set]
      simp [Ne.symm hi]

/-- Witness of C6: the generator of worker 1 over the example matrix, as built. -/
theorem steal_io_prefix_witness :
    example_blocks.length = 7 + 1 ∧
    reachable example_cfg example_blocks 26 3 0 1 2 example_gen ∧
    example_gen.curr_io_off < example_gen.ios.length ∧
    1 ≤ example_cfg.rb_steal_io_size ∧
    ∃ c c1 b0 b1 r g1,
      example_gen.ios[example_gen.curr_io_off]? = some c ∧
      example_gen.steal_io example_cfg example_blocks = Except.ok (r, g1) ∧
      1 ≤ min c.num_row_blocks example_cfg.rb_steal_io_size ∧
      example_blocks[c.first_row_block]? = some b0 ∧
      example_blocks[c.first_row_block + min c.num_row_blocks example_cfg.rb_steal_io_size]?
        = some b1 ∧
      r.is_valid = true ∧
      r.byte_offset = b0.offset ∧
      r.byte_size = off_to_size (b1.offset - b0.offset) ∧
      g1.ios = example_gen.ios.set example_gen.curr_io_off c1 ∧
      c1.first_row_block
        = c.first_row_block + min c.num_row_blocks example_cfg.rb_steal_io_size ∧
      c1.num_row_blocks
        = c.num_row_blocks - min c.num_row_blocks example_cfg.rb_steal_io_size ∧
      (g1.curr_io_off = example_gen.curr_io_off + 1 ↔
        c.num_row_blocks - min c.num_row_blocks example_cfg.rb_steal_io_size = 0) ∧
      (g1.curr_io_off = example_gen.curr_io_off ↔
        c.num_row_blocks - min c.num_row_blocks example_cfg.rb_steal_io_size ≠ 0) ∧
      (∀ i, i ≠ example_gen.curr_io_off → g1.ios[i]? = example_gen.ios[i]?) :=
  ⟨by decide, reachable.init (by decide), by decide, by decide,
    steal_io_prefix example_cfg example_blocks 7 26 3 0 1 2 example_gen (by decide)
      (reachable.init (by decide)) (by decide) (by decide)⟩

/-- C7 (exhaustion is signalled by the empty request and by `has_next_io`). In every
reachable generator state, `has_next_io` is true iff `curr_io_off` is below the number
of chunks; `get_next_io` and `steal_io` both return, and each returns the default
request (equivalently, an invalid request) iff `has_next_io` was false before the call;
in that case the generator state is unchanged. -/
theorem exhaustion_signalled (cfg : matrix_config) (blocks : List row_block)
    (n tot tc : Nat) (fid : Int) (gen_id num_gens : Nat) (g : row_io_generator)
    (hn : blocks.length = n + 1)
    (hg : reachable cfg blocks tot tc fid gen_id num_gens g) :
    (g.has_next_io = true ↔ g.curr_io_off < g.ios.length) ∧
    (∃ r g1, g.get_next_io cfg blocks = Except.ok (r, g1) ∧
      (r = matrix_io.empty ↔ g.has_next_io = false) ∧
      (r.is_valid = false ↔ g.has_next_io = false) ∧
      (g.has_next_io = false → g1 = g)) ∧
    (∃ r g1, g.steal_io cfg blocks = Except.ok (r, g1) ∧
      (r = matrix_io.empty ↔ g.has_next_io = false) ∧
      (r.is_valid = false ↔ g.has_next_io = false) ∧
      (g.has_next_io = false → g1 = g)) := by
  obtain ⟨g0, -, hinv⟩ := reachable_inv cfg blocks n tot tc fid gen_id num_gens g hn hg
  exact ⟨has_next_io_iff g, call_exhaustion cfg blocks n g0 g io_call.next hn hinv,
    call_exhaustion cfg blocks n g0 g io_call.steal hn hinv⟩

/-- Witness of C7: the generator of worker 1 over the example matrix, as built. -/
theorem exhaustion_signalled_witness :
    example_blocks.length = 7 + 1 ∧
    reachable example_cfg example_blocks 26 3 0 1 2 example_gen ∧
    (example_gen.has_next_io = true ↔ example_gen.curr_io_off < example_gen.ios.length) ∧
    (∃ r g1, example_gen.get_next_io example_cfg example_blocks = Except.ok (r, g1) ∧
      (r = matrix_io.empty ↔ example_gen.has_next_io = false) ∧
      (r.is_valid = false ↔ example_gen.has_next_io = false) ∧
      (example_gen.has_next_io = false → g1 = example_gen)) ∧
    (∃ r g1, example_gen.steal_io example_cfg example_blocks = Except.ok (r, g1) ∧
      (r = matrix_io.empty ↔ example_gen.has_next_io = false) ∧
      (r.is_valid = false ↔ example_gen.has_next_io = false) ∧
      (example_gen.has_next_io = false → g1 = example_gen)) :=
  ⟨by decide, reachable.init (by decide),
    exhaustion_signalled example_cfg example_blocks 7 26 3 0 1 2 example_gen (by decide)
      (reachable.init (by decide))⟩

/-- C8 (empty generator). Over a row-block vector that holds only the end of the file
(one offset, no row block), for every configuration, `gen_id` and `num_gens`, the
constructor returns a generator with no chunk: `has_next_io` is false at once, and
`get_next_io` and `steal_io` both return the empty request and leave the generator as
it is. -/
theorem empty_generator (cfg : matrix_config) (b : row_block) (tot tc : Nat) (fid : Int)
    (gen_id num_gens : Nat) :
    ∃ g, row_io_generator.create cfg [b] tot tc fid gen_id num_gens = some g ∧
      g.ios = [] ∧
      g.has_next_io = false ∧
      g.get_next_io cfg [b] = Except.ok (matrix_io.empty, g) ∧
      g.steal_io cfg [b] = Except.ok (matrix_io.empty, g) := by
  refine ⟨{ ios := [], curr_io_off := 0, file_id := fid, tot_num_cols := tc }, ?_, rfl, ?_, ?_, ?_⟩
  · simp [row_io_generator.create, size_t_sub, ctor_loop]
  · simp [row_io_generator.has_next_io]
  · simp [row_io_generator.get_next_io]
  · simp [row_io_generator.steal_io]

/-- C9 (every non-empty request is well formed). Assume the offsets are strictly
increasing and non-negative with last entry the file size, `rb_steal_io_size ≥ 1` and
`(N - 1) * row_block_size < tot_num_rows ≤ N * row_block_size`.  Then in every reachable
generator state with `has_next_io()` true, `get_next_io` and `steal_io` each return a
valid request with `num_rows > 0`, `byte_size > 0`, `byte_offset ≥ 0` and
`byte_offset + byte_size ≤ file size`. -/
theorem request_well_formed (cfg : matrix_config) (blocks : List row_block)
    (n tot tc : Nat) (fid : Int) (gen_id num_gens : Nat) (g : row_io_generator)
    (file_size : Int)
    (hn : blocks.length = n + 1)
    (hinc : offsets_increasing blocks)
    (hnonneg : ∀ b ∈ blocks, 0 ≤ b.offset)
    (hlast : blocks[n]? = some ⟨file_size⟩)
    (hsteal : 1 ≤ cfg.rb_steal_io_size)
    (hlo : ((n : Int) - 1) * (cfg.row_block_size : Int) < (tot : Int))
    (hhi : tot ≤ n * cfg.row_block_size)
    (hg : reachable cfg blocks tot tc fid gen_id num_gens g)
    (hnext : g.has_next_io = true) :
    (∃ r g1, g.get_next_io cfg blocks = Except.ok (r, g1) ∧ r.is_valid = true ∧
      0 < r.num_rows ∧ 0 < r.byte_size ∧ 0 ≤ r.byte_offset ∧
      r.byte_offset + (r.byte_size : Int) ≤ file_size) ∧
    (∃ r g1, g.steal_io cfg blocks = Except.ok (r, g1) ∧ r.is_valid = true ∧
      0 < r.num_rows ∧ 0 < r.byte_size ∧ 0 ≤ r.byte_offset ∧
      r.byte_offset + (r.byte_size : Int) ≤ file_size) :=
  ⟨call_well_formed cfg blocks n tot tc fid gen_id num_gens g file_size io_call.next hn hinc
      hnonneg hlast hsteal hlo hhi hg hnext,
    call_well_formed cfg blocks n tot tc fid gen_id num_gens g file_size io_call.steal hn hinc
      hnonneg hlast hsteal hlo hhi hg hnext⟩

/-- Witness of C9: worker 1 of the example after one row block of its first chunk was
stolen; the file has 80 bytes. -/
theorem request_well_formed_witness :
    example_blocks.length = 7 + 1 ∧
    offsets_increasing example_blocks ∧
    (∀ b ∈ example_blocks, 0 ≤ b.offset) ∧
    example_blocks[7]? = some ⟨80⟩ ∧
    1 ≤ example_cfg.rb_steal_io_size ∧
    (((7 : Nat) : Int) - 1) * (example_cfg.row_block_size : Int) < ((26 : Nat) : Int) ∧
    26 ≤ 7 * example_cfg.row_block_size ∧
    reachable example_cfg example_blocks 26 3 0 1 2 example_gen_stolen ∧
    example_gen_stolen.has_next_io = true ∧
    (∃ r g1, example_gen_stolen.get_next_io example_cfg example_blocks = Except.ok (r, g1) ∧
      r.is_valid = true ∧ 0 < r.num_rows ∧ 0 < r.byte_size ∧ 0 ≤ r.byte_offset ∧
      r.byte_offset + (r.byte_size : Int) ≤ 80) ∧
    (∃ r g1, example_gen_stolen.steal_io example_cfg example_blocks = Except.ok (r, g1) ∧
      r.is_valid = true ∧ 0 < r.num_rows ∧ 0 < r.byte_size ∧ 0 ≤ r.byte_offset ∧
      r.byte_offset + (r.byte_size : Int) ≤ 80) :=
  ⟨by decide, example_blocks_increasing, by decide, by decide, by decide, by decide,
    by decide, example_gen_stolen_reachable, by decide,
    request_well_formed example_cfg example_blocks 7 26 3 0 1 2 example_gen_stolen 80
      (by decide) example_blocks_increasing (by decide) (by decide) (by decide) (by decide)
      (by decide) example_gen_stolen_reachable (by decide)⟩

/-- C10 (row-count invariant of a chunk). Assume
`(N - 1) * row_block_size < tot_num_rows ≤ N * row_block_size`, so that every row block
has `row_block_size` rows except the last, which has
`tot_num_rows - (N - 1) * row_block_size` (the rows of all `N` row blocks add up to
`tot_num_rows`).  Then in every reachable generator state, that is at construction and
after every `get_io` / `get_sub_io`, the field `tot_num_rows` of every chunk is the sum
of the rows of its remaining row blocks
`[first_row_block, first_row_block + num_row_blocks)`, and it is `0` exactly when
`num_row_blocks` is `0`. -/
theorem chunk_row_count (cfg : matrix_config) (blocks : List row_block) (n tot tc : Nat)
    (fid : Int) (gen_id num_gens : Nat) (g : row_io_generator)
    (hn : blocks.length = n + 1)
    (hlo : ((n : Int) - 1) * (cfg.row_block_size : Int) < (tot : Int))
    (hhi : tot ≤ n * cfg.row_block_size)
    (hg : reachable cfg blocks tot tc fid gen_id num_gens g) :
    range_num_rows cfg n tot 0 n = tot ∧
    ∀ c ∈ g.ios,
      c.tot_num_rows = range_num_rows cfg n tot c.first_row_block c.num_row_blocks ∧
      (c.tot_num_rows = 0 ↔ c.num_row_blocks = 0) := by
  refine ⟨range_num_rows_all cfg n tot hlo hhi, ?_⟩
  intro c hc
  have hrows := reachable_rows cfg blocks n tot tc fid gen_id num_gens g hn hlo hhi hg c hc
  obtain ⟨g0, -, hinv⟩ := reachable_inv cfg blocks n tot tc fid gen_id num_gens g hn hg
  obtain ⟨i, hi⟩ := List.mem_iff_getElem?.1 hc
  have hr := hinv.in_range i c hi
  refine ⟨hrows, ?_⟩
  rw [hrows]
  exact range_num_rows_eq_zero cfg n tot hlo hhi _ _ hr

/-- Witness of C10: worker 1 of the example (7 row blocks of 4 rows, 26 rows) after one
row block of its first chunk was stolen. -/
theorem chunk_row_count_witness :
    example_blocks.length = 7 + 1 ∧
    (((7 : Nat) : Int) - 1) * (example_cfg.row_block_size : Int) < ((26 : Nat) : Int) ∧
    26 ≤ 7 * example_cfg.row_block_size ∧
    reachable example_cfg example_blocks 26 3 0 1 2 example_gen_stolen ∧
    range_num_rows example_cfg 7 26 0 7 = 26 ∧
    ∀ c ∈ example_gen_stolen.ios,
      c.tot_num_rows = range_num_rows example_cfg 7 26 c.first_row_block c.num_row_blocks ∧
      (c.tot_num_rows = 0 ↔ c.num_row_blocks = 0) :=
  ⟨by decide, by decide, by decide, example_gen_stolen_reachable,
    chunk_row_count example_cfg example_blocks 7 26 3 0 1 2 example_gen_stolen (by decide)
      (by decide) (by decide) example_gen_stolen_reachable⟩

/-- C11 (ascending service order within one generator). For strictly increasing
offsets, row blocks of at least one row (`row_block_size ≥ 1`) and
`rb_steal_io_size ≥ 1`, every sequence of `get_next_io` / `steal_io` calls from a
reachable generator state runs to its end, and its valid requests, in the order
returned, read non-empty runs `[f, f + m)` of row blocks with strictly increasing first
row block, each run starting at or after the end of the previous one; their byte offsets
are strictly increasing and each byte range starts at or after the end of the previous
one; their top-left rows `f * row_block_size` are strictly increasing.  (`rb_io_size ≥ 1`
holds in every reachable state that has a chunk and is not needed as a hypothesis.) -/
theorem ascending_service_order (cfg : matrix_config) (blocks : List row_block)
    (n tot tc : Nat) (fid : Int) (gen_id num_gens : Nat) (g : row_io_generator)
    (calls : List io_call)
    (hn : blocks.length = n + 1)
    (hinc : offsets_increasing blocks)
    (hrbs : 1 ≤ cfg.row_block_size)
    (hsteal : 1 ≤ cfg.rb_steal_io_size)
    (hg : reachable cfg blocks tot tc fid gen_id num_gens g) :
    ∃ trace, run_calls cfg blocks g calls = Except.ok trace ∧
      (∀ r ∈ (trace.map Prod.fst).filter matrix_io.is_valid,
        ∃ f m, 0 < m ∧ covered_blocks blocks r = List.range' f m ∧
          r.top_left.row_idx = (f : Int) * (cfg.row_block_size : Int) ∧
          blocks[f]? = some ⟨r.byte_offset⟩) ∧
      List.Pairwise (· < ·)
        (((trace.map Prod.fst).filter matrix_io.is_valid).flatMap (covered_blocks blocks)) ∧
      List.Pairwise
        (fun a b => ∃ fa ma fb mb, covered_blocks blocks a = List.range' fa ma ∧
          covered_blocks blocks b = List.range' fb mb ∧ 0 < ma ∧ 0 < mb ∧
          fa < fb ∧ fa + ma ≤ fb)
        ((trace.map Prod.fst).filter matrix_io.is_valid) ∧
      List.Pairwise
        (fun a b => a.byte_offset < b.byte_offset ∧
          a.byte_offset + (a.byte_size : Int) ≤ b.byte_offset)
        ((trace.map Prod.fst).filter matrix_io.is_valid) ∧
      List.Pairwise (fun a b => a.top_left.row_idx < b.top_left.row_idx)
        ((trace.map Prod.fst).filter matrix_io.is_valid) := by
  obtain ⟨g0, -, hinv⟩ := reachable_inv cfg blocks n tot tc fid gen_id num_gens g hn hg
  have hsorted := reachable_sorted cfg blocks n tot tc fid gen_id num_gens g hn hinc hg
  obtain ⟨trace, rest, htr, hblocks, hall⟩ :=
    run_calls_blocks cfg blocks n g0 hn hinc calls g hinv
  rw [← hblocks] at hsorted
  have hs := (List.pairwise_append.1 hsorted).1
  have hpw := (List.pairwise_flatMap.1 hs).2
  have key : ∀ a b, a ∈ (trace.map Prod.fst).filter matrix_io.is_valid →
      b ∈ (trace.map Prod.fst).filter matrix_io.is_valid →
      (∀ x ∈ covered_blocks blocks a, ∀ y ∈ covered_blocks blocks b, x < y) →
      ∃ fa ma fb mb, serves cfg blocks a fa ma ∧ serves cfg blocks b fb mb ∧
        0 < ma ∧ 0 < mb ∧
        (fa < fb ∧ fa + ma ≤ fb) ∧
        (a.byte_offset < b.byte_offset ∧
          a.byte_offset + (a.byte_size : Int) ≤ b.byte_offset) ∧
        a.top_left.row_idx ≤ b.top_left.row_idx ∧
        (1 ≤ cfg.row_block_size → a.top_left.row_idx < b.top_left.row_idx) := by
    intro a b ha hb hlt
    obtain ⟨fa, ma, hsa, hma⟩ := hall a ha
    obtain ⟨fb, mb, hsb, hmb⟩ := hall b hb
    exact ⟨fa, ma, fb, mb, hsa, hsb, hma hsteal, hmb hsteal,
      serves_order cfg blocks hinc a b fa ma fb mb hsa hsb (hma hsteal) (hmb hsteal) hlt⟩
  refine ⟨trace, htr, ?_, hs, ?_, ?_, ?_⟩
  · intro r hr
    obtain ⟨f, m, ⟨hcov, b0, b1, hb0, -, hoff, -, hrow⟩, hm⟩ := hall r hr
    refine ⟨f, m, hm hsteal, hcov, hrow, ?_⟩
    rw [hb0, hoff]
  · refine hpw.imp_of_mem ?_
    intro a b ha hb hlt
    obtain ⟨fa, ma, fb, mb, hsa, hsb, hma, hmb, ⟨h1, h2⟩, -⟩ := key a b ha hb hlt
    exact ⟨fa, ma, fb, mb, hsa.1, hsb.1, hma, hmb, h1, h2⟩
  · refine hpw.imp_of_mem ?_
    intro a b ha hb hlt
    obtain ⟨fa, ma, fb, mb, -, -, -, -, -, h, -⟩ := key a b ha hb hlt
    exact h
  · refine hpw.imp_of_mem ?_
    intro a b ha hb hlt
    obtain ⟨fa, ma, fb, mb, -, -, -, -, -, -, -, h⟩ := key a b ha hb hlt
    exact h hrbs

/-- Witness of C11: one steal, the owner's call, and two more steals on the generator of
worker 1 over the example matrix.  The first three calls return requests for the row
blocks 2, 3 and 6, with top-left rows 8, 12, 24 and byte offsets 25, 30, 61; the last
call returns the empty request. -/
theorem ascending_service_order_witness :
    example_blocks.length = 7 + 1 ∧
    offsets_increasing example_blocks ∧
    1 ≤ example_cfg.row_block_size ∧
    1 ≤ example_cfg.rb_steal_io_size ∧
    reachable example_cfg example_blocks 26 3 0 1 2 example_gen ∧
    ∃ trace,
      run_calls example_cfg example_blocks example_gen
          [io_call.steal, io_call.next, io_call.steal, io_call.steal]
        = Except.ok trace ∧
      ((trace.map Prod.fst).map fun r => (r.is_valid, r.top_left.row_idx, r.byte_offset))
        = [(true, 8, 25), (true, 12, 30), (true, 24, 61), (false, 0, 0)] ∧
      (∀ r ∈ (trace.map Prod.fst).filter matrix_io.is_valid,
        ∃ f m, 0 < m ∧ covered_blocks example_blocks r = List.range' f m ∧
          r.top_left.row_idx = (f : Int) * (example_cfg.row_block_size : Int) ∧
          example_blocks[f]? = some ⟨r.byte_offset⟩) ∧
      List.Pairwise (· < ·)
        (((trace.map Prod.fst).filter matrix_io.is_valid).flatMap
          (covered_blocks example_blocks)) ∧
      List.Pairwise
        (fun a b => ∃ fa ma fb mb, covered_blocks example_blocks a = List.range' fa ma ∧
          covered_blocks example_blocks b = List.range' fb mb ∧ 0 < ma ∧ 0 < mb ∧
          fa < fb ∧ fa + ma ≤ fb)
        ((trace.map Prod.fst).filter matrix_io.is_valid) ∧
      List.Pairwise
        (fun a b => a.byte_offset < b.byte_offset ∧
          a.byte_offset + (a.byte_size : Int) ≤ b.byte_offset)
        ((trace.map Prod.fst).filter matrix_io.is_valid) ∧
      List.Pairwise (fun a b => a.top_left.row_idx < b.top_left.row_idx)
        ((trace.map Prod.fst).filter matrix_io.is_valid) := by
  obtain ⟨trace, htr, h⟩ :=
    ascending_service_order example_cfg example_blocks 7 26 3 0 1 2 example_gen
      [io_call.steal, io_call.next, io_call.steal, io_call.steal] (by decide)
      example_blocks_increasing (by decide) (by decide) example_gen_reachable
  obtain ⟨t, ht, hlist⟩ : ∃ t,
      run_calls example_cfg example_blocks example_gen
          [io_call.steal, io_call.next, io_call.steal, io_call.steal]
        = Except.ok t ∧
      ((t.map Prod.fst).map fun r => (r.is_valid, r.top_left.row_idx, r.byte_offset))
        = [(true, 8, 25), (true, 12, 30), (true, 24, 61), (false, 0, 0)] :=
    ⟨_, rfl, by decide⟩
  rw [htr] at ht
  cases ht
  exact ⟨by decide, example_blocks_increasing, by decide, by decide, example_gen_reachable,
    trace, htr, hlist, h⟩

/-- C12 (the static partition is balanced). For `N` row blocks, `num_gens ≥ 1`,
`rb_io_size ≥ 1` and two generators `g1, g2 < num_gens`, the constructor returns both
generators, their numbers of chunks differ by at most 1, and their numbers of row blocks
(the sum of `num_row_blocks` over the chunks, which is the number of row blocks in their
ranges) differ by at most `rb_io_size`. -/
theorem balanced_partition (cfg : matrix_config) (blocks : List row_block) (n tot tc : Nat)
    (fid : Int) (num_gens g1 g2 : Nat)
    (hn : blocks.length = n + 1)
    (hw : 1 ≤ num_gens)
    (hrb : 1 ≤ cfg.rb_io_size)
    (h1 : g1 < num_gens)
    (h2 : g2 < num_gens) :
    ∃ a b, row_io_generator.create cfg blocks tot tc fid g1 num_gens = some a ∧
      row_io_generator.create cfg blocks tot tc fid g2 num_gens = some b ∧
      a.ios.length ≤ b.ios.length + 1 ∧ b.ios.length ≤ a.ios.length + 1 ∧
      a.num_blocks = a.block_range.length ∧ b.num_blocks = b.block_range.length ∧
      a.num_blocks ≤ b.num_blocks + cfg.rb_io_size ∧
      b.num_blocks ≤ a.num_blocks + cfg.rb_io_size := by
  obtain ⟨a, ka, ha, hka, hlta, hgea, hra, hza, hpa⟩ :=
    create_num_blocks cfg blocks n tot tc fid g1 num_gens hn hrb hw
  obtain ⟨b, kb, hb, hkb, hltb, hgeb, hrb2, hzb, hpb⟩ :=
    create_num_blocks cfg blocks n tot tc fid g2 num_gens hn hrb hw
  have hab := balance_arith n cfg.rb_io_size num_gens g1 g2 ka kb hrb h2 hlta hgea hltb hgeb
  have hba := balance_arith n cfg.rb_io_size num_gens g2 g1 kb ka hrb h1 hltb hgeb hlta hgea
  have ea : a.num_blocks = if ka = 0 then 0 else (ka - 1) * cfg.rb_io_size
      + min cfg.rb_io_size (n - (g1 + (ka - 1) * num_gens) * cfg.rb_io_size) := by
    split
    · exact hza (by assumption)
    · exact hpa (by omega)
  have eb : b.num_blocks = if kb = 0 then 0 else (kb - 1) * cfg.rb_io_size
      + min cfg.rb_io_size (n - (g2 + (kb - 1) * num_gens) * cfg.rb_io_size) := by
    split
    · exact hzb (by assumption)
    · exact hpb (by omega)
  refine ⟨a, b, ha, hb, ?_, ?_, hra, hrb2, ?_, ?_⟩
  · rw [hka, hkb]; exact hab.1
  · rw [hka, hkb]; exact hba.1
  · rw [ea, eb]; exact hab.2
  · rw [ea, eb]; exact hba.2

/-- Witness of C12: the two workers of the example (seven row blocks, chunks of two). -/
theorem balanced_partition_witness :
    example_blocks.length = 7 + 1 ∧ 1 ≤ 2 ∧ 1 ≤ example_cfg.rb_io_size ∧ 0 < 2 ∧ 1 < 2 ∧
    ∃ a b, row_io_generator.create example_cfg example_blocks 26 3 0 0 2 = some a ∧
      row_io_generator.create example_cfg example_blocks 26 3 0 1 2 = some b ∧
      a.ios.length ≤ b.ios.length + 1 ∧ b.ios.length ≤ a.ios.length + 1 ∧
      a.num_blocks = a.block_range.length ∧ b.num_blocks = b.block_range.length ∧
      a.num_blocks ≤ b.num_blocks + example_cfg.rb_io_size ∧
      b.num_blocks ≤ a.num_blocks + example_cfg.rb_io_size :=
  ⟨by decide, by decide, by decide, by decide, by decide,
    balanced_partition example_cfg example_blocks 7 26 3 0 2 0 1 (by decide) (by decide)
      (by decide) (by decide) (by decide)⟩

/-- C13 (multiply equivalence of the layout kernels). Let the inputs of `test_MM2`
(`A` by rows, `B` by columns) and of `test_MM3` (`A` and `B` by columns) hold the same
logical matrices `A` (`nrow x ncol`) and `B` (`ncol x right_ncol`), with entries of any
type with any `0`, `+` and `*`, and `sizeof(Type) ≥ 1`.  Then the two results have the
same numbers of rows and columns and are equal at every `(i, j)`: both kernels
accumulate `A(i,k) * B(k,j)` in the order `k = 0, ..., ncol - 1` starting from `0`. -/
theorem multiply_equivalence {α : Type} [Zero α] [Add α] [Mul α]
    (sz nrow ncol right_ncol : Nat) (a_rows a_cols b_cols b_cols3 res2 res3 : Nat → α)
    (hsz : 1 ≤ sz)
    (hA : ∀ i, i < nrow → ∀ k, k < ncol →
      (type_mem_dense_matrix.create sz nrow ncol matrix_layout_t.L_ROW a_rows).get i k
        = (type_mem_dense_matrix.create sz nrow ncol matrix_layout_t.L_COL a_cols).get i k)
    (hB : ∀ k, k < ncol → ∀ j, j < right_ncol →
      (type_mem_dense_matrix.create sz ncol right_ncol matrix_layout_t.L_COL b_cols).get k j
        = (type_mem_dense_matrix.create sz ncol right_ncol matrix_layout_t.L_COL
            b_cols3).get k j) :
    (test_MM2 sz nrow ncol right_ncol a_rows b_cols res2).get_num_rows
      = (test_MM3 sz nrow ncol right_ncol a_cols b_cols3 res3).get_num_rows ∧
    (test_MM2 sz nrow ncol right_ncol a_rows b_cols res2).get_num_cols
      = (test_MM3 sz nrow ncol right_ncol a_cols b_cols3 res3).get_num_cols ∧
    ∀ i, i < nrow → ∀ j, j < right_ncol →
      (test_MM2 sz nrow ncol right_ncol a_rows b_cols res2).get i j
        = (test_MM3 sz nrow ncol right_ncol a_cols b_cols3 res3).get i j ∧
      (test_MM2 sz nrow ncol right_ncol a_rows b_cols res2).get i j
        = dot_in_order ncol
            (fun k => (type_mem_dense_matrix.create sz nrow ncol matrix_layout_t.L_ROW
              a_rows).get i k)
            (fun k => (type_mem_dense_matrix.create sz ncol right_ncol matrix_layout_t.L_COL
              b_cols).get k j) := by
  refine ⟨rfl, rfl, ?_⟩
  intro i hi j hj
  rw [test_MM2_get sz nrow ncol right_ncol a_rows b_cols res2 hsz i j hi hj,
    test_MM3_get sz nrow ncol right_ncol a_cols b_cols3 res3 hsz i j hi hj]
  refine ⟨?_, rfl⟩
  exact dot_in_order_congr ncol _ _ _ _ (fun k hk => hA i hi k hk) (fun k hk => hB k hk j hj)

/-- Witness of C13: the matrix with rows `[1,2],[3,4]`, stored by rows and by columns,
times the column `[1,1]`, over the integers with eight-byte entries. -/
theorem multiply_equivalence_witness :
    1 ≤ 8 ∧
    (∀ i, i < 2 → ∀ k, k < 2 →
      (type_mem_dense_matrix.create 8 2 2 matrix_layout_t.L_ROW
          (buffer_of [1, 2, 3, 4])).get i k
        = (type_mem_dense_matrix.create 8 2 2 matrix_layout_t.L_COL
            (buffer_of [1, 3, 2, 4])).get i k) ∧
    (∀ k, k < 2 → ∀ j, j < 1 →
      (type_mem_dense_matrix.create 8 2 1 matrix_layout_t.L_COL (buffer_of [1, 1])).get k j
        = (type_mem_dense_matrix.create 8 2 1 matrix_layout_t.L_COL
            (buffer_of [1, 1])).get k j) ∧
    (test_MM2 8 2 2 1 (buffer_of [1, 2, 3, 4]) (buffer_of [1, 1]) (buffer_of [])).get_num_rows
      = (test_MM3 8 2 2 1 (buffer_of [1, 3, 2, 4]) (buffer_of [1, 1])
          (buffer_of [])).get_num_rows ∧
    (test_MM2 8 2 2 1 (buffer_of [1, 2, 3, 4]) (buffer_of [1, 1]) (buffer_of [])).get_num_cols
      = (test_MM3 8 2 2 1 (buffer_of [1, 3, 2, 4]) (buffer_of [1, 1])
          (buffer_of [])).get_num_cols ∧
    ∀ i, i < 2 → ∀ j, j < 1 →
      (test_MM2 8 2 2 1 (buffer_of [1, 2, 3, 4]) (buffer_of [1, 1]) (buffer_of [])).get i j
        = (test_MM3 8 2 2 1 (buffer_of [1, 3, 2, 4]) (buffer_of [1, 1])
            (buffer_of [])).get i j ∧
      (test_MM2 8 2 2 1 (buffer_of [1, 2, 3, 4]) (buffer_of [1, 1]) (buffer_of [])).get i j
        = dot_in_order 2
            (fun k => (type_mem_dense_matrix.create 8 2 2 matrix_layout_t.L_ROW
              (buffer_of [1, 2, 3, 4])).get i k)
            (fun k => (type_mem_dense_matrix.create 8 2 1 matrix_layout_t.L_COL
              (buffer_of [1, 1])).get k j) :=
  ⟨by decide, by decide, by decide,
    multiply_equivalence 8 2 2 1 (buffer_of [1, 2, 3, 4]) (buffer_of [1, 3, 2, 4])
      (buffer_of [1, 1]) (buffer_of [1, 1]) (buffer_of []) (buffer_of []) (by decide)
      (by decide) (by decide)⟩

/-- C14 (the row-major multiply kernel computes the matrix product). Over exact
arithmetic (any semiring, such as the integers or the rationals), for a row-major `A`
(`nrow x ncol`), a column-major `B` (`ncol x right_ncol`) and `sizeof(Type) ≥ 1`, the
result of `test_MM2` has `nrow` rows and `right_ncol` columns, is row-major, and holds
at every `(i, j)` with `i < nrow` and `j < right_ncol` the sum over `k < ncol` of
`A(i,k) * B(k,j)`, which is `0` when `ncol = 0`. -/
theorem row_kernel_product {α : Type} [Semiring α] (sz nrow ncol right_ncol : Nat)
    (a_rows b_cols res : Nat → α)
    (hsz : 1 ≤ sz) :
    (test_MM2 sz nrow ncol right_ncol a_rows b_cols res).get_num_rows = nrow ∧
    (test_MM2 sz nrow ncol right_ncol a_rows b_cols res).get_num_cols = right_ncol ∧
    (test_MM2 sz nrow ncol right_ncol a_rows b_cols res).m.store_layout
      = matrix_layout_t.L_ROW ∧
    ∀ i, i < nrow → ∀ j, j < right_ncol →
      (test_MM2 sz nrow ncol right_ncol a_rows b_cols res).get i j
        = ∑ k in Finset.range ncol,
            (type_mem_dense_matrix.create sz nrow ncol matrix_layout_t.L_ROW a_rows).get i k
              * (type_mem_dense_matrix.create sz ncol right_ncol matrix_layout_t.L_COL
                  b_cols).get k j ∧
      (ncol = 0 → (test_MM2 sz nrow ncol right_ncol a_rows b_cols res).get i j = 0) := by
  refine ⟨rfl, rfl, rfl, ?_⟩
  intro i hi j hj
  have h := test_MM2_get sz nrow ncol right_ncol a_rows b_cols res hsz i j hi hj
  rw [dot_in_order_eq_sum] at h
  refine ⟨h, ?_⟩
  rintro rfl
  rw [h]
  simp

/-- Witness of C14: the matrix with rows `[1,2],[3,4]` times the column `[1,1]`, over
the integers with eight-byte entries. -/
theorem row_kernel_product_witness :
    1 ≤ 8 ∧
    (test_MM2 8 2 2 1 (buffer_of [1, 2, 3, 4]) (buffer_of [1, 1]) (buffer_of [])).get_num_rows
      = 2 ∧
    (test_MM2 8 2 2 1 (buffer_of [1, 2, 3, 4]) (buffer_of [1, 1]) (buffer_of [])).get_num_cols
      = 1 ∧
    (test_MM2 8 2 2 1 (buffer_of [1, 2, 3, 4]) (buffer_of [1, 1])
      (buffer_of [])).m.store_layout = matrix_layout_t.L_ROW ∧
    ∀ i, i < 2 → ∀ j, j < 1 →
      (test_MM2 8 2 2 1 (buffer_of [1, 2, 3, 4]) (buffer_of [1, 1]) (buffer_of [])).get i j
        = ∑ k in Finset.range 2,
            (type_mem_dense_matrix.create 8 2 2 matrix_layout_t.L_ROW
                (buffer_of [1, 2, 3, 4])).get i k
              * (type_mem_dense_matrix.create 8 2 1 matrix_layout_t.L_COL
                  (buffer_of [1, 1])).get k j ∧
      (2 = 0 → (test_MM2 8 2 2 1 (buffer_of [1, 2, 3, 4]) (buffer_of [1, 1])
        (buffer_of [])).get i j = 0) :=
  ⟨by decide, row_kernel_product 8 2 2 1 (buffer_of [1, 2, 3, 4]) (buffer_of [1, 1])
    (buffer_of []) (by decide)⟩

/-- C15 (concrete scenario). The kernel of `test_MM2`, run over the integers on the
`6 x 2` row-major matrix with rows `[1,2],[3,4],[5,6],[7,8],[9,10],[11,12]` and the
`2 x 1` column `[1,1]`, leaves the `6 x 1` result `[3,7,11,15,19,23]`, whatever the
result buffer held before. -/
theorem concrete_scenario (res : Nat → Int) :
    (test_MM2 8 6 2 1 (buffer_of [1, 2, 3, 4, 5, 6, 7, 8, 9, 10, 11, 12]) (buffer_of [1, 1])
      res).get_num_rows = 6 ∧
    (test_MM2 8 6 2 1 (buffer_of [1, 2, 3, 4, 5, 6, 7, 8, 9, 10, 11, 12]) (buffer_of [1, 1])
      res).get_num_cols = 1 ∧
    (List.range 6).map
        (fun i => (type_mem_dense_matrix.create 8 6 2 matrix_layout_t.L_ROW
          (buffer_of [1, 2, 3, 4, 5, 6, 7, 8, 9, 10, 11, 12])).get i 0)
      = [1, 3, 5, 7, 9, 11] ∧
    (List.range 6).map
        (fun i => (type_mem_dense_matrix.create 8 6 2 matrix_layout_t.L_ROW
          (buffer_of [1, 2, 3, 4, 5, 6, 7, 8, 9, 10, 11, 12])).get i 1)
      = [2, 4, 6, 8, 10, 12] ∧
    (List.range 2).map
        (fun k => (type_mem_dense_matrix.create 8 2 1 matrix_layout_t.L_COL
          (buffer_of [1, 1])).get k 0)
      = [1, 1] ∧
    (List.range 6).map
        (fun i => (test_MM2 8 6 2 1 (buffer_of [1, 2, 3, 4, 5, 6, 7, 8, 9, 10, 11, 12])
          (buffer_of [1, 1]) res).get i 0)
      = [3, 7, 11, 15, 19, 23] := by
  refine ⟨rfl, rfl, by decide, by decide, by decide, ?_⟩
  have h : ∀ i, i < 6 →
      (test_MM2 8 6 2 1 (buffer_of [1, 2, 3, 4, 5, 6, 7, 8, 9, 10, 11, 12])
        (buffer_of [1, 1]) res).get i 0
      = dot_in_order 2
          (fun k => (type_mem_dense_matrix.create 8 6 2 matrix_layout_t.L_ROW
            (buffer_of [1, 2, 3, 4, 5, 6, 7, 8, 9, 10, 11, 12])).get i k)
          (fun k => (type_mem_dense_matrix.create 8 2 1 matrix_layout_t.L_COL
            (buffer_of [1, 1])).get k 0) :=
    fun i hi => test_MM2_get 8 6 2 1 _ _ res (by decide) i 0 hi (by decide)
  simp only [List.range, List.range.loop, List.map_cons, List.map_nil]
  rw [h 0 (by decide), h 1 (by decide), h 2 (by decide), h 3 (by decide), h 4 (by decide),
    h 5 (by decide)]
  decide

/-- C16 (transpose round trip). For every matrix `A` in either layout and every shape,
`transpose(transpose(A))` is `A` again: it has the layout, the numbers of rows and
columns and the entry size of `A`, and the same value as `A` at every position
`(r, c)`.  The transposed matrix itself has the numbers of rows and columns exchanged,
the other layout, and the value of `A` at `(r, c)` in its position `(c, r)`. -/
theorem transpose_round_trip {α : Type} (t : type_mem_dense_matrix α) :
    t.transpose.transpose = t ∧
    t.transpose.transpose.get_num_rows = t.get_num_rows ∧
    t.transpose.transpose.get_num_cols = t.get_num_cols ∧
    t.transpose.transpose.m.store_layout = t.m.store_layout ∧
    (∀ r c, t.transpose.transpose.get r c = t.get r c) ∧
    t.transpose.get_num_rows = t.get_num_cols ∧
    t.transpose.get_num_cols = t.get_num_rows ∧
    t.transpose.m.store_layout ≠ t.m.store_layout ∧
    ∀ r c, t.transpose.get c r = t.get r c := by
  obtain ⟨m⟩ := t
  cases m with
  | row m =>
    refine ⟨rfl, rfl, rfl, rfl, fun _ _ => rfl, rfl, rfl, ?_, fun _ _ => rfl⟩
    simp [type_mem_dense_matrix.transpose, mem_dense_matrix.transpose,
      mem_dense_matrix.store_layout]
  | col m =>
    refine ⟨rfl, rfl, rfl, rfl, fun _ _ => rfl, rfl, rfl, ?_, fun _ _ => rfl⟩
    simp [type_mem_dense_matrix.transpose, mem_dense_matrix.transpose,
      mem_dense_matrix.store_layout]

/-- C17 (element set/get is layout-independent and aliasing-free). For both layouts,
every shape `nrow x ncol`, entry size at least 1, `r < nrow`, `c < ncol` and value `v`:
the pointer computed by `get(r, c)` is at byte offset `(r * ncol + c) * entry_size` for
the row-major layout and `(c * nrow + r) * entry_size` for the column-major one; the
entry lies inside the buffer of `nrow * ncol * entry_size` bytes; no other in-range
position has the same offset; after `set(r, c, v)`, `get(r, c)` returns `v` and
`get(r1, c1)` is unchanged for every other in-range `(r1, c1)`; the shape and the layout
are unchanged. -/
theorem set_get_frame {α : Type} (t : type_mem_dense_matrix α) (r c : Nat) (v : α)
    (hsz : 1 ≤ t.m.get_entry_size)
    (hr : r < t.get_num_rows)
    (hc : c < t.get_num_cols) :
    (t.m.store_layout = matrix_layout_t.L_ROW →
      t.m.get r c = (r * t.get_num_cols + c) * t.m.get_entry_size) ∧
    (t.m.store_layout = matrix_layout_t.L_COL →
      t.m.get r c = (c * t.get_num_rows + r) * t.m.get_entry_size) ∧
    t.m.alloc_size = t.get_num_rows * t.get_num_cols * t.m.get_entry_size ∧
    t.m.get r c + t.m.get_entry_size ≤ t.m.alloc_size ∧
    (∀ r1, r1 < t.get_num_rows → ∀ c1, c1 < t.get_num_cols →
      t.m.get r1 c1 = t.m.get r c → r1 = r ∧ c1 = c) ∧
    (t.set r c v).get r c = v ∧
    (∀ r1, r1 < t.get_num_rows → ∀ c1, c1 < t.get_num_cols → ¬ (r1 = r ∧ c1 = c) →
      (t.set r c v).get r1 c1 = t.get r1 c1) ∧
    (t.set r c v).get_num_rows = t.get_num_rows ∧
    (t.set r c v).get_num_cols = t.get_num_cols ∧
    (t.set r c v).m.store_layout = t.m.store_layout := by
  obtain ⟨m⟩ := t
  cases m with
  | row m =>
    simp only [type_mem_dense_matrix.get_num_rows, type_mem_dense_matrix.get_num_cols,
      mem_dense_matrix.get_num_rows, mem_dense_matrix.get_num_cols,
      mem_dense_matrix.get_entry_size] at hsz hr hc
    have hinj : ∀ r1, r1 < m.nrow → ∀ c1, c1 < m.ncol →
        m.get r1 c1 = m.get r c → r1 = r ∧ c1 = c := fun r1 _ c1 hc1 h =>
      row_addr_inj m.entry_size m.ncol hsz r1 c1 r c hc1 hc h
    refine ⟨?_, ?_, rfl, ?_, hinj, ?_, ?_, rfl, rfl, rfl⟩
    · intro _
      simp only [mem_dense_matrix.get, mem_row_dense_matrix.get, mem_row_dense_matrix.get_row,
        type_mem_dense_matrix.get_num_cols, mem_dense_matrix.get_num_cols,
        mem_dense_matrix.get_entry_size]
      ring
    · intro h; cases h
    · exact get_in_buffer m.entry_size m.nrow m.ncol r c hr hc
    · rw [set_get_value, if_pos rfl]
    · intro r1 hr1 c1 hc1 hne
      rw [set_get_value]
      exact if_neg (fun h => hne (hinj r1 hr1 c1 hc1 h))
  | col m =>
    simp only [type_mem_dense_matrix.get_num_rows, type_mem_dense_matrix.get_num_cols,
      mem_dense_matrix.get_num_rows, mem_dense_matrix.get_num_cols,
      mem_dense_matrix.get_entry_size] at hsz hr hc
    have hinj : ∀ r1, r1 < m.nrow → ∀ c1, c1 < m.ncol →
        m.get r1 c1 = m.get r c → r1 = r ∧ c1 = c := fun r1 hr1 c1 _ h =>
      col_addr_inj m.entry_size m.nrow hsz r1 c1 r c hr1 hr h
    refine ⟨?_, ?_, rfl, ?_, hinj, ?_, ?_, rfl, rfl, rfl⟩
    · intro h; cases h
    · intro _
      simp only [mem_dense_matrix.get, mem_col_dense_matrix.get, mem_col_dense_matrix.get_col,
        type_mem_dense_matrix.get_num_rows, mem_dense_matrix.get_num_rows,
        mem_dense_matrix.get_entry_size]
      ring
    · have := get_in_buffer m.entry_size m.ncol m.nrow c r hc hr
      simp only [mem_dense_matrix.get, mem_col_dense_matrix.get, mem_col_dense_matrix.get_col,
        mem_dense_matrix.get_entry_size, mem_dense_matrix.alloc_size,
        mem_col_dense_matrix.alloc_size]
      rw [Nat.mul_comm m.nrow m.ncol]
      exact this
    · rw [set_get_value, if_pos rfl]
    · intro r1 hr1 c1 hc1 hne
      rw [set_get_value]
      exact if_neg (fun h => hne (hinj r1 hr1 c1 hc1 h))

/-- Witness of C17: setting entry `(1, 0)` of the column-major `2 x 2` integer matrix with
rows `[1,2],[3,4]` to `9`. -/
theorem set_get_frame_witness :
    1 ≤ example_col_matrix.m.get_entry_size ∧
    1 < example_col_matrix.get_num_rows ∧
    0 < example_col_matrix.get_num_cols ∧
    (example_col_matrix.m.store_layout = matrix_layout_t.L_ROW →
      example_col_matrix.m.get 1 0
        = (1 * example_col_matrix.get_num_cols + 0) * example_col_matrix.m.get_entry_size) ∧
    (example_col_matrix.m.store_layout = matrix_layout_t.L_COL →
      example_col_matrix.m.get 1 0
        = (0 * example_col_matrix.get_num_rows + 1) * example_col_matrix.m.get_entry_size) ∧
    example_col_matrix.m.alloc_size
      = example_col_matrix.get_num_rows * example_col_matrix.get_num_cols
        * example_col_matrix.m.get_entry_size ∧
    example_col_matrix.m.get 1 0 + example_col_matrix.m.get_entry_size
      ≤ example_col_matrix.m.alloc_size ∧
    (∀ r1, r1 < example_col_matrix.get_num_rows → ∀ c1, c1 < example_col_matrix.get_num_cols →
      example_col_matrix.m.get r1 c1 = example_col_matrix.m.get 1 0 → r1 = 1 ∧ c1 = 0) ∧
    (example_col_matrix.set 1 0 9).get 1 0 = 9 ∧
    (∀ r1, r1 < example_col_matrix.get_num_rows → ∀ c1, c1 < example_col_matrix.get_num_cols →
      ¬ (r1 = 1 ∧ c1 = 0) →
      (example_col_matrix.set 1 0 9).get r1 c1 = example_col_matrix.get r1 c1) ∧
    (example_col_matrix.set 1 0 9).get_num_rows = example_col_matrix.get_num_rows ∧
    (example_col_matrix.set 1 0 9).get_num_cols = example_col_matrix.get_num_cols ∧
    (example_col_matrix.set 1 0 9).m.store_layout = example_col_matrix.m.store_layout :=
  ⟨by decide, by decide, by decide,
    set_get_frame example_col_matrix 1 0 9 (by decide) (by decide) (by decide)⟩

/-- C18 (aggregate type mismatch). For every matrix, operator and result variable, if
the declared output type of the operator cannot represent a scalar of the element type
of the matrix, `aggregate` returns false and leaves the result variable passed by the
caller unchanged, and `matrix_agg` returns `R_NilValue`. -/
theorem aggregate_type_mismatch {α : Type} (represents : prim_type → prim_type → Bool)
    (elem_type : prim_type) (entries : List α) (op : bulk_operate) (f : α → α → α)
    (res : scalar_variable α)
    (hmis : represents op.output_type elem_type = false) :
    (aggregate represents elem_type entries op f res).1 = false ∧
    (aggregate represents elem_type entries op f res).2 = res ∧
    matrix_agg represents elem_type entries op f res = none := by
  simp [aggregate, matrix_agg, hmis]

/-- Witness of C18: a comparison operator with `bool` output on a matrix of `double`
entries, where "can represent" is read as "at least as wide". -/
theorem aggregate_type_mismatch_witness :
    represents_by_size
      (bulk_operate.mk basic_op.add prim_type.P_DOUBLE prim_type.P_DOUBLE
        prim_type.P_BOOL).output_type prim_type.P_DOUBLE = false ∧
    (aggregate represents_by_size prim_type.P_DOUBLE [1, 2, 3]
      (bulk_operate.mk basic_op.add prim_type.P_DOUBLE prim_type.P_DOUBLE prim_type.P_BOOL)
      (fun x y : Int => x + y) ⟨prim_type.P_DOUBLE, 7⟩).1 = false ∧
    (aggregate represents_by_size prim_type.P_DOUBLE [1, 2, 3]
      (bulk_operate.mk basic_op.add prim_type.P_DOUBLE prim_type.P_DOUBLE prim_type.P_BOOL)
      (fun x y : Int => x + y) ⟨prim_type.P_DOUBLE, 7⟩).2 = ⟨prim_type.P_DOUBLE, 7⟩ ∧
    matrix_agg represents_by_size prim_type.P_DOUBLE [1, 2, 3]
      (bulk_operate.mk basic_op.add prim_type.P_DOUBLE prim_type.P_DOUBLE prim_type.P_BOOL)
      (fun x y : Int => x + y) ⟨prim_type.P_DOUBLE, 7⟩ = none :=
  ⟨by decide,
    aggregate_type_mismatch represents_by_size prim_type.P_DOUBLE [1, 2, 3]
      (bulk_operate.mk basic_op.add prim_type.P_DOUBLE prim_type.P_DOUBLE prim_type.P_BOOL)
      (fun x y : Int => x + y) ⟨prim_type.P_DOUBLE, 7⟩ (by decide)⟩

/-- C19, as stated, fails: for two `2 x 2` matrices of one-byte `bool` entries
`get_inner_prod_left_ops` ends in `abort()`, so `R_FM_multiply_dense` terminates the
process instead of returning the product or `R_NilValue`. -/
theorem multiply_dense_counterexample :
    get_inner_prod_left_ops ⟨2, 2, prim_type.P_BOOL.get_size⟩ ⟨2, 2, prim_type.P_BOOL.get_size⟩
      = Except.error process_exit.aborted ∧
    R_FM_multiply_dense spec_inner_prod false ⟨2, 2, prim_type.P_BOOL.get_size⟩
        ⟨2, 2, prim_type.P_BOOL.get_size⟩
      = Except.error process_exit.aborted ∧
    ¬ ∃ v, R_FM_multiply_dense spec_inner_prod false ⟨2, 2, prim_type.P_BOOL.get_size⟩
        ⟨2, 2, prim_type.P_BOOL.get_size⟩ = Except.ok v := by
  refine ⟨rfl, rfl, ?_⟩
  rintro ⟨v, hv⟩
  have h : R_FM_multiply_dense spec_inner_prod false ⟨2, 2, prim_type.P_BOOL.get_size⟩
      ⟨2, 2, prim_type.P_BOOL.get_size⟩ = Except.error process_exit.aborted := rfl
  rw [h] at hv
  cases hv

/-- C19, amended. For every pair of dense operands whose entry sizes are each
`sizeof(int) = 4` or `sizeof(double) = 8`, whatever `inner_prod` does,
`R_FM_multiply_dense` does not terminate the process: it returns the product (as a
vector or a matrix) when `inner_prod` returns one, and `R_NilValue` when `inner_prod`
returns null, as for inner dimensions that differ.  For every other pair of entry sizes,
such as a one-byte `bool` operand, `get_inner_prod_left_ops` calls `abort()`. -/
theorem multiply_dense_outcome
    (inner_prod : dense_matrix → dense_matrix → bulk_operate → bulk_operate →
      Option dense_matrix)
    (is_vec : Bool) (matrix right_mat : dense_matrix) :
    ((matrix.entry_size = 4 ∨ matrix.entry_size = 8) ∧
        (right_mat.entry_size = 4 ∨ right_mat.entry_size = 8) →
      ∃ lops, get_inner_prod_left_ops matrix right_mat = Except.ok lops ∧
        get_inner_prod_right_ops lops.get_multiply = Except.ok R_basic_ops_DD ∧
        (∀ prod, inner_prod matrix right_mat lops.get_multiply R_basic_ops_DD.get_add
            = some prod →
          R_FM_multiply_dense inner_prod is_vec matrix right_mat
            = Except.ok (if is_vec then SEXP.FMR_vector prod else SEXP.FMR_matrix prod)) ∧
        (inner_prod matrix right_mat lops.get_multiply R_basic_ops_DD.get_add = none →
          R_FM_multiply_dense inner_prod is_vec matrix right_mat
            = Except.ok SEXP.R_NilValue)) ∧
    (¬ ((matrix.entry_size = 4 ∨ matrix.entry_size = 8) ∧
        (right_mat.entry_size = 4 ∨ right_mat.entry_size = 8)) →
      R_FM_multiply_dense inner_prod is_vec matrix right_mat
        = Except.error process_exit.aborted) := by
  constructor
  · intro hsz
    obtain ⟨lops, hl, hr⟩ := left_ops_supported matrix right_mat hsz.1 hsz.2
    refine ⟨lops, hl, hr, ?_, ?_⟩
    · intro prod hp
      rw [multiply_dense_run inner_prod is_vec matrix right_mat lops R_basic_ops_DD hl hr, hp]
      cases is_vec <;> rfl
    · intro hp
      rw [multiply_dense_run inner_prod is_vec matrix right_mat lops R_basic_ops_DD hl hr, hp]
  · intro hsz
    have hl := left_ops_unsupported matrix right_mat hsz
    simp only [R_FM_multiply_dense, hl]

/-- Witness of C19, amended: an `int` matrix times a `double` matrix, once with matching
inner dimensions and once without, and a `bool` matrix. -/
theorem multiply_dense_outcome_witness :
    R_FM_multiply_dense spec_inner_prod false ⟨2, 3, 4⟩ ⟨3, 2, 8⟩
      = Except.ok (SEXP.FMR_matrix ⟨2, 2, 8⟩) ∧
    R_FM_multiply_dense spec_inner_prod false ⟨2, 3, 4⟩ ⟨2, 2, 8⟩
      = Except.ok SEXP.R_NilValue ∧
    R_FM_multiply_dense spec_inner_prod false ⟨2, 3, 1⟩ ⟨3, 2, 8⟩
      = Except.error process_exit.aborted :=
  ⟨by
      obtain ⟨lops, hl, -, h, -⟩ :=
        (multiply_dense_outcome spec_inner_prod false ⟨2, 3, 4⟩ ⟨3, 2, 8⟩).1 (by decide)
      cases hl
      exact h ⟨2, 2, 8⟩ rfl,
    by
      obtain ⟨lops, hl, -, -, h⟩ :=
        (multiply_dense_outcome spec_inner_prod false ⟨2, 3, 4⟩ ⟨2, 2, 8⟩).1 (by decide)
      cases hl
      exact h rfl,
    (multiply_dense_outcome spec_inner_prod false ⟨2, 3, 1⟩ ⟨3, 2, 8⟩).2 (by decide)⟩

/-- C20 (operator selection for dense multiply promotes to double). For each of the four
combinations of `int` and `double` operands (entry sizes 4 and 8),
`get_inner_prod_left_ops` selects the set of operators whose multiply operator has the
element types of the left and the right operand as operand types and `double` as output
type (`int` by `int` uses `R_basic_ops_IID`), and `get_inner_prod_right_ops` then
selects `R_basic_ops_DD`, whose add operator takes and returns `double`: the operand
type of the add operator is the output type of the multiply operator, and the entries
of the product are `double`. -/
theorem operator_selection (left_type right_type : prim_type) (matrix right_mat : dense_matrix)
    (hlt : left_type = prim_type.P_INTEGER ∨ left_type = prim_type.P_DOUBLE)
    (hrt : right_type = prim_type.P_INTEGER ∨ right_type = prim_type.P_DOUBLE)
    (hl : matrix.get_entry_size = left_type.get_size)
    (hr : right_mat.get_entry_size = right_type.get_size) :
    ∃ lops rops,
      get_inner_prod_left_ops matrix right_mat = Except.ok lops ∧
      lops.get_multiply.op = basic_op.multiply ∧
      lops.get_multiply.left_type = left_type ∧
      lops.get_multiply.right_type = right_type ∧
      lops.get_multiply.output_type = prim_type.P_DOUBLE ∧
      (left_type = prim_type.P_INTEGER → right_type = prim_type.P_INTEGER →
        lops = R_basic_ops_IID) ∧
      get_inner_prod_right_ops lops.get_multiply = Except.ok rops ∧
      rops = R_basic_ops_DD ∧
      rops.get_add.op = basic_op.add ∧
      rops.get_add.left_type = prim_type.P_DOUBLE ∧
      rops.get_add.right_type = prim_type.P_DOUBLE ∧
      rops.get_add.output_type = prim_type.P_DOUBLE ∧
      rops.get_add.left_type = lops.get_multiply.output_type ∧
      rops.get_add.right_type = lops.get_multiply.output_type ∧
      (∀ prod, spec_inner_prod matrix right_mat lops.get_multiply rops.get_add = some prod →
        prod.entry_size = prim_type.P_DOUBLE.get_size) := by
  obtain ⟨n1, c1, e1⟩ := matrix
  obtain ⟨n2, c2, e2⟩ := right_mat
  simp only [dense_matrix.get_entry_size] at hl hr
  subst hl hr
  have hprod : ∀ (a b : dense_matrix) (o : bulk_operate) (prod : dense_matrix),
      spec_inner_prod a b o R_basic_ops_DD.get_add = some prod →
      prod.entry_size = prim_type.P_DOUBLE.get_size := by
    intro a b o prod h
    simp only [spec_inner_prod] at h
    split at h
    · cases h; rfl
    · cases h
  rcases hlt with rfl | rfl <;> rcases hrt with rfl | rfl
  · exact ⟨R_basic_ops_IID, R_basic_ops_DD, rfl, rfl, rfl, rfl, rfl, fun _ _ => rfl, rfl, rfl,
      rfl, rfl, rfl, rfl, rfl, rfl, hprod _ _ _⟩
  · exact ⟨R_basic_ops_ID, R_basic_ops_DD, rfl, rfl, rfl, rfl, rfl,
      (fun _ h => by cases h), rfl, rfl, rfl, rfl, rfl, rfl, rfl, rfl, hprod _ _ _⟩
  · exact ⟨R_basic_ops_DI, R_basic_ops_DD, rfl, rfl, rfl, rfl, rfl,
      (fun h _ => by cases h), rfl, rfl, rfl, rfl, rfl, rfl, rfl, rfl, hprod _ _ _⟩
  · exact ⟨R_basic_ops_DD, R_basic_ops_DD, rfl, rfl, rfl, rfl, rfl,
      (fun h _ => by cases h), rfl, rfl, rfl, rfl, rfl, rfl, rfl, rfl, hprod _ _ _⟩

/-- Witness of C20: an `int` matrix of shape `2 x 3` times a `double` matrix of shape
`3 x 2`. -/
theorem operator_selection_witness :
    (prim_type.P_INTEGER = prim_type.P_INTEGER ∨ prim_type.P_INTEGER = prim_type.P_DOUBLE) ∧
    (prim_type.P_DOUBLE = prim_type.P_INTEGER ∨ prim_type.P_DOUBLE = prim_type.P_DOUBLE) ∧
    (dense_matrix.mk 2 3 4).get_entry_size = prim_type.P_INTEGER.get_size ∧
    (dense_matrix.mk 3 2 8).get_entry_size = prim_type.P_DOUBLE.get_size ∧
    ∃ lops rops,
      get_inner_prod_left_ops ⟨2, 3, 4⟩ ⟨3, 2, 8⟩ = Except.ok lops ∧
      lops.get_multiply.op = basic_op.multiply ∧
      lops.get_multiply.left_type = prim_type.P_INTEGER ∧
      lops.get_multiply.right_type = prim_type.P_DOUBLE ∧
      lops.get_multiply.output_type = prim_type.P_DOUBLE ∧
      (prim_type.P_INTEGER = prim_type.P_INTEGER → prim_type.P_DOUBLE = prim_type.P_INTEGER →
        lops = R_basic_ops_IID) ∧
      get_inner_prod_right_ops lops.get_multiply = Except.ok rops ∧
      rops = R_basic_ops_DD ∧
      rops.get_add.op = basic_op.add ∧
      rops.get_add.left_type = prim_type.P_DOUBLE ∧
      rops.get_add.right_type = prim_type.P_DOUBLE ∧
      rops.get_add.output_type = prim_type.P_DOUBLE ∧
      rops.get_add.left_type = lops.get_multiply.output_type ∧
      rops.get_add.right_type = lops.get_multiply.output_type ∧
      (∀ prod, spec_inner_prod ⟨2, 3, 4⟩ ⟨3, 2, 8⟩ lops.get_multiply rops.get_add = some prod →
        prod.entry_size = prim_type.P_DOUBLE.get_size) :=
  ⟨by decide, by decide, by decide, by decide,
    operator_selection prim_type.P_INTEGER prim_type.P_DOUBLE ⟨2, 3, 4⟩ ⟨3, 2, 8⟩ (by decide)
      (by decide) (by decide) (by decide)⟩

/-- C21 (worker scheduling order), against the worker loop as the spec describes it.
Let every generator of `io_gens` be in a reachable state and let the worker's own
generator be one of them.  Then `get_next_io` of the worker returns, and the calls it
makes are: first `get_next_io()` on its own generator; after that only `steal_io()`
calls, all on peer generators, and only if the own generator returned the empty
request.  If the own generator has work left, its request is returned and no peer is
called.  The worker returns `true` exactly with a valid request, and it does so exactly
when `has_next_io()` is true on some generator; so it returns `false` (no work is left)
only when `has_next_io()` is false on its own generator and on every peer, and then the
generators are unchanged.  This holds wherever the scan of the peers starts. -/
theorem worker_scheduling_order (cfg : matrix_config) (blocks : List row_block)
    (n tot tc : Nat) (fid : Int) (w : matrix_worker_thread)
    (io_gens : List row_io_generator)
    (hn : blocks.length = n + 1)
    (hgens : ∀ i g, io_gens[i]? = some g →
      reachable cfg blocks tot tc fid i io_gens.length g)
    (hw : w.worker_id < io_gens.length) :
    ∃ found io gens1 r0 rest,
      w.get_next_io cfg blocks io_gens
        = Except.ok (found, io, gens1, (w.worker_id, io_call.next, r0) :: rest) ∧
      (∀ e ∈ rest, e.2.1 = io_call.steal ∧ e.1 ≠ w.worker_id ∧ e.1 < io_gens.length) ∧
      (rest ≠ [] → r0 = matrix_io.empty) ∧
      (∀ g, io_gens[w.worker_id]? = some g → g.has_next_io = true →
        rest = [] ∧ io = r0 ∧ found = true) ∧
      found = io.is_valid ∧
      (found = true ↔ ∃ g ∈ io_gens, g.has_next_io = true) ∧
      (found = false →
        io = matrix_io.empty ∧ gens1 = io_gens ∧ ∀ g ∈ gens1, g.has_next_io = false) := by
  have hinv : ∀ g ∈ io_gens, ∃ g0, gen_inv n g0 g := by
    intro g hg
    obtain ⟨i, hi⟩ := List.mem_iff_getElem?.1 hg
    obtain ⟨g0, -, h⟩ :=
      reachable_inv cfg blocks n tot tc fid i io_gens.length g hn (hgens i g hi)
    exact ⟨g0, h⟩
  have hgw : io_gens[w.worker_id]? = some io_gens[w.worker_id] :=
    List.getElem?_eq_getElem hw
  obtain ⟨g0, hg⟩ := hinv _ (List.getElem?_mem hgw)
  obtain ⟨r, g1, hcall, hemp, hval, hsame⟩ :=
    call_exhaustion cfg blocks n g0 io_gens[w.worker_id] io_call.next hn hg
  simp only [row_io_generator.call] at hcall
  by_cases hv : r.is_valid = true
  · have hnext : io_gens[w.worker_id].has_next_io = true := by
      by_contra hne
      have hf : io_gens[w.worker_id].has_next_io = false := by simpa using hne
      rw [hval.2 hf] at hv
      cases hv
    refine ⟨true, r, io_gens.set w.worker_id g1, r, [], ?_, by simp, by simp,
      fun _ _ _ => ⟨rfl, rfl, rfl⟩, hv.symm, ?_, ?_⟩
    · simp [matrix_worker_thread.get_next_io, hgw, hcall, hv]
    · exact ⟨fun _ => ⟨_, List.getElem?_mem hgw, hnext⟩, fun _ => rfl⟩
    · intro h; cases h
  · have hf : r.is_valid = false := by simpa using hv
    have hdone := hval.1 hf
    have hg1 : g1 = io_gens[w.worker_id] := hsame hdone
    have hset : io_gens.set w.worker_id g1 = io_gens := by
      rw [hg1]; exact set_same io_gens w.worker_id _ hgw
    obtain ⟨io, gens1, log, hrun, hlog, hnone, hex⟩ :=
      steal_scan_spec cfg blocks n hn (w.scan_order io_gens.length) io_gens hinv
        (fun p hp => ((mem_scan_order w io_gens.length p).1 hp).1)
    have hall : (∀ g ∈ io_gens, g.has_next_io = false) ↔
        ∀ p ∈ w.scan_order io_gens.length, ∀ g, io_gens[p]? = some g →
          g.has_next_io = false := by
      constructor
      · intro h p _ g hg
        exact h g (List.getElem?_mem hg)
      · intro h g hgm
        obtain ⟨i, hi⟩ := List.mem_iff_getElem?.1 hgm
        obtain ⟨hil, -⟩ := getElem_of_getElem? hi
        by_cases e : i = w.worker_id
        · rw [e, hgw] at hi; cases hi; exact hdone
        · exact h i ((mem_scan_order w io_gens.length i).2 ⟨hil, e⟩) g hi
    refine ⟨io.is_valid, io, gens1, r, log, ?_, ?_, fun _ => hemp.2 hdone, ?_, rfl, ?_, ?_⟩
    · simp [matrix_worker_thread.get_next_io, hgw, hcall, hf, hset, hrun]
    · intro e he
      obtain ⟨h1, h2⟩ := hlog e he
      obtain ⟨h3, h4⟩ := (mem_scan_order w io_gens.length e.1).1 h2
      exact ⟨h1, h4, h3⟩
    · intro g hgg hnext
      rw [hgw] at hgg
      cases hgg
      rw [hdone] at hnext
      cases hnext
    · constructor
      · intro hio
        by_contra hne
        have hnone2 : ∀ g ∈ io_gens, g.has_next_io = false := by
          intro g hgm
          by_contra hg2
          exact hne ⟨g, hgm, by simpa using hg2⟩
        rw [hex (hall.1 hnone2)] at hio
        cases hio
      · rintro ⟨g, hgm, hnext⟩
        by_contra hne
        have hio : io.is_valid = false := by simpa using hne
        have := hall.2 (hnone hio).2.2 g hgm
        rw [hnext] at this
        cases this
    · intro hio
      obtain ⟨h1, h2, h3⟩ := hnone hio
      refine ⟨h2, h1, ?_⟩
      rw [h1]
      exact hall.2 h3

/-- Witness of C21: worker 0 of the two workers of the example, its scan starting at
generator 1, in two states.  In the first its own generator is exhausted and generator 1
is as built: `get_next_io()` on generator 0 returns the empty request, the worker steals
row block 2 from generator 1 and returns `true`.  In the second both generators are
exhausted: both calls return the empty request and the worker returns `false`. -/
theorem worker_scheduling_order_witness :
    (example_blocks.length = 7 + 1 ∧
      (∀ i g, [example_gen0_done, example_gen][i]? = some g →
        reachable example_cfg example_blocks 26 3 0 i
          [example_gen0_done, example_gen].length g) ∧
      0 < [example_gen0_done, example_gen].length ∧
      matrix_worker_thread.get_next_io example_cfg example_blocks ⟨0, 1⟩
          [example_gen0_done, example_gen]
        = Except.ok (true, ⟨⟨8, 0⟩, 4, 3, 0, 25, 5, true⟩,
            [example_gen0_done, example_gen_stolen],
            [(0, io_call.next, matrix_io.empty),
              (1, io_call.steal, ⟨⟨8, 0⟩, 4, 3, 0, 25, 5, true⟩)]) ∧
      ∃ found io gens1 r0 rest,
        matrix_worker_thread.get_next_io example_cfg example_blocks ⟨0, 1⟩
            [example_gen0_done, example_gen]
          = Except.ok (found, io, gens1, (0, io_call.next, r0) :: rest) ∧
        (∀ e ∈ rest, e.2.1 = io_call.steal ∧ e.1 ≠ 0 ∧
          e.1 < [example_gen0_done, example_gen].length) ∧
        (rest ≠ [] → r0 = matrix_io.empty) ∧
        (∀ g, [example_gen0_done, example_gen][0]? = some g → g.has_next_io = true →
          rest = [] ∧ io = r0 ∧ found = true) ∧
        found = io.is_valid ∧
        (found = true ↔ ∃ g ∈ [example_gen0_done, example_gen], g.has_next_io = true) ∧
        (found = false →
          io = matrix_io.empty ∧ gens1 = [example_gen0_done, example_gen] ∧
            ∀ g ∈ gens1, g.has_next_io = false)) ∧
    (example_blocks.length = 7 + 1 ∧
      (∀ i g, [example_gen0_done, example_gen_done][i]? = some g →
        reachable example_cfg example_blocks 26 3 0 i
          [example_gen0_done, example_gen_done].length g) ∧
      0 < [example_gen0_done, example_gen_done].length ∧
      matrix_worker_thread.get_next_io example_cfg example_blocks ⟨0, 1⟩
          [example_gen0_done, example_gen_done]
        = Except.ok (false, matrix_io.empty, [example_gen0_done, example_gen_done],
            [(0, io_call.next, matrix_io.empty), (1, io_call.steal, matrix_io.empty)]) ∧
      ∃ found io gens1 r0 rest,
        matrix_worker_thread.get_next_io example_cfg example_blocks ⟨0, 1⟩
            [example_gen0_done, example_gen_done]
          = Except.ok (found, io, gens1, (0, io_call.next, r0) :: rest) ∧
        (∀ e ∈ rest, e.2.1 = io_call.steal ∧ e.1 ≠ 0 ∧
          e.1 < [example_gen0_done, example_gen_done].length) ∧
        (rest ≠ [] → r0 = matrix_io.empty) ∧
        (∀ g, [example_gen0_done, example_gen_done][0]? = some g →
          g.has_next_io = true → rest = [] ∧ io = r0 ∧ found = true) ∧
        found = io.is_valid ∧
        (found = true ↔
          ∃ g ∈ [example_gen0_done, example_gen_done], g.has_next_io = true) ∧
        (found = false →
          io = matrix_io.empty ∧ gens1 = [example_gen0_done, example_gen_done] ∧
            ∀ g ∈ gens1, g.has_next_io = false)) :=
  ⟨⟨by decide, example_steal_state_reachable, by decide, rfl,
      worker_scheduling_order example_cfg example_blocks 7 26 3 0 ⟨0, 1⟩
        [example_gen0_done, example_gen] (by decide) example_steal_state_reachable
        (by decide)⟩,
    ⟨by decide, example_idle_state_reachable, by decide, rfl,
      worker_scheduling_order example_cfg example_blocks 7 26 3 0 ⟨0, 1⟩
        [example_gen0_done, example_gen_done] (by decide) example_idle_state_reachable
        (by decide)⟩⟩

/-- C22 (the two fill rules define the same logical matrix). Let `sz ≥ 1` be the size of
an entry and `conv` the conversion of a `size_t` value to the entry type.  For every
`num_cols`, `row_idx`, `col_idx` and `num_eles`, `set_col_operate` writes
`(row_idx + i) * num_cols + col_idx` into slot `i < num_eles` and `set_row_operate`
writes `row_idx * num_cols + col_idx + i` (both modulo `2 ^ 64`).  Hence a column-major
matrix filled column by column with `set_col_operate(num_cols)` and a row-major matrix
filled row by row with `set_row_operate(num_cols)` hold the same value at every position
`(r, c)` with `r < nrow` and `c < ncol`, namely `r * num_cols + c` (modulo `2 ^ 64`,
which is `r * num_cols + c` itself when that is below `2 ^ 64`). -/
theorem fill_rules_agree {α : Type} (conv : Nat → α) (sz num_cols : Nat) (hsz : 1 ≤ sz) :
    (∀ (data : Nat → α) (arr num_eles row_idx col_idx i : Nat), i < num_eles →
      (set_col_operate conv sz num_cols).set data arr num_eles row_idx col_idx (arr + i * sz)
        = conv (((row_idx + i) * num_cols + col_idx) % 2 ^ 64) ∧
      (set_row_operate conv sz num_cols).set data arr num_eles row_idx col_idx (arr + i * sz)
        = conv ((row_idx * num_cols + col_idx + i) % 2 ^ 64)) ∧
    (∀ (nrow ncol : Nat) (data1 data2 : Nat → α) (r c : Nat), r < nrow → c < ncol →
      (type_mem_dense_matrix.create_set sz nrow ncol matrix_layout_t.L_COL
          (set_col_operate conv sz num_cols) data1).get r c
        = conv ((r * num_cols + c) % 2 ^ 64) ∧
      (type_mem_dense_matrix.create_set sz nrow ncol matrix_layout_t.L_ROW
          (set_row_operate conv sz num_cols) data2).get r c
        = conv ((r * num_cols + c) % 2 ^ 64) ∧
      (type_mem_dense_matrix.create_set sz nrow ncol matrix_layout_t.L_COL
          (set_col_operate conv sz num_cols) data1).get r c
        = (type_mem_dense_matrix.create_set sz nrow ncol matrix_layout_t.L_ROW
          (set_row_operate conv sz num_cols) data2).get r c ∧
      (r * num_cols + c < 2 ^ 64 →
        (type_mem_dense_matrix.create_set sz nrow ncol matrix_layout_t.L_COL
          (set_col_operate conv sz num_cols) data1).get r c = conv (r * num_cols + c))) := by
  have hslot : ∀ (i j : Nat) (arr n : Nat), i < n → j < n → arr + i * sz = arr + j * sz →
      i = j := by
    intro i j arr n _ _ h
    exact Nat.eq_of_mul_eq_mul_right hsz (Nat.add_left_cancel h)
  have hcol : ∀ (nrow ncol : Nat) (data1 : Nat → α) (r c : Nat), r < nrow → c < ncol →
      (type_mem_dense_matrix.create_set sz nrow ncol matrix_layout_t.L_COL
          (set_col_operate conv sz num_cols) data1).get r c
        = conv ((r * num_cols + c) % 2 ^ 64) := by
    intro nrow ncol data1 r c hr hc
    have h := (fill_loops nrow (fun a i => a * nrow * sz + i * sz)
      (fun a i => conv (((0 + i) * num_cols + a) % 2 ^ 64)) ncol
      (fun a i b j _ hi _ hj h =>
        (col_addr_inj sz nrow hsz i a j b hi hj h).symm) data1).1 c r hc hr
    rw [Nat.zero_add] at h
    exact h
  have hrow : ∀ (nrow ncol : Nat) (data2 : Nat → α) (r c : Nat), r < nrow → c < ncol →
      (type_mem_dense_matrix.create_set sz nrow ncol matrix_layout_t.L_ROW
          (set_row_operate conv sz num_cols) data2).get r c
        = conv ((r * num_cols + c) % 2 ^ 64) := by
    intro nrow ncol data2 r c hr hc
    have h := (fill_loops ncol (fun a i => a * ncol * sz + i * sz)
      (fun a i => conv ((a * num_cols + 0 + i) % 2 ^ 64)) nrow
      (fun a i b j _ hi _ hj h => row_addr_inj sz ncol hsz a i b j hi hj h) data2).1 r c hr hc
    rw [Nat.add_zero] at h
    exact h
  refine ⟨?_, ?_⟩
  · intro data arr num_eles row_idx col_idx i hi
    exact ⟨(fill_loop (fun i => arr + i * sz)
        (fun i => conv (((row_idx + i) * num_cols + col_idx) % 2 ^ 64)) num_eles
        (fun i j hi hj h => hslot i j arr num_eles hi hj h) data).1 i hi,
      (fill_loop (fun i => arr + i * sz)
        (fun i => conv ((row_idx * num_cols + col_idx + i) % 2 ^ 64)) num_eles
        (fun i j hi hj h => hslot i j arr num_eles hi hj h) data).1 i hi⟩
  · intro nrow ncol data1 data2 r c hr hc
    refine ⟨hcol nrow ncol data1 r c hr hc, hrow nrow ncol data2 r c hr hc, ?_, ?_⟩
    · rw [hcol nrow ncol data1 r c hr hc, hrow nrow ncol data2 r c hr hc]
    · intro hlt
      rw [hcol nrow ncol data1 r c hr hc, Nat.mod_eq_of_lt hlt]

/-- Witness of C22: eight-byte entries holding integers, rules for three columns. -/
theorem fill_rules_agree_witness :
    1 ≤ 8 ∧
    (∀ (data : Nat → Int) (arr num_eles row_idx col_idx i : Nat), i < num_eles →
      (set_col_operate (fun v => (v : Int)) 8 3).set data arr num_eles row_idx col_idx
          (arr + i * 8)
        = (((((row_idx + i) * 3 + col_idx) % 2 ^ 64 : Nat)) : Int) ∧
      (set_row_operate (fun v => (v : Int)) 8 3).set data arr num_eles row_idx col_idx
          (arr + i * 8)
        = ((((row_idx * 3 + col_idx + i) % 2 ^ 64 : Nat)) : Int)) ∧
    (∀ (nrow ncol : Nat) (data1 data2 : Nat → Int) (r c : Nat), r < nrow → c < ncol →
      (type_mem_dense_matrix.create_set 8 nrow ncol matrix_layout_t.L_COL
          (set_col_operate (fun v => (v : Int)) 8 3) data1).get r c
        = ((((r * 3 + c) % 2 ^ 64 : Nat)) : Int) ∧
      (type_mem_dense_matrix.create_set 8 nrow ncol matrix_layout_t.L_ROW
          (set_row_operate (fun v => (v : Int)) 8 3) data2).get r c
        = ((((r * 3 + c) % 2 ^ 64 : Nat)) : Int) ∧
      (type_mem_dense_matrix.create_set 8 nrow ncol matrix_layout_t.L_COL
          (set_col_operate (fun v => (v : Int)) 8 3) data1).get r c
        = (type_mem_dense_matrix.create_set 8 nrow ncol matrix_layout_t.L_ROW
          (set_row_operate (fun v => (v : Int)) 8 3) data2).get r c ∧
      (r * 3 + c < 2 ^ 64 →
        (type_mem_dense_matrix.create_set 8 nrow ncol matrix_layout_t.L_COL
          (set_col_operate (fun v => (v : Int)) 8 3) data1).get r c
          = ((r * 3 + c : Nat) : Int))) :=
  ⟨by decide, fill_rules_agree (fun v => (v : Int)) 8 3 (by decide)⟩

/-- C23 (the transposed view is zero-copy). For every `nrow`, `ncol`, entry size,
`r < nrow` and `c < ncol`, the pointer `get(r, c)` of a row-major `nrow x ncol` matrix is
the pointer `get(c, r)` of the column-major `ncol x nrow` matrix over the same buffer, and
it lies inside the buffer, which has the same size for both.  So the column-wise matrix
on the same data reads at `(c, r)` what the row-wise matrix reads at `(r, c)`: it is the
transpose, without any data movement. -/
theorem transposed_view_zero_copy {α : Type} (nrow ncol sz : Nat) (data : Nat → α)
    (r c : Nat) (hr : r < nrow) (hc : c < ncol) :
    mem_row_dense_matrix.get { nrow := nrow, ncol := ncol, entry_size := sz, data := data } r c
      = mem_col_dense_matrix.get
          { nrow := ncol, ncol := nrow, entry_size := sz, data := data } c r ∧
    mem_row_dense_matrix.get { nrow := nrow, ncol := ncol, entry_size := sz, data := data } r c
        + sz
      ≤ mem_col_dense_matrix.alloc_size
          { nrow := ncol, ncol := nrow, entry_size := sz, data := data } ∧
    mem_col_dense_matrix.alloc_size
        { nrow := ncol, ncol := nrow, entry_size := sz, data := data }
      = mem_row_dense_matrix.alloc_size
          { nrow := nrow, ncol := ncol, entry_size := sz, data := data } ∧
    (type_mem_dense_matrix.create sz ncol nrow matrix_layout_t.L_COL data).get c r
      = (type_mem_dense_matrix.create sz nrow ncol matrix_layout_t.L_ROW data).get r c := by
  refine ⟨rfl, ?_, ?_, rfl⟩
  · have h := get_in_buffer sz nrow ncol r c hr hc
    simp only [mem_row_dense_matrix.get, mem_row_dense_matrix.get_row,
      mem_col_dense_matrix.alloc_size]
    rw [Nat.mul_comm ncol nrow]
    exact h
  · simp only [mem_row_dense_matrix.alloc_size, mem_col_dense_matrix.alloc_size]
    rw [Nat.mul_comm ncol nrow]

/-- Witness of C23: position `(1, 2)` of a `2 x 3` matrix of eight-byte entries. -/
theorem transposed_view_zero_copy_witness :
    1 < 2 ∧ 2 < 3 ∧
    mem_row_dense_matrix.get
        { nrow := 2, ncol := 3, entry_size := 8, data := buffer_of [1, 2, 3, 4, 5, 6] } 1 2
      = mem_col_dense_matrix.get
          { nrow := 3, ncol := 2, entry_size := 8, data := buffer_of [1, 2, 3, 4, 5, 6] } 2 1 ∧
    mem_row_dense_matrix.get
        { nrow := 2, ncol := 3, entry_size := 8, data := buffer_of [1, 2, 3, 4, 5, 6] } 1 2
        + 8
      ≤ mem_col_dense_matrix.alloc_size
          { nrow := 3, ncol := 2, entry_size := 8, data := buffer_of [1, 2, 3, 4, 5, 6] } ∧
    mem_col_dense_matrix.alloc_size
        { nrow := 3, ncol := 2, entry_size := 8, data := buffer_of [1, 2, 3, 4, 5, 6] }
      = mem_row_dense_matrix.alloc_size
          { nrow := 2, ncol := 3, entry_size := 8, data := buffer_of [1, 2, 3, 4, 5, 6] } ∧
    (type_mem_dense_matrix.create 8 3 2 matrix_layout_t.L_COL
        (buffer_of [1, 2, 3, 4, 5, 6])).get 2 1
      = (type_mem_dense_matrix.create 8 2 3 matrix_layout_t.L_ROW
        (buffer_of [1, 2, 3, 4, 5, 6])).get 1 2 :=
  ⟨by decide, by decide,
    transposed_view_zero_copy 2 3 8 (buffer_of [1, 2, 3, 4, 5, 6]) 1 2 (by decide)
      (by decide)⟩

/-- C24 (the `has_data` assertions never fail). In every generator state reachable from
the constructor by `get_next_io` / `steal_io` calls, if `curr_io_off` is below the number
of chunks then the chunk at `curr_io_off` has `num_row_blocks > 0`, that is `has_data()`
is true; hence neither `get_next_io` nor `steal_io` ends in a failed assertion.  The
bounds `rb_io_size ≥ 1` and `rb_steal_io_size ≥ 1` are not needed for this. -/
theorem has_data_assertion (cfg : matrix_config) (blocks : List row_block)
    (n tot tc : Nat) (fid : Int) (gen_id num_gens : Nat) (g : row_io_generator)
    (hn : blocks.length = n + 1)
    (hg : reachable cfg blocks tot tc fid gen_id num_gens g) :
    (g.curr_io_off < g.ios.length →
      ∃ c, g.ios[g.curr_io_off]? = some c ∧ 0 < c.num_row_blocks ∧ c.has_data = true) ∧
    g.get_next_io cfg blocks ≠ Except.error io_error.assertion_failed ∧
    g.steal_io cfg blocks ≠ Except.error io_error.assertion_failed := by
  obtain ⟨g0, -, hinv⟩ := reachable_inv cfg blocks n tot tc fid gen_id num_gens g hn hg
  refine ⟨?_, ?_, ?_⟩
  · intro h
    have hc : g.ios[g.curr_io_off]? = some g.ios[g.curr_io_off] := List.getElem?_eq_getElem h
    have hpos := hinv.ahead _ _ hc (le_refl _)
    exact ⟨_, hc, hpos, by simp [large_row_io.has_data, hpos]⟩
  · obtain ⟨r, g1, h⟩ := call_total cfg blocks n g0 g io_call.next hn hinv
    simp only [row_io_generator.call] at h
    rw [h]; intro e; cases e
  · obtain ⟨r, g1, h⟩ := call_total cfg blocks n g0 g io_call.steal hn hinv
    simp only [row_io_generator.call] at h
    rw [h]; intro e; cases e

/-- Witness of C24: the generator of worker 1 over the example matrix after one steal. -/
theorem has_data_assertion_witness :
    example_blocks.length = 7 + 1 ∧
    reachable example_cfg example_blocks 26 3 0 1 2 example_gen_stolen ∧
    (example_gen_stolen.curr_io_off < example_gen_stolen.ios.length →
      ∃ c, example_gen_stolen.ios[example_gen_stolen.curr_io_off]? = some c ∧
        0 < c.num_row_blocks ∧ c.has_data = true) ∧
    example_gen_stolen.get_next_io example_cfg example_blocks
      ≠ Except.error io_error.assertion_failed ∧
    example_gen_stolen.steal_io example_cfg example_blocks
      ≠ Except.error io_error.assertion_failed :=
  ⟨by decide, example_gen_stolen_reachable,
    has_data_assertion example_cfg example_blocks 7 26 3 0 1 2 example_gen_stolen (by decide)
      example_gen_stolen_reachable⟩

/-- C25 (row-block lookups never go out of range). Over a row-block vector of `N + 1`
entries, every chunk of every reachable generator state has
`first_row_block + num_row_blocks ≤ N`; so the entries `blocks->at(first_row_block)`,
`blocks->at(first_row_block + num_row_blocks)` and
`blocks->at(first_row_block + min(num_row_blocks, rb_steal_io_size))` exist, and `get_io`
and `get_sub_io` on the chunk both return a request, for any column count and file id. -/
theorem lookups_in_range (cfg : matrix_config) (blocks : List row_block)
    (n tot tc : Nat) (fid : Int) (gen_id num_gens : Nat) (g : row_io_generator)
    (hn : blocks.length = n + 1)
    (hg : reachable cfg blocks tot tc fid gen_id num_gens g) :
    ∀ c ∈ g.ios, c.first_row_block + c.num_row_blocks ≤ n ∧
      (∃ b0, blocks[c.first_row_block]? = some b0) ∧
      (∃ b1, blocks[c.first_row_block + c.num_row_blocks]? = some b1) ∧
      (∃ b1, blocks[c.first_row_block + min c.num_row_blocks cfg.rb_steal_io_size]?
        = some b1) ∧
      ∀ (cols : Nat) (file : Int),
        (∃ r c1, c.get_io cfg blocks cols file = Except.ok (r, c1)) ∧
        (∃ r c1, c.get_sub_io cfg blocks cols file = Except.ok (r, c1)) := by
  obtain ⟨g0, -, hinv⟩ := reachable_inv cfg blocks n tot tc fid gen_id num_gens g hn hg
  intro c hc
  obtain ⟨i, hi⟩ := List.mem_iff_getElem?.1 hc
  have hr := hinv.in_range i c hi
  have hlt : c.first_row_block + c.num_row_blocks < blocks.length := by omega
  obtain ⟨b0, b1, h0, h1, _⟩ := get_io_ok cfg blocks c 0 0 hlt
  obtain ⟨_, b2, _, h2, _⟩ := get_sub_io_ok cfg blocks c 0 0 hlt
  refine ⟨hr, ⟨b0, h0⟩, ⟨b1, h1⟩, ⟨b2, h2⟩, ?_⟩
  intro cols file
  obtain ⟨_, _, _, _, h3⟩ := get_io_ok cfg blocks c cols file hlt
  obtain ⟨_, _, _, _, h4⟩ := get_sub_io_ok cfg blocks c cols file hlt
  exact ⟨⟨_, _, h3⟩, ⟨_, _, h4⟩⟩

/-- Witness of C25: the generator of worker 1 over the example matrix after one steal. -/
theorem lookups_in_range_witness :
    example_blocks.length = 7 + 1 ∧
    reachable example_cfg example_blocks 26 3 0 1 2 example_gen_stolen ∧
    ∀ c ∈ example_gen_stolen.ios, c.first_row_block + c.num_row_blocks ≤ 7 ∧
      (∃ b0, example_blocks[c.first_row_block]? = some b0) ∧
      (∃ b1, example_blocks[c.first_row_block + c.num_row_blocks]? = some b1) ∧
      (∃ b1, example_blocks[c.first_row_block
          + min c.num_row_blocks example_cfg.rb_steal_io_size]? = some b1) ∧
      ∀ (cols : Nat) (file : Int),
        (∃ r c1, c.get_io example_cfg example_blocks cols file = Except.ok (r, c1)) ∧
        (∃ r c1, c.get_sub_io example_cfg example_blocks cols file = Except.ok (r, c1)) :=
  ⟨by decide, example_gen_stolen_reachable,
    lookups_in_range example_cfg example_blocks 7 26 3 0 1 2 example_gen_stolen (by decide)
      example_gen_stolen_reachable⟩

/-- C27 (stealing a chunk piecewise is equivalent to reading it whole). Take a chunk with
data of a reachable generator state over strictly increasing offsets, with
`rb_steal_io_size ≥ 1`.  Calling `get_sub_io` until `has_data()` is false ends after at
most `num_row_blocks` calls, and `get_io` on the same chunk returns one request.  The
pieces are valid requests and there is a first one, which has the byte offset and the
top-left position of the whole request; each next piece starts at
the byte where the previous one ends; the byte sizes of the pieces sum to the byte size of
the whole request and their `num_rows` sum to its `num_rows`; both ways leave the same
empty chunk behind. -/
theorem steal_pieces_whole (cfg : matrix_config) (blocks : List row_block)
    (n tot tc : Nat) (fid : Int) (gen_id num_gens : Nat) (g : row_io_generator)
    (c : large_row_io) (cols : Nat) (file : Int) (fuel : Nat)
    (hn : blocks.length = n + 1)
    (hinc : offsets_increasing blocks)
    (hsteal : 1 ≤ cfg.rb_steal_io_size)
    (hg : reachable cfg blocks tot tc fid gen_id num_gens g)
    (hc : c ∈ g.ios)
    (hd : c.has_data = true)
    (hfuel : c.num_row_blocks ≤ fuel) :
    ∃ whole c1 pieces c2,
      c.get_io cfg blocks cols file = Except.ok (whole, c1) ∧
      c.steal_all cfg blocks cols file fuel = Except.ok (pieces, c2) ∧
      c2.has_data = false ∧ c2 = c1 ∧
      (∃ p rest, pieces = p :: rest ∧ p.byte_offset = whole.byte_offset ∧
        p.top_left = whole.top_left) ∧
      List.Chain' (fun a b => b.byte_offset = a.byte_offset + (a.byte_size : Int)) pieces ∧
      (pieces.map matrix_io.byte_size).sum = whole.byte_size ∧
      (pieces.map matrix_io.num_rows).sum = whole.num_rows ∧
      ∀ p ∈ pieces, p.is_valid = true ∧ p.num_cols = whole.num_cols ∧
        p.file_id = whole.file_id := by
  obtain ⟨g0, -, hinv⟩ := reachable_inv cfg blocks n tot tc fid gen_id num_gens g hn hg
  obtain ⟨i, hi⟩ := List.mem_iff_getElem?.1 hc
  have hr := hinv.in_range i c hi
  have hrows := reachable_rows_le cfg blocks n tot tc fid gen_id num_gens g hn hg c hc
  have hpos : 0 < c.num_row_blocks := by simpa [large_row_io.has_data] using hd
  obtain ⟨pieces, b0, b1, h0, h1, hrun, hne, hhead, hchain, hsize, hnum, hall⟩ :=
    steal_all_spec cfg blocks n cols file hn hinc hsteal fuel c hfuel hr hrows
  obtain ⟨a0, a1, ha0, ha1, hio⟩ := get_io_ok cfg blocks c cols file (by omega)
  rw [h0] at ha0; cases ha0
  rw [h1] at ha1; cases ha1
  have hle : b0.offset ≤ b1.offset :=
    offsets_le blocks hinc _ _ b0 b1 h0 h1 (Nat.le_add_right _ _)
  have hsz := off_to_size_nonneg (b1.offset - b0.offset) (by omega)
  refine ⟨_, _, pieces, _, hio, hrun, by simp [large_row_io.has_data], rfl, ?_, hchain, ?_, ?_,
    ?_⟩
  · cases pieces with
    | nil => exact absurd rfl (hne hpos)
    | cons p rest =>
      obtain ⟨hp1, hp2⟩ := hhead p rfl
      exact ⟨p, rest, rfl, hp1, hp2⟩
  · have : (((pieces.map matrix_io.byte_size).sum : Nat) : Int)
        = ((off_to_size (b1.offset - b0.offset) : Nat) : Int) := by rw [hsize, hsz]
    exact_mod_cast this
  · exact hnum
  · intro p hp
    exact hall p hp

/-- Witness of C27: the first chunk of worker 1 over the example matrix, two row blocks
stolen one at a time. -/
theorem steal_pieces_whole_witness :
    example_blocks.length = 7 + 1 ∧
    offsets_increasing example_blocks ∧
    1 ≤ example_cfg.rb_steal_io_size ∧
    reachable example_cfg example_blocks 26 3 0 1 2 example_gen ∧
    (⟨2, 2, 8⟩ : large_row_io) ∈ example_gen.ios ∧
    (⟨2, 2, 8⟩ : large_row_io).has_data = true ∧
    (⟨2, 2, 8⟩ : large_row_io).num_row_blocks ≤ 2 ∧
    ∃ whole c1 pieces c2,
      (⟨2, 2, 8⟩ : large_row_io).get_io example_cfg example_blocks 3 0
        = Except.ok (whole, c1) ∧
      (⟨2, 2, 8⟩ : large_row_io).steal_all example_cfg example_blocks 3 0 2
        = Except.ok (pieces, c2) ∧
      c2.has_data = false ∧ c2 = c1 ∧
      (∃ p rest, pieces = p :: rest ∧ p.byte_offset = whole.byte_offset ∧
        p.top_left = whole.top_left) ∧
      List.Chain' (fun a b => b.byte_offset = a.byte_offset + (a.byte_size : Int)) pieces ∧
      (pieces.map matrix_io.byte_size).sum = whole.byte_size ∧
      (pieces.map matrix_io.num_rows).sum = whole.num_rows ∧
      ∀ p ∈ pieces, p.is_valid = true ∧ p.num_cols = whole.num_cols ∧
        p.file_id = whole.file_id :=
  ⟨by decide, example_blocks_increasing, by decide, example_gen_reachable, by decide,
    by decide, by decide,
    steal_pieces_whole example_cfg example_blocks 7 26 3 0 1 2 example_gen ⟨2, 2, 8⟩ 3 0 2
      (by decide) example_blocks_increasing (by decide) example_gen_reachable (by decide)
      (by decide) (by decide)⟩

/-- C28 (every successful call makes progress). Let `rb_steal_io_size ≥ 1` and take a
reachable generator state that holds `K` unserved row blocks (the sum of
`num_row_blocks` over its chunks).  Each `get_next_io` or `steal_io` call made while
`has_next_io()` is true returns a valid request and leaves at most `K - 1` unserved row
blocks.  Hence, for every sequence of calls, whatever the mix, the run completes, at most
`K` of its calls are made while `has_next_io()` is true, and after `K` or more calls
`has_next_io()` is false.  (`rb_io_size ≥ 1` holds in every reachable state that has a
chunk and is not needed as a hypothesis.) -/
theorem calls_make_progress (cfg : matrix_config) (blocks : List row_block)
    (n tot tc : Nat) (fid : Int) (gen_id num_gens : Nat) (g : row_io_generator)
    (hn : blocks.length = n + 1)
    (hsteal : 1 ≤ cfg.rb_steal_io_size)
    (hg : reachable cfg blocks tot tc fid gen_id num_gens g) :
    (∀ k, g.has_next_io = true →
      ∃ r g1, g.call cfg blocks k = Except.ok (r, g1) ∧ r.is_valid = true ∧
        g1.num_blocks + 1 ≤ g.num_blocks) ∧
    (∀ calls, ∃ trace, run_calls cfg blocks g calls = Except.ok trace ∧
      live_calls cfg blocks g calls ≤ g.num_blocks ∧
      (g.num_blocks ≤ calls.length → (last_state g trace).has_next_io = false)) := by
  obtain ⟨g0, -, hinv⟩ := reachable_inv cfg blocks n tot tc fid gen_id num_gens g hn hg
  refine ⟨fun k hnext => call_progress cfg blocks n g0 g k hn hsteal hinv hnext, ?_⟩
  intro calls
  obtain ⟨trace, hrun, hlive, hfin⟩ := run_calls_progress cfg blocks n g0 hn hsteal calls g hinv
  exact ⟨trace, hrun, hlive, fun h => hfin (Or.inr h)⟩

/-- Witness of C28: the generator of worker 1 over the example matrix, as built; it
holds three row blocks. -/
theorem calls_make_progress_witness :
    example_blocks.length = 7 + 1 ∧
    1 ≤ example_cfg.rb_steal_io_size ∧
    reachable example_cfg example_blocks 26 3 0 1 2 example_gen ∧
    example_gen.num_blocks = 3 ∧
    (∀ k, example_gen.has_next_io = true →
      ∃ r g1, example_gen.call example_cfg example_blocks k = Except.ok (r, g1) ∧
        r.is_valid = true ∧ g1.num_blocks + 1 ≤ example_gen.num_blocks) ∧
    (∀ calls, ∃ trace, run_calls example_cfg example_blocks example_gen calls
        = Except.ok trace ∧
      live_calls example_cfg example_blocks example_gen calls ≤ example_gen.num_blocks ∧
      (example_gen.num_blocks ≤ calls.length →
        (last_state example_gen trace).has_next_io = false)) :=
  ⟨by decide, by decide, example_gen_reachable, by decide,
    calls_make_progress example_cfg example_blocks 7 26 3 0 1 2 example_gen (by decide)
      (by decide) example_gen_reachable⟩

/-- C29 (operator descriptors carry index and arity inside their info vector): the code
does not do this.  `R_FM_get_basic_op` and `R_FM_get_basic_uop` allocate the info vector
with `Rcpp::IntegerVector r_info(1)`, a vector of length 1, store the operator index at
position 0 and then store the operand count at position 1, which is outside the
allocation: for every name the call either returns `R_NilValue` (name not supported) or
stores out of bounds, and it does so for the supported names `add` and `neg`.  A vector
of length 2 would hold both values, and `get_op_idx` and `get_op_nop` would read them
back. -/
theorem op_info_out_of_bounds (code : basic_ops.op_idx → Int)
    (ucode : basic_uops.op_idx → Int) :
    (IntegerVector.create 1).size = 1 ∧
    (IntegerVector.create 1).store 1 2 = Except.error memory_error.out_of_bounds ∧
    (∀ pname, R_FM_get_basic_op code pname = Except.ok none ∨
      R_FM_get_basic_op code pname = Except.error memory_error.out_of_bounds) ∧
    (∀ pname, R_FM_get_basic_uop ucode pname = Except.ok none ∨
      R_FM_get_basic_uop ucode pname = Except.error memory_error.out_of_bounds) ∧
    R_FM_get_basic_op code ("add") = Except.error memory_error.out_of_bounds ∧
    R_FM_get_basic_uop ucode ("neg") = Except.error memory_error.out_of_bounds ∧
    (∀ idx : Int, ∃ v1 v2, (IntegerVector.create 2).store 0 idx = Except.ok v1 ∧
      v1.store 1 2 = Except.ok v2 ∧
      get_op_idx { info := v2, name := ("add") } = Except.ok idx ∧
      get_op_nop { info := v2, name := ("add") } = Except.ok 2) := by
  refine ⟨rfl, rfl, ?_, ?_, rfl, rfl, ?_⟩
  · intro pname
    simp only [R_FM_get_basic_op]
    split
    · exact Or.inl rfl
    · right
      rfl
  · intro pname
    simp only [R_FM_get_basic_uop]
    split
    · exact Or.inl rfl
    · right
      rfl
  · intro idx
    exact ⟨_, _, rfl, rfl, rfl, rfl⟩

/-- C30 (the strided workload visits every entry exactly once). Let
`stride = PAGE_SIZE / entry_size` be a power of two, `first < last`, and `first` a
multiple of the stride.  The constructor succeeds, and the loop
`while (has_next()) next_offset()` ends after exactly `last - first` calls.  The offsets
returned are pairwise distinct and are a permutation of the values `e * entry_size` for
`first ≤ e < last`; `has_next()` is true after `k` calls iff `k < last - first`, so it is
false after the last call and not before. -/
theorem strided_visit_once (PAGE_SIZE first last entry_size p fuel : Nat)
    (hstride : PAGE_SIZE / entry_size = 2 ^ p)
    (hfl : first < last)
    (hmul : PAGE_SIZE / entry_size ∣ first)
    (hfuel : last - first ≤ fuel) :
    ∃ w, stride_workload.create PAGE_SIZE first last entry_size = some w ∧
      (stride_workload.run fuel w).1.length = last - first ∧
      (stride_workload.run fuel w).1.Nodup ∧
      List.Perm (stride_workload.run fuel w).1
        ((List.range' first (last - first)).map (fun e => e * entry_size)) ∧
      (∀ off, off ∈ (stride_workload.run fuel w).1 ↔
        ∃ e, first ≤ e ∧ e < last ∧ off = e * entry_size) ∧
      (stride_workload.run fuel w).2.has_next = false ∧
      (stride_workload.run fuel w).2.num = last - first ∧
      ∀ k, (stride_workload.calls k w).2.has_next = true ↔ k < last - first := by
  have hes : entry_size ≠ 0 := by
    intro h0
    rw [h0, Nat.div_zero] at hstride
    have := Nat.two_pow_pos p
    omega
  rw [hstride] at hmul
  obtain ⟨a, rfl⟩ := hmul
  obtain ⟨len, rfl⟩ : ∃ len, last = 2 ^ p * a + len := ⟨last - 2 ^ p * a, by omega⟩
  have hlen : 2 ^ p * a + len - 2 ^ p * a = len := by omega
  rw [hlen] at hfuel ⊢
  obtain ⟨hrun, hcalls⟩ := run_visit p a len entry_size fuel hfuel
  have hperm : List.Perm
      ((visit_order (2 ^ p) len).map (fun c => (2 ^ p * a + c) * entry_size))
      ((List.range' (2 ^ p * a) len).map (fun e => e * entry_size)) := by
    have h1 := (visit_order_perm (2 ^ p) len (Nat.two_pow_pos p)).map
      (fun c => (2 ^ p * a + c) * entry_size)
    have h2 : (List.range' (2 ^ p * a) len).map (fun e => e * entry_size)
        = (List.range len).map (fun c => (2 ^ p * a + c) * entry_size) := by
      rw [List.range'_eq_map_range, List.map_map]
      rfl
    rw [h2]
    exact h1
  have hnodup : ((List.range' (2 ^ p * a) len).map (fun e => e * entry_size)).Nodup := by
    refine (List.nodup_range' _ _).map ?_
    intro e1 e2 h
    exact Nat.eq_of_mul_eq_mul_right (Nat.pos_of_ne_zero hes) h
  refine ⟨{ first := 2 ^ p * a, last := 2 ^ p * a + len, curr := 2 ^ p * a, num := 0,
            stride := 2 ^ p, entry_size := entry_size }, ?_, ?_, ?_, ?_, ?_, ?_, ?_, ?_⟩
  · simp [stride_workload.create, hes, hstride]
  · rw [hrun]; exact (calls_fields len _).2.2.2
  · rw [hrun, hcalls]; exact (List.Perm.nodup_iff hperm).2 hnodup
  · rw [hrun, hcalls]; exact hperm
  · intro off
    rw [hrun, hcalls, List.Perm.mem_iff hperm, List.mem_map]
    constructor
    · rintro ⟨e, he, rfl⟩
      rw [List.mem_range'_1] at he
      exact ⟨e, he.1, he.2, rfl⟩
    · rintro ⟨e, h1, h2, rfl⟩
      exact ⟨e, by rw [List.mem_range'_1]; exact ⟨h1, h2⟩, rfl⟩
  · rw [hrun]
    obtain ⟨h1, h2, h3, -⟩ := calls_fields len
      { first := 2 ^ p * a, last := 2 ^ p * a + len, curr := 2 ^ p * a, num := 0,
        stride := 2 ^ p, entry_size := entry_size }
    simp only [stride_workload.has_next, h1, h2, h3]
    simp
  · rw [hrun]
    obtain ⟨-, -, h3, -⟩ := calls_fields len
      { first := 2 ^ p * a, last := 2 ^ p * a + len, curr := 2 ^ p * a, num := 0,
        stride := 2 ^ p, entry_size := entry_size }
    rw [h3]
    simp
  · intro k
    obtain ⟨h1, h2, h3, -⟩ := calls_fields k
      { first := 2 ^ p * a, last := 2 ^ p * a + len, curr := 2 ^ p * a, num := 0,
        stride := 2 ^ p, entry_size := entry_size }
    simp only [stride_workload.has_next, h1, h2, h3]
    simp

/-- Witness of C30: pages of 4096 bytes, entries of 1024 bytes (stride 4), the entries
`4 .. 13`. -/
theorem strided_visit_once_witness :
    4096 / 1024 = 2 ^ 2 ∧
    4 < 14 ∧
    4096 / 1024 ∣ 4 ∧
    14 - 4 ≤ 10 ∧
    ∃ w, stride_workload.create 4096 4 14 1024 = some w ∧
      (stride_workload.run 10 w).1.length = 14 - 4 ∧
      (stride_workload.run 10 w).1.Nodup ∧
      List.Perm (stride_workload.run 10 w).1
        ((List.range' 4 (14 - 4)).map (fun e => e * 1024)) ∧
      (∀ off, off ∈ (stride_workload.run 10 w).1 ↔
        ∃ e, 4 ≤ e ∧ e < 14 ∧ off = e * 1024) ∧
      (stride_workload.run 10 w).2.has_next = false ∧
      (stride_workload.run 10 w).2.num = 14 - 4 ∧
      ∀ k, (stride_workload.calls k w).2.has_next = true ↔ k < 14 - 4 :=
  ⟨by decide, by decide, by decide, by decide,
    strided_visit_once 4096 4 14 1024 2 10 (by decide) (by decide) (by decide) (by decide)⟩

end fm
